import Mathlib

/-!
# Verification of the Sudoku Duel constraint engine

This file gives a shallow embedding, in Lean 4, of the algorithmic core of the
Sudoku Duel repository (`sudoku_dp.py` and `sudoku_hybrid.py`): the bitmask
backtracking solver, the solution counter, the constraint-propagation phase,
the MRV cell query, the puzzle generator's carving loop and the move scheduler.
Boards are `List (List Nat)` with `0` for an empty cell, mirroring the Python
`list[list[int]]` representation; the in-place mutation of the Python search is
modelled by threading the board and the three mask arrays through the
recursion.  Python's unbounded-int bit tricks are embedded on `Nat`: `1 << k`
is `1 <<< k`, `x |= m` is `x ||| m`, and `x &= ~m` (clearing the bits of `m`,
all masks being 9-bit) is `x ^^^ (x &&& m)`.

Theorems about these definitions settle the behavioural claims made by the
specification: uniqueness of generated puzzles, the `[0, limit]` range of the
solution counter, exact state restoration on failing branches, safety and
idempotence of constraint propagation, the zero-candidate signalling of the
MRV scan, validity of the shuffled reference grids, the completeness check,
staleness filtering in the scheduler, and clue preservation by the solvers.
-/

set_option maxRecDepth 10000

namespace SudokuDuel

/-! ## Board representation -/

/-- A cell address `(row, col)`. -/
abbrev Cell := Nat × Nat

/-- A 9×9 Sudoku grid: a list of rows, each a list of digits, `0` = empty. -/
abbrev Board := List (List Nat)

/-- Read `board[r][c]`, defaulting to `0` out of range (in range for all
reachable calls, as in the Python sources). -/
def getC (b : Board) (r c : Nat) : Nat := (b.getD r []).getD c 0

/-- Write `board[r][c] = v` (no-op out of range). -/
def setC (b : Board) (r c v : Nat) : Board := b.set r ((b.getD r []).set c v)

/-- The board is a 9×9 matrix. -/
def WF (b : Board) : Prop := b.length = 9 ∧ ∀ row ∈ b, row.length = 9

instance : DecidablePred WF := fun b => by unfold WF; infer_instance

/-- All entries are digits `0..9` (`0` = empty). -/
def Ranged (b : Board) : Prop := ∀ row ∈ b, ∀ v ∈ row, v ≤ 9

instance : DecidablePred Ranged := fun b => by unfold Ranged; infer_instance

/-- All 81 cell addresses in row-major order, as produced by the Python
`for r in range(9): for c in range(9)` loops. -/
def allCells : List Cell :=
  (List.range 9).flatMap (fun r => (List.range 9).map (fun c => (r, c)))

/-- Number of empty cells of the board. -/
def numZeros (b : Board) : Nat := allCells.countP (fun p => getC b p.1 p.2 == 0)

/-- `board[r][c]` is filled on every cell of the board. -/
def Complete (b : Board) : Prop := ∀ r < 9, ∀ c < 9, getC b r c ≠ 0

instance : DecidablePred Complete := fun b => by unfold Complete; infer_instance

/-- `s` agrees with `b` on every non-zero cell of `b` (the solution extends
the clues). -/
def ExtendsB (b s : Board) : Prop :=
  ∀ r < 9, ∀ c < 9, getC b r c ≠ 0 → getC s r c = getC b r c

instance : ∀ b s, Decidable (ExtendsB b s) := fun b s => by
  unfold ExtendsB; infer_instance

/-- The index of the 3×3 box of cell `(r, c)`: `(r // 3) * 3 + c // 3`. -/
def boxIdx (r c : Nat) : Nat := (r / 3) * 3 + c / 3

/-- The Sudoku invariant for partially filled grids: two distinct cells in the
same row, column or box never hold the same non-zero digit. -/
def ValidP (b : Board) : Prop :=
  ∀ r < 9, ∀ c < 9, ∀ r' < 9, ∀ c' < 9,
    (r, c) ≠ (r', c') → (r = r' ∨ c = c' ∨ boxIdx r c = boxIdx r' c') →
    getC b r c ≠ 0 → getC b r c ≠ getC b r' c'

set_option synthInstance.maxSize 1024 in
instance : DecidablePred ValidP := fun b => by unfold ValidP; infer_instance

/-- `s` is a full valid solution extending the clues of `b`. -/
def Completes (b s : Board) : Prop :=
  WF s ∧ Ranged s ∧ Complete s ∧ ValidP s ∧ ExtendsB b s

instance : ∀ b s, Decidable (Completes b s) := fun b s => by
  unfold Completes; infer_instance

/-! ## Bitmask state (`BitmaskSolver.rows/cols/boxes`, `_init_bitmasks`) -/

/-- The three arrays of 9-bit occupancy masks of `BitmaskSolver` (and of the
hybrid solver's `row_mask`/`col_mask`/`box_mask`). -/
structure BMasks where
  rows : List Nat
  cols : List Nat
  boxes : List Nat
deriving DecidableEq

/-- `_initialize_masks`: scan the board in row-major order, OR the bit
`1 << (v-1)` of every placed digit `v` into its row/col/box mask, and collect
the empty cells in row-major order. -/
def initializeMasks (board : Board) : BMasks × List Cell :=
  allCells.foldl
    (fun st p =>
      let r := p.1
      let c := p.2
      if getC board r c ≠ 0 then
        let mask := 1 <<< (getC board r c - 1)
        ({ rows := st.1.rows.set r (st.1.rows.getD r 0 ||| mask),
           cols := st.1.cols.set c (st.1.cols.getD c 0 ||| mask),
           boxes := st.1.boxes.set (boxIdx r c)
                      (st.1.boxes.getD (boxIdx r c) 0 ||| mask) }, st.2)
      else (st.1, st.2 ++ [(r, c)]))
    (⟨List.replicate 9 0, List.replicate 9 0, List.replicate 9 0⟩, [])

/-- The masks derived from a board. -/
def maskOf (b : Board) : BMasks := (initializeMasks b).1

/-- The row-major list of empty cells of a board, as collected by
`_initialize_masks`. -/
def emptyCellsOf (b : Board) : List Cell := (initializeMasks b).2

/-- The union mask `rows[r] | cols[c] | boxes[box(r,c)]` of digits excluded at
`(r, c)`. -/
def takenMask (m : BMasks) (r c : Nat) : Nat :=
  m.rows.getD r 0 ||| m.cols.getD c 0 ||| m.boxes.getD (boxIdx r c) 0

/-- `place`: set bit `mask` in the row/col/box masks of `(r, c)`
(`self.rows[r] |= mask` etc.). -/
def placeB (m : BMasks) (r c bi mask : Nat) : BMasks :=
  { rows := m.rows.set r (m.rows.getD r 0 ||| mask),
    cols := m.cols.set c (m.cols.getD c 0 ||| mask),
    boxes := m.boxes.set bi (m.boxes.getD bi 0 ||| mask) }

/-- `unplace`: clear bit `mask` again (`self.rows[r] &= ~mask` etc.; on the
9-bit masks of this program `x &= ~mask` is `x ^^^ (x &&& mask)`). -/
def unplaceB (m : BMasks) (r c bi mask : Nat) : BMasks :=
  { rows := m.rows.set r (m.rows.getD r 0 ^^^ (m.rows.getD r 0 &&& mask)),
    cols := m.cols.set c (m.cols.getD c 0 ^^^ (m.cols.getD c 0 &&& mask)),
    boxes := m.boxes.set bi (m.boxes.getD bi 0 ^^^ (m.boxes.getD bi 0 &&& mask)) }

/-- `_count_options`: the number of digits not excluded at `(r, c)`. -/
def countOptions (m : BMasks) (r c : Nat) : Nat :=
  (List.range 9).countP (fun k => takenMask m r c &&& (1 <<< k) == 0)

/-! ## The backtracking search (`_backtrack`) and the solution counter
(`_backtrack_count`)

The Python functions mutate `board` and the masks in place; here the state is
threaded explicitly, so each function returns its result together with the
final board and masks.  The recursion of `_backtrack` (over `idx`) and its
inner `for k in range(9)` loop are merged into one function on `(idx, k)`,
driven by a structural `fuel` counter so that the kernel can evaluate it; the
measure `(len - idx) * 11 + (10 - k)` drops on every call, so the entry fuel
`len * 11 + 11` provably never runs out.  The `taken` mask is computed once
per `_backtrack` call (at `k = 0`, i.e. at loop entry) and kept unchanged
across the iterations of the loop, exactly as in the Python code. -/

/-- `_backtrack(board, empty_cells, idx)` merged with its digit loop:
`btAux cells fuel idx k taken b m` is the state of `_backtrack` at cell index
`idx`, about to test digit `k + 1`.  Returns `(found, board, masks)`. -/
def btAux (cells : List Cell) :
    Nat → Nat → Nat → Nat → Board → BMasks → Bool × Board × BMasks
  | 0, _, _, _, b, m => (false, b, m)
  | fuel + 1, idx, k, taken0, b, m =>
    if hidx : cells.length ≤ idx then (true, b, m)
    else
      let rc := cells.get ⟨idx, Nat.lt_of_not_le hidx⟩
      let taken := if k = 0 then takenMask m rc.1 rc.2 else taken0
      if 9 ≤ k then (false, b, m)
      else if taken &&& (1 <<< k) ≠ 0 then btAux cells fuel idx (k + 1) taken b m
      else
        match btAux cells fuel (idx + 1) 0 0 (setC b rc.1 rc.2 (k + 1))
                (placeB m rc.1 rc.2 (boxIdx rc.1 rc.2) (1 <<< k)) with
        | (true, b2, m2) => (true, b2, m2)
        | (false, b2, m2) =>
            btAux cells fuel idx (k + 1) taken (setC b2 rc.1 rc.2 0)
              (unplaceB m2 rc.1 rc.2 (boxIdx rc.1 rc.2) (1 <<< k))

/-- `_backtrack(board, empty_cells, idx)`. -/
def backtrack (cells : List Cell) (idx : Nat) (b : Board) (m : BMasks) :
    Bool × Board × BMasks :=
  btAux cells (cells.length * 11 + 11) idx 0 0 b m

/-- `BitmaskSolver.solve`: initialize masks, sort the empty cells by their
number of options under the initial masks (a stable sort, extensionally equal
to Python's stable `list.sort`), run `_backtrack`, and return the filled board
on success. -/
def solveB (board : Board) : Option Board :=
  let st := initializeMasks board
  let cells := st.2.insertionSort
    (fun a b => countOptions st.1 a.1 a.2 ≤ countOptions st.1 b.1 b.2)
  match backtrack cells 0 board st.1 with
  | (true, b, _) => some b
  | (false, _, _) => none

/-- `_backtrack_count(board, empty_cells, idx, limit)` merged with its digit
loop, carrying the accumulated `count`; aborts with the accumulated count as
soon as `count >= limit`.  Returns `(count, board, masks)`. -/
def bcAux (cells : List Cell) (limit : Nat) :
    Nat → Nat → Nat → Nat → Nat → Board → BMasks → Nat × Board × BMasks
  | 0, _, _, _, _, b, m => (0, b, m)
  | fuel + 1, idx, k, taken0, count, b, m =>
    if hidx : cells.length ≤ idx then (1, b, m)
    else
      let rc := cells.get ⟨idx, Nat.lt_of_not_le hidx⟩
      let taken := if k = 0 then takenMask m rc.1 rc.2 else taken0
      if 9 ≤ k then (count, b, m)
      else if taken &&& (1 <<< k) ≠ 0 then
        bcAux cells limit fuel idx (k + 1) taken count b m
      else
        match bcAux cells limit fuel (idx + 1) 0 0 0 (setC b rc.1 rc.2 (k + 1))
                (placeB m rc.1 rc.2 (boxIdx rc.1 rc.2) (1 <<< k)) with
        | (sub, b2, m2) =>
            let b3 := setC b2 rc.1 rc.2 0
            let m3 := unplaceB m2 rc.1 rc.2 (boxIdx rc.1 rc.2) (1 <<< k)
            if limit ≤ count + sub then (count + sub, b3, m3)
            else bcAux cells limit fuel idx (k + 1) taken (count + sub) b3 m3

/-- `_backtrack_count(board, empty_cells, idx, limit)`. -/
def backtrackCount (cells : List Cell) (limit idx : Nat) (b : Board)
    (m : BMasks) : Nat × Board × BMasks :=
  bcAux cells limit (cells.length * 11 + 11) idx 0 0 0 b m

/-- `BitmaskSolver.count_solutions`: re-initialize the masks and count the
completions of the board (stopping early once `limit` many are found),
searching the empty cells in row-major order. -/
def countSolutions (board : Board) (limit : Nat) : Nat :=
  (backtrackCount (emptyCellsOf board) limit 0 board (maskOf board)).1

/-! ## The hybrid solver (`sudoku_hybrid.py`)

Python `set`s of digits drawn from `1..9` iterate in increasing order (small
ints hash to themselves), so they are embedded as strictly increasing
`List Nat`s; only membership, size, iteration order and `pop` on singletons
are ever used. -/

/-- The digits of row `row` (`set(board[row])`, as a list). -/
def rowVals (b : Board) (row : Nat) : List Nat := b.getD row []

/-- The digits of column `col` (`{board[i][col] for i in range(9)}`). -/
def colVals (b : Board) (col : Nat) : List Nat :=
  (List.range 9).map (fun i => getC b i col)

/-- The digits of the 3×3 box containing `(row, col)`. -/
def boxVals (b : Board) (row col : Nat) : List Nat :=
  (List.range 3).flatMap (fun i =>
    (List.range 3).map (fun j => getC b (3 * (row / 3) + i) (3 * (col / 3) + j)))

/-- `get_candidates`: `{1..9}` minus the digits of the row, the column and the
box; empty for a non-empty cell. -/
def getCandidates (b : Board) (row col : Nat) : List Nat :=
  if getC b row col ≠ 0 then []
  else ((List.range 9).map (· + 1)).filter
    (fun d => d ∉ rowVals b row ∧ d ∉ colVals b col ∧ d ∉ boxVals b row col)

/-- The hybrid `is_complete`: `all(self.board[i][j] != 0 ...)` — it checks
only that every cell is filled. -/
def isCompleteH (b : Board) : Bool :=
  (List.range 9).all (fun i => (List.range 9).all (fun j => getC b i j != 0))

/-- The dp `is_complete`: every cell filled, and every row, column and 3×3 box
holds 9 distinct values (`len(set(...)) == 9`). -/
def isCompleteDp (b : Board) : Bool :=
  ((List.range 9).all fun i => (List.range 9).all fun j => getC b i j != 0) &&
  ((List.range 9).all fun i => (b.getD i []).dedup.length == 9) &&
  ((List.range 9).all fun j =>
    ((List.range 9).map (fun i => getC b i j)).dedup.length == 9) &&
  ((List.range 3).all fun bi => (List.range 3).all fun bj =>
    ((List.range 3).flatMap fun i =>
      (List.range 3).map fun j => getC b (3 * bi + i) (3 * bj + j)).dedup.length
      == 9)

/-- The nine cells of the 3×3 subgrid with top-left corner `(sr, sc)`, in the
scan order of `solve_dnc_subgrid`. -/
def boxCellList (sr sc : Nat) : List Cell :=
  (List.range 3).flatMap (fun i => (List.range 3).map (fun j => (sr + i, sc + j)))

/-- One cell visit of `solve_dnc_subgrid`: fill the cell if it is empty and
has exactly one candidate at this moment, recording whether a fill happened. -/
def dncCellStep (st : Board × Bool) (p : Cell) : Board × Bool :=
  if getC st.1 p.1 p.2 = 0 then
    let cands := getCandidates st.1 p.1 p.2
    if cands.length = 1 then (setC st.1 p.1 p.2 (cands.headD 0), true)
    else st
  else st

/-- `solve_dnc_subgrid`: fill every cell of the subgrid that has exactly one
candidate at the moment it is scanned; report whether any cell was filled. -/
def solveDncSubgrid (b : Board) (sr sc : Nat) : Board × Bool :=
  (boxCellList sr sc).foldl dncCellStep (b, false)

/-- One subgrid visit of `solve_dnc_phase` (OR-ing the changed flags). -/
def dncBoxStep (st : Board × Bool) (p : Cell) : Board × Bool :=
  ((solveDncSubgrid st.1 p.1 p.2).1, st.2 || (solveDncSubgrid st.1 p.1 p.2).2)

/-- One full pass of `solve_dnc_phase` over the nine subgrids. -/
def dncPass (b : Board) : Board × Bool :=
  ((List.range 3).flatMap (fun i => (List.range 3).map (fun j => (3 * i, 3 * j)))).foldl
    dncBoxStep (b, false)

/-- The `while changed` loop of `solve_dnc_phase`, fuelled: every productive
pass fills at least one cell, so `numZeros b + 1` passes always reach the
fixed point on a 9×9 board. -/
def dncLoop : Nat → Board → Board
  | 0, b => b
  | fuel + 1, b =>
    let st := dncPass b
    if st.2 then dncLoop fuel st.1 else st.1

/-- `solve_dnc_phase`: repeat full passes until a pass places nothing. -/
def solveDncPhase (b : Board) : Board := dncLoop (numZeros b + 1) b

/-- `_init_bitmasks` of the hybrid solver (same construction as
`_initialize_masks`, without collecting the empty cells). -/
def initBitmasks (board : Board) : BMasks :=
  allCells.foldl
    (fun m p =>
      if getC board p.1 p.2 ≠ 0 then
        let bit := 1 <<< (getC board p.1 p.2 - 1)
        { rows := m.rows.set p.1 (m.rows.getD p.1 0 ||| bit),
          cols := m.cols.set p.2 (m.cols.getD p.2 0 ||| bit),
          boxes := m.boxes.set (boxIdx p.1 p.2)
                     (m.boxes.getD (boxIdx p.1 p.2) 0 ||| bit) }
      else m)
    ⟨List.replicate 9 0, List.replicate 9 0, List.replicate 9 0⟩

/-- `_candidates_bitmask`: `(~used) & 0x1FF`, the 9-bit complement of the
union mask (`0` for a filled cell). -/
def candidatesBitmask (board : Board) (m : BMasks) (row col : Nat) : Nat :=
  if getC board row col ≠ 0 then 0
  else 0x1FF ^^^ (0x1FF &&& takenMask m row col)

/-- `bin(mask).count("1")`, computed by peeling binary digits; `n` itself
bounds the number of binary digits of `n`. -/
def popCountAux : Nat → Nat → Nat
  | 0, _ => 0
  | f + 1, n => n % 2 + popCountAux f (n / 2)

/-- The number of 1-bits of `n`. -/
def popCount (n : Nat) : Nat := popCountAux n n

/-- `_bitmask_to_set`: the digits `d+1` whose bit `d` is set, in increasing
order. -/
def bitmaskToSet (mask : Nat) : List Nat :=
  ((List.range 9).filter (fun d => mask &&& (1 <<< d) ≠ 0)).map (· + 1)

/-- The scan of `_find_mrv_cell_bitmask`, carrying the current best cell and
its candidate count; returns immediately on a zero-candidate cell (unsolvable
signal) or on a freshly recorded single-candidate cell. -/
def mrvScan (board : Board) (m : BMasks) :
    List Cell → Option (Nat × Nat × List Nat) → Nat → Option (Nat × Nat × List Nat)
  | [], best, _ => best
  | p :: rest, best, bestCount =>
    if getC board p.1 p.2 = 0 then
      let mask := candidatesBitmask board m p.1 p.2
      let count := popCount mask
      if count = 0 then some (p.1, p.2, [])
      else if count < bestCount then
        if count = 1 then some (p.1, p.2, bitmaskToSet mask)
        else mrvScan board m rest (some (p.1, p.2, bitmaskToSet mask)) count
      else mrvScan board m rest best bestCount
    else mrvScan board m rest best bestCount

/-- `_find_mrv_cell_bitmask`: scan all cells in row-major order with an
initial best count of `10`. -/
def findMrvCellBitmask (board : Board) (m : BMasks) :
    Option (Nat × Nat × List Nat) :=
  mrvScan board m allCells none 10

/-- `self.dp_cache`: a map from board states to cached search outcomes,
embedded as an association list (latest binding first, as rebinding a key in a
`dict` overwrites it). -/
abbrev Cache := List (Board × Option Board)

/-- `state in self.dp_cache` / `self.dp_cache[state]`. -/
def lookupCache (cache : Cache) (b : Board) : Option (Option Board) :=
  match cache.find? (fun e => e.1 == b) with
  | some e => some e.2
  | none => none

/-- `_solve_dp_helper`, threading board, masks and cache.  The `for num in
candidates` loop is a fold that carries the state and stops trying digits
once a result is found; the fuel counts recursion depth (one cell is filled
per level, so `numZeros + 1` suffices on a 9×9 board). -/
def solveDpHelper : Nat → Board → BMasks → Cache →
    Option Board × Board × BMasks × Cache
  | 0, b, m, cache => (none, b, m, cache)
  | fuel + 1, b, m, cache =>
    match lookupCache cache b with
    | some res => (res, b, m, cache)
    | none =>
      match findMrvCellBitmask b m with
      | none => (some b, b, m, (b, some b) :: cache)
      | some (row, col, candidates) =>
        if candidates.isEmpty then (none, b, m, (b, none) :: cache)
        else
          let st := candidates.foldl
            (fun (st : Option Board × Board × BMasks × Cache) num =>
              match st with
              | (some res, b1, m1, c1) => (some res, b1, m1, c1)
              | (none, b1, m1, c1) =>
                let bit := 1 <<< (num - 1)
                match solveDpHelper fuel (setC b1 row col num)
                        (placeB m1 row col (boxIdx row col) bit) c1 with
                | (some res, b2, m2, c2) => (some res, b2, m2, c2)
                | (none, b2, m2, c2) =>
                    (none, setC b2 row col 0,
                     unplaceB m2 row col (boxIdx row col) bit, c2))
            (none, b, m, cache)
          match st with
          | (some res, b2, m2, c2) => (some res, b2, m2, (b, some res) :: c2)
          | (none, b2, m2, c2) => (none, b2, m2, (b, none) :: c2)

/-- One iteration of the `for num in candidates` loop of `_solve_dp_helper`
(the same function as the fold body in `solveDpHelper`, named for reuse in
proofs). -/
def dpStep (fuel row col : Nat) :
    (Option Board × Board × BMasks × Cache) → Nat →
    Option Board × Board × BMasks × Cache :=
  fun st num =>
    match st with
    | (some res, b1, m1, c1) => (some res, b1, m1, c1)
    | (none, b1, m1, c1) =>
      match solveDpHelper fuel (setC b1 row col num)
              (placeB m1 row col (boxIdx row col) (1 <<< (num - 1))) c1 with
      | (some res, b2, m2, c2) => (some res, b2, m2, c2)
      | (none, b2, m2, c2) =>
          (none, setC b2 row col 0,
           unplaceB m2 row col (boxIdx row col) (1 <<< (num - 1)), c2)

/-- The hybrid `solve_dp`: fresh cache, fresh bitmasks, then the recursive
helper. -/
def solveDp (board : Board) : Option Board :=
  (solveDpHelper (numZeros board + 1) board (initBitmasks board) []).1

/-- `solve_hybrid`: constraint propagation, then the memoized bitmask
search. -/
def solveHybrid (board : Board) : Option Board := solveDp (solveDncPhase board)

/-! ## The move scheduler (`self.pq`, `heapq`)

`heapq` maintains a binary min-heap over tuples `(len(candidates), row, col)`
compared lexicographically; only its multiset of entries and the minimum are
observable through `heappop`, so the queue is embedded as a plain list with a
pop-minimum operation. -/

/-- A priority-queue entry `(candidate count, row, col)`. -/
abbrev Entry := Nat × Nat × Nat

/-- Lexicographic comparison of entries (Python tuple `<=`). -/
def entryLe (a b : Entry) : Bool :=
  if a.1 < b.1 then true
  else if b.1 < a.1 then false
  else if a.2.1 < b.2.1 then true
  else if b.2.1 < a.2.1 then false
  else a.2.2 ≤ b.2.2

/-- The minimum entry of the queue (`pq[0]`). -/
def pqMin : List Entry → Option Entry
  | [] => none
  | e :: rest => some (rest.foldl (fun acc x => if entryLe x acc then x else acc) e)

/-- `heapq.heappop`: remove and return the minimum entry. -/
def heapPop (l : List Entry) : Option (Entry × List Entry) :=
  match pqMin l with
  | none => none
  | some e => some (e, l.erase e)

/-- `initialize_priority_queue`: push `(len(candidates), i, j)` for every
empty cell with a non-empty candidate set. -/
def initializePq (b : Board) : List Entry :=
  allCells.foldl
    (fun pq p =>
      if getC b p.1 p.2 = 0 then
        let c := getCandidates b p.1 p.2
        if c ≠ [] then pq ++ [(c.length, p.1, p.2)] else pq
      else pq)
    []

/-- The neighbour set of `(row, col)`: its row, column and box (a Python
`set`, embedded as a deduplicated list). -/
def neighborCells (row col : Nat) : List Cell :=
  (((List.range 9).map (fun i => (row, i))) ++
   ((List.range 9).map (fun i => (i, col))) ++
   boxCellList (3 * (row / 3)) (3 * (col / 3))).dedup

/-- `update_neighbors`: re-push fresh priority entries for every empty
neighbour with candidates (stale duplicates are tolerated). -/
def updateNeighbors (b : Board) (pq : List Entry) (row col : Nat) :
    List Entry :=
  (neighborCells row col).foldl
    (fun q p =>
      if getC b p.1 p.2 = 0 ∧ p ≠ (row, col) then
        let cand := getCandidates b p.1 p.2
        if cand ≠ [] then q ++ [(cand.length, p.1, p.2)] else q
      else q)
    pq

/-- The stale-entry cleaning loop of `ai_make_move`
(`while self.pq and self.board[...] != 0: heappop`), fuelled by the queue
length (each pop shortens the queue). -/
def cleanPqAux (b : Board) : Nat → List Entry → List Entry
  | 0, pq => pq
  | fuel + 1, pq =>
    match pqMin pq with
    | none => pq
    | some e =>
        if getC b e.2.1 e.2.2 ≠ 0 then cleanPqAux b fuel (pq.erase e) else pq

/-- Discard stale entries from the top of the queue. -/
def cleanPq (b : Board) (pq : List Entry) : List Entry := cleanPqAux b pq.length pq

/-- The cell-selection prefix of `ai_make_move`: discard stale entries,
rebuild the queue if it emptied while the board is incomplete, and pop the
entry to play (`None` when no entry remains). -/
def aiSelectCell (b : Board) (pq : List Entry) : Option (Entry × List Entry) :=
  let pq1 := cleanPq b pq
  let pq2 := if pq1.isEmpty && !isCompleteH b then initializePq b else pq1
  heapPop pq2

/-! ## Puzzle generation -/

/-- The base Latin pattern `(3*(r%3) + r//3 + c) % 9`. -/
def patternF (r c : Nat) : Nat := (3 * (r % 3) + r / 3 + c) % 9

/-- `get_base_pattern`: the pattern mapped through a permutation `nums` of the
digits `1..9`. -/
def basePattern (nums : List Nat) : Board :=
  (List.range 9).map (fun r => (List.range 9).map (fun c => nums.getD (patternF r c) 0))

/-- `zip(*board)` for a 9×9 board: the transposed board. -/
def transpose9 (b : Board) : Board :=
  (List.range 9).map (fun c => (List.range 9).map (fun r => getC b r c))

/-- One row-shuffling step of `shuffle_board`: each of the three row bands is
replaced by a permutation of its three rows (`random.shuffle(block)` can
produce exactly the permutations of the block). -/
def BandShuffled (b b' : Board) : Prop :=
  ∃ x0 x1 x2 y0 y1 y2 : List (List Nat),
    b = x0 ++ x1 ++ x2 ∧ b' = y0 ++ y1 ++ y2 ∧
    x0.length = 3 ∧ x1.length = 3 ∧ x2.length = 3 ∧
    y0.Perm x0 ∧ y1.Perm x1 ∧ y2.Perm x2

/-- `shuffle_board`: shuffle rows within bands, transpose, shuffle again,
transpose back. -/
def ShuffledBoard (b b' : Board) : Prop :=
  ∃ t u, BandShuffled b t ∧ BandShuffled (transpose9 t) u ∧ b' = transpose9 u

/-- The reference-grid step of both generators: a random digit permutation
through the base pattern, then `shuffle_board`. -/
def FullBoardGen (b : Board) : Prop :=
  ∃ nums, nums.Perm [1, 2, 3, 4, 5, 6, 7, 8, 9] ∧ ShuffledBoard (basePattern nums) b

/-- The carving loop of the dp `generate_puzzle`: visit the cells in order,
tentatively clear each one, keep the hole only if the board still has exactly
one solution, and stop once `target` holes are made. -/
def carve : List Cell → Board → Nat → Nat → Board
  | [], b, _, _ => b
  | p :: rest, b, holes, target =>
    if target ≤ holes then b
    else
      let backup := getC b p.1 p.2
      let b1 := setC b p.1 p.2 0
      if countSolutions b1 2 ≠ 1 then carve rest (setC b1 p.1 p.2 backup) holes target
      else carve rest b1 (holes + 1) target

/-- The carving loop of the hybrid `generate_puzzle`: clear the first
`cnt` cells of the shuffled cell list, unconditionally. -/
def removeCells (b : Board) (cells : List Cell) : Board :=
  cells.foldl (fun bb p => setC bb p.1 p.2 0) b

/-- The hybrid `generate_puzzle` as a relation between its random choices'
possible outcomes and the produced `(initial, solution)` pair: a shuffled full
board, a shuffled visiting order of all 81 cells, and the difficulty-derived
removal count (`Easy/Medium/Hard/other → 30/45/55/40`). -/
def HybridGenerates (initial solution : Board) : Prop :=
  ∃ (full : Board) (cells : List Cell) (cnt : Nat),
    FullBoardGen full ∧ cells.Perm allCells ∧
    cnt ∈ [30, 45, 55, 40] ∧ solution = full ∧
    initial = removeCells full (cells.take cnt)

/-! ## Concrete instances -/

/-- A grid on which `count_solutions(grid, 2)` returns `3`: the first branch
of the first empty cell admits exactly one completion, the second admits
two. -/
def exBoardC2 : Board := [
  [0, 1, 0, 6, 8, 3, 2, 4, 0],
  [3, 0, 0, 2, 4, 5, 9, 1, 7],
  [5, 4, 2, 0, 1, 7, 6, 0, 3],
  [2, 3, 0, 4, 5, 9, 0, 7, 6],
  [9, 5, 4, 0, 7, 6, 0, 3, 2],
  [0, 7, 0, 0, 3, 0, 4, 5, 9],
  [0, 0, 7, 3, 2, 4, 5, 9, 0],
  [0, 2, 0, 5, 9, 0, 7, 0, 8],
  [1, 0, 0, 7, 0, 8, 3, 2, 0]]

/-- The base-pattern board with the identity digit permutation (one possible
outcome of the reference-grid step, with all shuffles trivial). -/
def exFullBoard : Board := basePattern [1, 2, 3, 4, 5, 6, 7, 8, 9]

/-- 45 holes containing the unavoidable rectangle
`(0,0),(0,3),(1,0),(1,3),(2,0),(2,3)` (digits 1/4/7 in columns 0 and 3 of the
top band can be cycled), so the carved grid has two completions. -/
def exHolesC1 : List Cell :=
  [(0, 0), (0, 3), (1, 0), (1, 3), (2, 0), (2, 3), (4, 0), (4, 1), (4, 2)] ++
    (List.range 36).map (fun i => (5 + i / 9, i % 9))

/-- A full shuffle order of the 81 cells whose first 45 entries are
`exHolesC1`. -/
def exOrderC1 : List Cell := exHolesC1 ++ allCells.filter (fun p => p ∉ exHolesC1)

/-- The carved hybrid puzzle: `exFullBoard` with the 45 holes cleared. -/
def exInitialC1 : Board := removeCells exFullBoard (exOrderC1.take 45)

/-- A board whose row-major scan meets a single-candidate cell `(0,0)` before
the zero-candidate cell `(8,8)`. -/
def exBoardC6 : Board := [
  [0, 2, 3, 4, 5, 6, 7, 8, 9],
  [0, 0, 0, 0, 0, 0, 0, 0, 1],
  [0, 0, 0, 0, 0, 0, 0, 0, 0],
  [0, 0, 0, 0, 0, 0, 0, 0, 0],
  [0, 0, 0, 0, 0, 0, 0, 0, 0],
  [0, 0, 0, 0, 0, 0, 0, 0, 0],
  [0, 0, 0, 0, 0, 0, 0, 0, 0],
  [0, 0, 0, 0, 0, 0, 0, 0, 0],
  [2, 3, 4, 5, 6, 7, 8, 9, 0]]

/-- The all-ones board: completely filled but invalid. -/
def exAllOnes : Board := List.replicate 9 (List.replicate 9 1)

/-! ## Invariants used by the correctness proofs -/

/-- The masks mirror the board exactly: bit `t` of a row/col/box mask is set
iff the digit `t+1` occurs in that row/col/box. -/
def MasksSync (b : Board) (m : BMasks) : Prop :=
  m.rows.length = 9 ∧ m.cols.length = 9 ∧ m.boxes.length = 9 ∧
  (∀ r < 9, ∀ t, (m.rows.getD r 0).testBit t = true ↔ ∃ c < 9, getC b r c = t + 1) ∧
  (∀ c < 9, ∀ t, (m.cols.getD c 0).testBit t = true ↔ ∃ r < 9, getC b r c = t + 1) ∧
  (∀ bi < 9, ∀ t, (m.boxes.getD bi 0).testBit t = true ↔
    ∃ r < 9, ∃ c < 9, boxIdx r c = bi ∧ getC b r c = t + 1)

/-- The cells of `cells` from position `idx` on are exactly the empty cells of
the board, without duplicates. -/
def CellsInv (b : Board) (cells : List Cell) (idx : Nat) : Prop :=
  (cells.drop idx).Nodup ∧
  ∀ p : Cell, p ∈ cells.drop idx ↔ (p.1 < 9 ∧ p.2 < 9 ∧ getC b p.1 p.2 = 0)

/-- Every successful entry of the dp cache extends its key board. -/
def CacheExtends (cache : Cache) : Prop :=
  ∀ e ∈ cache, ∀ s, e.2 = some s → ExtendsB e.1 s

/-- The box with block coordinates `(br, bc)`, as the list of its nine
values. -/
def boxListAt (b : Board) (br bc : Nat) : List Nat := boxVals b (3 * br) (3 * bc)

/-- Every row, column and 3×3 box is a permutation of the digits `1..9`. -/
def UnitPerms (b : Board) : Prop :=
  (∀ r < 9, (rowVals b r).Perm [1, 2, 3, 4, 5, 6, 7, 8, 9]) ∧
  (∀ c < 9, (colVals b c).Perm [1, 2, 3, 4, 5, 6, 7, 8, 9]) ∧
  (∀ br < 3, ∀ bc < 3, (boxListAt b br bc).Perm [1, 2, 3, 4, 5, 6, 7, 8, 9])

/-! ## List and board basics -/

theorem listGetD_set_ne {α : Type} {i j : Nat} (h : i ≠ j) (l : List α) (a d : α) :
    (l.set i a).getD j d = l.getD j d := by
  simp [List.getD_eq_getElem?_getD, List.getElem?_set_ne h]

theorem listGetD_set_self {α : Type} {i : Nat} {l : List α} (h : i < l.length)
    (a d : α) : (l.set i a).getD i d = a := by
  simp [List.getD_eq_getElem?_getD, List.getElem?_set_self, h]

theorem listSet_getD_self {α : Type} : ∀ (l : List α) (i : Nat) (d : α),
    l.set i (l.getD i d) = l
  | [], _, _ => by simp
  | _ :: _, 0, _ => by simp [List.getD_cons_zero]
  | x :: xs, n + 1, d => by
    simp only [List.getD_cons_succ, List.set]
    rw [listSet_getD_self xs n d]

theorem listSet_of_length_le {α : Type} {i : Nat} {l : List α} (h : l.length ≤ i)
    (a : α) : l.set i a = l := by
  induction l generalizing i with
  | nil => simp
  | cons x xs ih =>
    cases i with
    | zero => simp at h
    | succ n => simp at h; simp [List.set, ih h]

theorem getC_setC_ne {r c r' c' : Nat} (b : Board) (v : Nat)
    (h : (r, c) ≠ (r', c')) : getC (setC b r c v) r' c' = getC b r' c' := by
  unfold getC setC
  rcases eq_or_ne r r' with rfl | hr
  · have hc : c ≠ c' := by intro hc; exact h (by simp [hc])
    rcases Nat.lt_or_ge r b.length with hlt | hge
    · rw [listGetD_set_self hlt, listGetD_set_ne hc]
    · rw [listSet_of_length_le hge]
  · rw [listGetD_set_ne hr]

theorem getC_setC_self {r c : Nat} {b : Board} (hwf : WF b) (hr : r < 9)
    (hc : c < 9) (v : Nat) : getC (setC b r c v) r c = v := by
  obtain ⟨hlen, hrows⟩ := hwf
  unfold getC setC
  have hrb : r < b.length := by omega
  rw [listGetD_set_self hrb]
  have hmem : b.getD r [] ∈ b := by
    rw [List.getD_eq_getElem?_getD, List.getElem?_eq_getElem hrb]
    exact List.getElem_mem hrb
  have : (b.getD r []).length = 9 := hrows _ hmem
  rw [listGetD_set_self (by omega)]

theorem setC_setC (b : Board) (r c v w : Nat) :
    setC (setC b r c v) r c w = setC b r c w := by
  unfold setC
  rcases Nat.lt_or_ge r b.length with hlt | hge
  · rw [listGetD_set_self hlt, List.set_set, List.set_set]
  · rw [listSet_of_length_le hge, listSet_of_length_le hge]

theorem setC_getC_self (b : Board) (r c : Nat) : setC b r c (getC b r c) = b := by
  unfold setC getC
  rw [listSet_getD_self, listSet_getD_self]

theorem getD_mem_of_lt {α : Type} {l : List α} {i : Nat} (h : i < l.length)
    (d : α) : l.getD i d ∈ l := by
  rw [List.getD_eq_getElem?_getD, List.getElem?_eq_getElem h]
  exact List.getElem_mem h

theorem WF_setC {b : Board} (hwf : WF b) (r c v : Nat) : WF (setC b r c v) := by
  obtain ⟨hlen, hrows⟩ := hwf
  rcases Nat.lt_or_ge r b.length with hlt | hge
  · constructor
    · simpa [setC] using hlen
    · intro row hrow
      rcases List.mem_or_eq_of_mem_set hrow with hmem | rfl
      · exact hrows _ hmem
      · simpa using hrows _ (getD_mem_of_lt hlt [])
  · unfold setC
    rw [listSet_of_length_le hge]
    exact ⟨hlen, hrows⟩

theorem Ranged_setC {b : Board} (hran : Ranged b) {v : Nat} (hv : v ≤ 9)
    (r c : Nat) : Ranged (setC b r c v) := by
  rcases Nat.lt_or_ge r b.length with hlt | hge
  · intro row hrow x hx
    rcases List.mem_or_eq_of_mem_set hrow with hmem | rfl
    · exact hran _ hmem _ hx
    · rcases List.mem_or_eq_of_mem_set hx with hmem2 | rfl
      · exact hran _ (getD_mem_of_lt hlt []) _ hmem2
      · exact hv
  · unfold setC
    rw [listSet_of_length_le hge]
    exact hran

theorem mem_allCells {p : Cell} : p ∈ allCells ↔ p.1 < 9 ∧ p.2 < 9 := by
  obtain ⟨r, c⟩ := p
  simp [allCells, List.mem_flatMap]

theorem nodup_allCells : allCells.Nodup := by decide

theorem length_allCells : allCells.length = 81 := by decide

theorem numZeros_setC_lt {b : Board} {r c v : Nat} (hwf : WF b) (hr : r < 9)
    (hc : c < 9) (h0 : getC b r c = 0) (hv : v ≠ 0) :
    numZeros (setC b r c v) < numZeros b := by
  have hmem : (r, c) ∈ allCells := mem_allCells.mpr ⟨hr, hc⟩
  obtain ⟨l₁, l₂, hsplit⟩ := List.append_of_mem hmem
  have hnd : allCells.Nodup := nodup_allCells
  rw [hsplit] at hnd
  rw [List.nodup_append] at hnd
  obtain ⟨-, hnd2, hdisj⟩ := hnd
  have hn1 : (r, c) ∉ l₁ := fun hmem1 => hdisj hmem1 (by simp)
  have hn2 : (r, c) ∉ l₂ := (List.nodup_cons.mp hnd2).1
  have hcongr1 : ∀ l : List Cell, (r, c) ∉ l →
      l.countP (fun p => getC (setC b r c v) p.1 p.2 == 0) =
      l.countP (fun p => getC b p.1 p.2 == 0) := by
    intro l hnl
    apply List.countP_congr
    intro p hp
    have hne : (r, c) ≠ (p.1, p.2) := by
      intro he
      have hpe : p = (r, c) := by cases p; simpa using he.symm
      rw [hpe] at hp
      exact hnl hp
    rw [getC_setC_ne b v hne]
  unfold numZeros
  rw [hsplit, List.countP_append, List.countP_append, List.countP_cons,
    List.countP_cons, hcongr1 l₁ hn1, hcongr1 l₂ hn2]
  have hval : getC (setC b r c v) r c = v := getC_setC_self hwf hr hc v
  simp only [hval, h0]
  simp [hv]

/-! ## Characterization of the bitmask initialization -/

theorem testBit_one_shiftLeft (k t : Nat) : (1 <<< k).testBit t = decide (t = k) := by
  rw [Nat.shiftLeft_eq, one_mul]
  rcases eq_or_ne t k with rfl | hne
  · simp [Nat.testBit_two_pow_self]
  · simp [Nat.testBit_two_pow_of_ne (Ne.symm hne), hne]

theorem initMasksAux_rows (b : Board) :
    ∀ (cells : List Cell) (st : BMasks × List Cell) (r t : Nat),
      st.1.rows.length = 9 → (∀ p ∈ cells, p.1 < 9 ∧ p.2 < 9) →
      (((cells.foldl
        (fun st p =>
          if getC b p.1 p.2 ≠ 0 then
            let mask := 1 <<< (getC b p.1 p.2 - 1)
            ({ rows := st.1.rows.set p.1 (st.1.rows.getD p.1 0 ||| mask),
               cols := st.1.cols.set p.2 (st.1.cols.getD p.2 0 ||| mask),
               boxes := st.1.boxes.set (boxIdx p.1 p.2)
                          (st.1.boxes.getD (boxIdx p.1 p.2) 0 ||| mask) }, st.2)
          else (st.1, st.2 ++ [(p.1, p.2)])) st).1.rows.getD r 0).testBit t = true ↔
        ((st.1.rows.getD r 0).testBit t = true ∨
          ∃ c, (r, c) ∈ cells ∧ getC b r c = t + 1)) := by
  intro cells
  induction cells with
  | nil => simp
  | cons p ps ih =>
    intro st r t hlen hran
    obtain ⟨p1, p2⟩ := p
    obtain ⟨hp, hps⟩ := List.forall_mem_cons.mp hran
    simp only [List.foldl_cons]
    by_cases hz : getC b p1 p2 ≠ 0
    · simp only [hz, ne_eq, not_false_eq_true, if_true]
      refine Iff.trans (ih _ r t (by simpa using hlen) hps) ?_
      rcases eq_or_ne p1 r with rfl | hpr
      · simp only [listGetD_set_self (show p1 < st.1.rows.length by omega)]
        rw [Nat.testBit_lor, Bool.or_eq_true, testBit_one_shiftLeft]
        constructor
        · rintro ((h | h) | h)
          · exact Or.inl h
          · refine Or.inr ⟨p2, List.mem_cons_self _ _, ?_⟩
            have := of_decide_eq_true h
            omega
          · obtain ⟨c, hc, hval⟩ := h
            exact Or.inr ⟨c, List.mem_cons_of_mem _ hc, hval⟩
        · rintro (h | h)
          · exact Or.inl (Or.inl h)
          · obtain ⟨c, hc, hval⟩ := h
            rcases List.mem_cons.mp hc with hceq | hcmem
            · obtain ⟨-, hc2⟩ := Prod.mk.injEq .. ▸ hceq
              refine Or.inl (Or.inr ?_)
              rw [hc2] at hval
              simp [hval]
            · exact Or.inr ⟨c, hcmem, hval⟩
      · rw [listGetD_set_ne hpr]
        constructor
        · rintro (h | h)
          · exact Or.inl h
          · obtain ⟨c, hc, hval⟩ := h
            exact Or.inr ⟨c, List.mem_cons_of_mem _ hc, hval⟩
        · rintro (h | h)
          · exact Or.inl h
          · obtain ⟨c, hc, hval⟩ := h
            rcases List.mem_cons.mp hc with hceq | hcmem
            · obtain ⟨hc1, -⟩ := Prod.mk.injEq .. ▸ hceq
              exact absurd hc1.symm hpr
            · exact Or.inr ⟨c, hcmem, hval⟩
    · push_neg at hz
      simp only [hz, ne_eq, not_true_eq_false, if_false]
      refine Iff.trans (ih _ r t hlen hps) ?_
      constructor
      · rintro (h | h)
        · exact Or.inl h
        · obtain ⟨c, hc, hval⟩ := h
          exact Or.inr ⟨c, List.mem_cons_of_mem _ hc, hval⟩
      · rintro (h | h)
        · exact Or.inl h
        · obtain ⟨c, hc, hval⟩ := h
          rcases List.mem_cons.mp hc with hceq | hcmem
          · obtain ⟨hc1, hc2⟩ := Prod.mk.injEq .. ▸ hceq
            rw [hc1, hc2] at hval
            rw [hz] at hval
            omega
          · exact Or.inr ⟨c, hcmem, hval⟩


theorem initMasksAux_cols (b : Board) :
    ∀ (cells : List Cell) (st : BMasks × List Cell) (c t : Nat),
      st.1.cols.length = 9 → (∀ p ∈ cells, p.1 < 9 ∧ p.2 < 9) →
      (((cells.foldl
        (fun st p =>
          if getC b p.1 p.2 ≠ 0 then
            let mask := 1 <<< (getC b p.1 p.2 - 1)
            ({ rows := st.1.rows.set p.1 (st.1.rows.getD p.1 0 ||| mask),
               cols := st.1.cols.set p.2 (st.1.cols.getD p.2 0 ||| mask),
               boxes := st.1.boxes.set (boxIdx p.1 p.2)
                          (st.1.boxes.getD (boxIdx p.1 p.2) 0 ||| mask) }, st.2)
          else (st.1, st.2 ++ [(p.1, p.2)])) st).1.cols.getD c 0).testBit t = true ↔
        ((st.1.cols.getD c 0).testBit t = true ∨
          ∃ r, (r, c) ∈ cells ∧ getC b r c = t + 1)) := by
  intro cells
  induction cells with
  | nil => simp
  | cons p ps ih =>
    intro st c t hlen hran
    obtain ⟨p1, p2⟩ := p
    obtain ⟨hp, hps⟩ := List.forall_mem_cons.mp hran
    simp only [List.foldl_cons]
    by_cases hz : getC b p1 p2 ≠ 0
    · simp only [hz, ne_eq, not_false_eq_true, if_true]
      refine Iff.trans (ih _ c t (by simpa using hlen) hps) ?_
      rcases eq_or_ne p2 c with rfl | hpc
      · simp only [listGetD_set_self (show p2 < st.1.cols.length by omega)]
        rw [Nat.testBit_lor, Bool.or_eq_true, testBit_one_shiftLeft]
        constructor
        · rintro ((h | h) | h)
          · exact Or.inl h
          · refine Or.inr ⟨p1, List.mem_cons_self _ _, ?_⟩
            have := of_decide_eq_true h
            omega
          · obtain ⟨r, hr, hval⟩ := h
            exact Or.inr ⟨r, List.mem_cons_of_mem _ hr, hval⟩
        · rintro (h | h)
          · exact Or.inl (Or.inl h)
          · obtain ⟨r, hr, hval⟩ := h
            rcases List.mem_cons.mp hr with hceq | hcmem
            · obtain ⟨hc1, -⟩ := Prod.mk.injEq .. ▸ hceq
              refine Or.inl (Or.inr ?_)
              rw [hc1] at hval
              simp [hval]
            · exact Or.inr ⟨r, hcmem, hval⟩
      · rw [listGetD_set_ne hpc]
        constructor
        · rintro (h | h)
          · exact Or.inl h
          · obtain ⟨r, hr, hval⟩ := h
            exact Or.inr ⟨r, List.mem_cons_of_mem _ hr, hval⟩
        · rintro (h | h)
          · exact Or.inl h
          · obtain ⟨r, hr, hval⟩ := h
            rcases List.mem_cons.mp hr with hceq | hcmem
            · obtain ⟨-, hc2⟩ := Prod.mk.injEq .. ▸ hceq
              exact absurd hc2.symm hpc
            · exact Or.inr ⟨r, hcmem, hval⟩
    · push_neg at hz
      simp only [hz, ne_eq, not_true_eq_false, if_false]
      refine Iff.trans (ih _ c t hlen hps) ?_
      constructor
      · rintro (h | h)
        · exact Or.inl h
        · obtain ⟨r, hr, hval⟩ := h
          exact Or.inr ⟨r, List.mem_cons_of_mem _ hr, hval⟩
      · rintro (h | h)
        · exact Or.inl h
        · obtain ⟨r, hr, hval⟩ := h
          rcases List.mem_cons.mp hr with hceq | hcmem
          · obtain ⟨hc1, hc2⟩ := Prod.mk.injEq .. ▸ hceq
            rw [hc1, hc2] at hval
            rw [hz] at hval
            omega
          · exact Or.inr ⟨r, hcmem, hval⟩

theorem initMasksAux_boxes (b : Board) :
    ∀ (cells : List Cell) (st : BMasks × List Cell) (bi t : Nat),
      st.1.boxes.length = 9 → (∀ p ∈ cells, p.1 < 9 ∧ p.2 < 9) →
      (((cells.foldl
        (fun st p =>
          if getC b p.1 p.2 ≠ 0 then
            let mask := 1 <<< (getC b p.1 p.2 - 1)
            ({ rows := st.1.rows.set p.1 (st.1.rows.getD p.1 0 ||| mask),
               cols := st.1.cols.set p.2 (st.1.cols.getD p.2 0 ||| mask),
               boxes := st.1.boxes.set (boxIdx p.1 p.2)
                          (st.1.boxes.getD (boxIdx p.1 p.2) 0 ||| mask) }, st.2)
          else (st.1, st.2 ++ [(p.1, p.2)])) st).1.boxes.getD bi 0).testBit t = true ↔
        ((st.1.boxes.getD bi 0).testBit t = true ∨
          ∃ r c, (r, c) ∈ cells ∧ boxIdx r c = bi ∧ getC b r c = t + 1)) := by
  intro cells
  induction cells with
  | nil => simp
  | cons p ps ih =>
    intro st bi t hlen hran
    obtain ⟨p1, p2⟩ := p
    obtain ⟨hp, hps⟩ := List.forall_mem_cons.mp hran
    simp only [List.foldl_cons]
    by_cases hz : getC b p1 p2 ≠ 0
    · simp only [hz, ne_eq, not_false_eq_true, if_true]
      refine Iff.trans (ih _ bi t (by simpa using hlen) hps) ?_
      rcases eq_or_ne (boxIdx p1 p2) bi with hbeq | hbne
      · rw [← hbeq, listGetD_set_self (show boxIdx p1 p2 < st.1.boxes.length by
          obtain ⟨h1, h2⟩ := hp
          simp only [boxIdx]
          omega)]
        rw [Nat.testBit_lor, Bool.or_eq_true, testBit_one_shiftLeft]
        constructor
        · rintro ((h | h) | h)
          · exact Or.inl h
          · refine Or.inr ⟨p1, p2, List.mem_cons_self _ _, rfl, ?_⟩
            have := of_decide_eq_true h
            omega
          · obtain ⟨r, c, hrc, hbox, hval⟩ := h
            exact Or.inr ⟨r, c, List.mem_cons_of_mem _ hrc, hbox, hval⟩
        · rintro (h | h)
          · exact Or.inl (Or.inl h)
          · obtain ⟨r, c, hrc, hbox, hval⟩ := h
            rcases List.mem_cons.mp hrc with hceq | hcmem
            · obtain ⟨hc1, hc2⟩ := Prod.mk.injEq .. ▸ hceq
              refine Or.inl (Or.inr ?_)
              rw [hc1, hc2] at hval
              simp [hval]
            · exact Or.inr ⟨r, c, hcmem, hbox, hval⟩
      · rw [listGetD_set_ne hbne]
        constructor
        · rintro (h | h)
          · exact Or.inl h
          · obtain ⟨r, c, hrc, hbox, hval⟩ := h
            exact Or.inr ⟨r, c, List.mem_cons_of_mem _ hrc, hbox, hval⟩
        · rintro (h | h)
          · exact Or.inl h
          · obtain ⟨r, c, hrc, hbox, hval⟩ := h
            rcases List.mem_cons.mp hrc with hceq | hcmem
            · obtain ⟨hc1, hc2⟩ := Prod.mk.injEq .. ▸ hceq
              rw [hc1, hc2] at hbox
              exact absurd hbox hbne
            · exact Or.inr ⟨r, c, hcmem, hbox, hval⟩
    · push_neg at hz
      simp only [hz, ne_eq, not_true_eq_false, if_false]
      refine Iff.trans (ih _ bi t hlen hps) ?_
      constructor
      · rintro (h | h)
        · exact Or.inl h
        · obtain ⟨r, c, hrc, hbox, hval⟩ := h
          exact Or.inr ⟨r, c, List.mem_cons_of_mem _ hrc, hbox, hval⟩
      · rintro (h | h)
        · exact Or.inl h
        · obtain ⟨r, c, hrc, hbox, hval⟩ := h
          rcases List.mem_cons.mp hrc with hceq | hcmem
          · obtain ⟨hc1, hc2⟩ := Prod.mk.injEq .. ▸ hceq
            rw [hc1, hc2] at hval
            rw [hz] at hval
            omega
          · exact Or.inr ⟨r, c, hcmem, hbox, hval⟩

theorem initMasksAux_empties (b : Board) :
    ∀ (cells : List Cell) (st : BMasks × List Cell),
      (cells.foldl
        (fun st p =>
          if getC b p.1 p.2 ≠ 0 then
            let mask := 1 <<< (getC b p.1 p.2 - 1)
            ({ rows := st.1.rows.set p.1 (st.1.rows.getD p.1 0 ||| mask),
               cols := st.1.cols.set p.2 (st.1.cols.getD p.2 0 ||| mask),
               boxes := st.1.boxes.set (boxIdx p.1 p.2)
                          (st.1.boxes.getD (boxIdx p.1 p.2) 0 ||| mask) }, st.2)
          else (st.1, st.2 ++ [(p.1, p.2)])) st).2 =
      st.2 ++ cells.filter (fun p => getC b p.1 p.2 == 0) := by
  intro cells
  induction cells with
  | nil => simp
  | cons p ps ih =>
    intro st
    obtain ⟨p1, p2⟩ := p
    simp only [List.foldl_cons]
    by_cases hz : getC b p1 p2 ≠ 0
    · simp only [hz, ne_eq, not_false_eq_true, if_true]
      rw [ih]
      have : (getC b p1 p2 == 0) = false := by simpa using hz
      simp [List.filter_cons, this]
    · push_neg at hz
      simp only [hz, ne_eq, not_true_eq_false, if_false]
      rw [ih]
      have : (getC b p1 p2 == 0) = true := by simpa using hz
      simp [List.filter_cons, this]

theorem initMasksAux_lengths (b : Board) :
    ∀ (cells : List Cell) (st : BMasks × List Cell),
      (cells.foldl
        (fun st p =>
          if getC b p.1 p.2 ≠ 0 then
            let mask := 1 <<< (getC b p.1 p.2 - 1)
            ({ rows := st.1.rows.set p.1 (st.1.rows.getD p.1 0 ||| mask),
               cols := st.1.cols.set p.2 (st.1.cols.getD p.2 0 ||| mask),
               boxes := st.1.boxes.set (boxIdx p.1 p.2)
                          (st.1.boxes.getD (boxIdx p.1 p.2) 0 ||| mask) }, st.2)
          else (st.1, st.2 ++ [(p.1, p.2)])) st).1.rows.length = st.1.rows.length ∧
      (cells.foldl
        (fun st p =>
          if getC b p.1 p.2 ≠ 0 then
            let mask := 1 <<< (getC b p.1 p.2 - 1)
            ({ rows := st.1.rows.set p.1 (st.1.rows.getD p.1 0 ||| mask),
               cols := st.1.cols.set p.2 (st.1.cols.getD p.2 0 ||| mask),
               boxes := st.1.boxes.set (boxIdx p.1 p.2)
                          (st.1.boxes.getD (boxIdx p.1 p.2) 0 ||| mask) }, st.2)
          else (st.1, st.2 ++ [(p.1, p.2)])) st).1.cols.length = st.1.cols.length ∧
      (cells.foldl
        (fun st p =>
          if getC b p.1 p.2 ≠ 0 then
            let mask := 1 <<< (getC b p.1 p.2 - 1)
            ({ rows := st.1.rows.set p.1 (st.1.rows.getD p.1 0 ||| mask),
               cols := st.1.cols.set p.2 (st.1.cols.getD p.2 0 ||| mask),
               boxes := st.1.boxes.set (boxIdx p.1 p.2)
                          (st.1.boxes.getD (boxIdx p.1 p.2) 0 ||| mask) }, st.2)
          else (st.1, st.2 ++ [(p.1, p.2)])) st).1.boxes.length = st.1.boxes.length := by
  intro cells
  induction cells with
  | nil => simp
  | cons p ps ih =>
    intro st
    obtain ⟨p1, p2⟩ := p
    simp only [List.foldl_cons]
    by_cases hz : getC b p1 p2 ≠ 0
    · simp only [hz, ne_eq, not_false_eq_true, if_true]
      refine ⟨((ih _).1).trans ?_, ((ih _).2.1).trans ?_, ((ih _).2.2).trans ?_⟩ <;>
        simp
    · simp only [hz, ne_eq, not_true_eq_false, if_false]
      exact ih _

theorem listGetD_replicate {α : Type} {n i : Nat} (a : α) :
    (List.replicate n a).getD i a = a := by
  induction n generalizing i with
  | zero => simp
  | succ k ih =>
    cases i with
    | zero => simp
    | succ j => simpa [List.replicate] using ih

theorem maskOf_rows_testBit {b : Board} {r : Nat} (hr : r < 9) (t : Nat) :
    ((maskOf b).rows.getD r 0).testBit t = true ↔ ∃ c < 9, getC b r c = t + 1 := by
  unfold maskOf initializeMasks
  rw [initMasksAux_rows b allCells _ r t (by simp) (fun p hp => mem_allCells.mp hp)]
  simp only [listGetD_replicate, Nat.zero_testBit, Bool.false_eq_true, false_or]
  constructor
  · rintro ⟨c, hc, hval⟩
    exact ⟨c, (mem_allCells.mp hc).2, hval⟩
  · rintro ⟨c, hc, hval⟩
    exact ⟨c, mem_allCells.mpr ⟨hr, hc⟩, hval⟩

theorem maskOf_cols_testBit {b : Board} {c : Nat} (hc : c < 9) (t : Nat) :
    ((maskOf b).cols.getD c 0).testBit t = true ↔ ∃ r < 9, getC b r c = t + 1 := by
  unfold maskOf initializeMasks
  rw [initMasksAux_cols b allCells _ c t (by simp) (fun p hp => mem_allCells.mp hp)]
  simp only [listGetD_replicate, Nat.zero_testBit, Bool.false_eq_true, false_or]
  constructor
  · rintro ⟨r, hr, hval⟩
    exact ⟨r, (mem_allCells.mp hr).1, hval⟩
  · rintro ⟨r, hr, hval⟩
    exact ⟨r, mem_allCells.mpr ⟨hr, hc⟩, hval⟩

theorem maskOf_boxes_testBit {b : Board} {bi : Nat} (hbi : bi < 9) (t : Nat) :
    ((maskOf b).boxes.getD bi 0).testBit t = true ↔
      ∃ r < 9, ∃ c < 9, boxIdx r c = bi ∧ getC b r c = t + 1 := by
  unfold maskOf initializeMasks
  rw [initMasksAux_boxes b allCells _ bi t (by simp) (fun p hp => mem_allCells.mp hp)]
  simp only [listGetD_replicate, Nat.zero_testBit, Bool.false_eq_true, false_or]
  constructor
  · rintro ⟨r, c, hrc, hbox, hval⟩
    obtain ⟨hr, hc⟩ := mem_allCells.mp hrc
    exact ⟨r, hr, c, hc, hbox, hval⟩
  · rintro ⟨r, hr, c, hc, hbox, hval⟩
    exact ⟨r, c, mem_allCells.mpr ⟨hr, hc⟩, hbox, hval⟩

theorem maskOf_lengths (b : Board) :
    (maskOf b).rows.length = 9 ∧ (maskOf b).cols.length = 9 ∧
    (maskOf b).boxes.length = 9 := by
  unfold maskOf initializeMasks
  obtain ⟨h1, h2, h3⟩ := initMasksAux_lengths b allCells
    (⟨List.replicate 9 0, List.replicate 9 0, List.replicate 9 0⟩, [])
  simp only [h1, h2, h3]
  simp

theorem masksSync_maskOf (b : Board) : MasksSync b (maskOf b) := by
  obtain ⟨h1, h2, h3⟩ := maskOf_lengths b
  exact ⟨h1, h2, h3,
    fun r hr t => maskOf_rows_testBit hr t,
    fun c hc t => maskOf_cols_testBit hc t,
    fun bi hbi t => maskOf_boxes_testBit hbi t⟩

theorem emptyCellsOf_eq (b : Board) :
    emptyCellsOf b = allCells.filter (fun p => getC b p.1 p.2 == 0) := by
  unfold emptyCellsOf initializeMasks
  rw [initMasksAux_empties b allCells _]
  simp

theorem cellsInv_emptyCellsOf (b : Board) : CellsInv b (emptyCellsOf b) 0 := by
  rw [CellsInv, emptyCellsOf_eq]
  constructor
  · simpa using List.Nodup.filter _ nodup_allCells
  · intro p
    simp only [List.drop_zero, List.mem_filter, mem_allCells]
    constructor
    · rintro ⟨⟨h1, h2⟩, h3⟩
      exact ⟨h1, h2, by simpa using h3⟩
    · rintro ⟨h1, h2, h3⟩
      exact ⟨⟨h1, h2⟩, by simpa using h3⟩


/-! ## Place / unplace algebra and mask synchronization -/

theorem lor_xor_land_cancel {x mask : Nat} (h : x &&& mask = 0) :
    (x ||| mask) ^^^ ((x ||| mask) &&& mask) = x := by
  apply Nat.eq_of_testBit_eq
  intro i
  have hb : (x.testBit i && mask.testBit i) = false := by
    have := congrArg (fun n => n.testBit i) h
    simpa [Nat.testBit_land] using this
  simp only [Nat.testBit_xor, Nat.testBit_lor, Nat.testBit_land]
  cases hx : x.testBit i <;> cases hm : mask.testBit i <;> simp_all

theorem listSet_lor_cancel {l : List Nat} {i mask : Nat}
    (h : l.getD i 0 &&& mask = 0) :
    (l.set i (l.getD i 0 ||| mask)).set i
      ((l.set i (l.getD i 0 ||| mask)).getD i 0 ^^^
       ((l.set i (l.getD i 0 ||| mask)).getD i 0 &&& mask)) = l := by
  rcases Nat.lt_or_ge i l.length with hlt | hge
  · rw [listGetD_set_self hlt, lor_xor_land_cancel h, List.set_set,
      listSet_getD_self]
  · rw [listSet_of_length_le hge, listSet_of_length_le hge]

theorem unplaceB_placeB {m : BMasks} {r c bi mask : Nat}
    (h1 : m.rows.getD r 0 &&& mask = 0) (h2 : m.cols.getD c 0 &&& mask = 0)
    (h3 : m.boxes.getD bi 0 &&& mask = 0) :
    unplaceB (placeB m r c bi mask) r c bi mask = m := by
  cases m with
  | mk mr mc mb =>
    simp only [placeB, unplaceB, BMasks.mk.injEq]
    exact ⟨listSet_lor_cancel h1, listSet_lor_cancel h2, listSet_lor_cancel h3⟩

theorem boxIdx_lt {r c : Nat} (hr : r < 9) (hc : c < 9) : boxIdx r c < 9 := by
  unfold boxIdx
  omega

theorem takenMask_testBit {b : Board} {m : BMasks} (hs : MasksSync b m)
    {r c : Nat} (hr : r < 9) (hc : c < 9) (t : Nat) :
    (takenMask m r c).testBit t = true ↔
      (∃ c' < 9, getC b r c' = t + 1) ∨ (∃ r' < 9, getC b r' c = t + 1) ∨
      (∃ r' < 9, ∃ c' < 9, boxIdx r' c' = boxIdx r c ∧ getC b r' c' = t + 1) := by
  obtain ⟨-, -, -, hrows, hcols, hboxes⟩ := hs
  unfold takenMask
  simp only [Nat.testBit_lor, Bool.or_eq_true]
  rw [hrows r hr t, hcols c hc t, hboxes (boxIdx r c) (boxIdx_lt hr hc) t,
    or_assoc]

theorem getC_le_of_ranged {b : Board} (hwf : WF b) (hran : Ranged b)
    {r c : Nat} (hr : r < 9) (hc : c < 9) : getC b r c ≤ 9 := by
  obtain ⟨hlen, hrows⟩ := hwf
  have hrow : b.getD r [] ∈ b := getD_mem_of_lt (by omega) []
  have hrl : (b.getD r []).length = 9 := hrows _ hrow
  have hv : getC b r c ∈ b.getD r [] := by
    unfold getC
    exact getD_mem_of_lt (by omega) 0
  exact hran _ hrow _ hv

theorem avail_of_completes {b s : Board} {m : BMasks} (hs : MasksSync b m)
    (hcomp : Completes b s) {r c : Nat} (hr : r < 9) (hc : c < 9)
    (hz : getC b r c = 0) :
    takenMask m r c &&& (1 <<< (getC s r c - 1)) = 0 := by
  obtain ⟨hwfs, hrans, hcs, hvs, hes⟩ := hcomp
  have hd1 : 1 ≤ getC s r c := Nat.one_le_iff_ne_zero.mpr (hcs r hr c hc)
  apply Nat.eq_of_testBit_eq
  intro i
  simp only [Nat.testBit_land, Nat.zero_testBit, testBit_one_shiftLeft]
  rcases eq_or_ne i (getC s r c - 1) with rfl | hne
  · have hdec : decide (getC s r c - 1 = getC s r c - 1) = true := by simp
    rw [hdec, Bool.and_true]
    by_contra hbit
    rw [Bool.not_eq_false] at hbit
    have hpres := (takenMask_testBit hs hr hc _).mp hbit
    have hd : getC s r c - 1 + 1 = getC s r c := by omega
    rw [hd] at hpres
    rcases hpres with ⟨c', hc', hval⟩ | ⟨r', hr', hval⟩ | ⟨r', hr', c', hc', hbox, hval⟩
    · have hne2 : (r, c) ≠ (r, c') := by
        intro he
        obtain ⟨-, h2⟩ := Prod.mk.injEq .. ▸ he
        rw [← h2] at hval
        omega
      have hsv : getC s r c' = getC b r c' := hes r hr c' hc' (by omega)
      have := hvs r hr c hc r hr c' hc' hne2 (Or.inl rfl) (by omega)
      rw [hsv, hval] at this
      exact this rfl
    · have hne2 : (r, c) ≠ (r', c) := by
        intro he
        obtain ⟨h1, -⟩ := Prod.mk.injEq .. ▸ he
        rw [← h1] at hval
        omega
      have hsv : getC s r' c = getC b r' c := hes r' hr' c hc (by omega)
      have := hvs r hr c hc r' hr' c hc hne2 (Or.inr (Or.inl rfl)) (by omega)
      rw [hsv, hval] at this
      exact this rfl
    · have hne2 : (r, c) ≠ (r', c') := by
        intro he
        obtain ⟨h1, h2⟩ := Prod.mk.injEq .. ▸ he
        rw [← h1, ← h2] at hval
        omega
      have hsv : getC s r' c' = getC b r' c' := hes r' hr' c' hc' (by omega)
      have := hvs r hr c hc r' hr' c' hc' hne2 (Or.inr (Or.inr hbox.symm)) (by omega)
      rw [hsv, hval] at this
      exact this rfl
  · simp [hne]

theorem no_conflict_of_avail {b : Board} {m : BMasks} (hs : MasksSync b m)
    {r c k : Nat} (hr : r < 9) (hc : c < 9) (hk : k < 9)
    (havail : takenMask m r c &&& (1 <<< k) = 0) :
    ∀ r' < 9, ∀ c' < 9, (r = r' ∨ c = c' ∨ boxIdx r c = boxIdx r' c') →
      getC b r' c' ≠ k + 1 := by
  intro r' hr' c' hc' hunit hval
  have hbit : (takenMask m r c).testBit k = false := by
    have := congrArg (fun n => n.testBit k) havail
    simpa [Nat.testBit_land, testBit_one_shiftLeft] using this
  have htrue : (takenMask m r c).testBit k = true := by
    apply (takenMask_testBit hs hr hc k).mpr
    rcases hunit with rfl | rfl | hbox
    · exact Or.inl ⟨c', hc', hval⟩
    · exact Or.inr (Or.inl ⟨r', hr', hval⟩)
    · exact Or.inr (Or.inr ⟨r', hr', c', hc', hbox.symm, hval⟩)
  rw [htrue] at hbit
  cases hbit

theorem validP_setC {b : Board} (hv : ValidP b) {m : BMasks} (hs : MasksSync b m)
    {r c k : Nat} (hwf : WF b) (hr : r < 9) (hc : c < 9) (hz : getC b r c = 0)
    (hk : k < 9) (havail : takenMask m r c &&& (1 <<< k) = 0) :
    ValidP (setC b r c (k + 1)) := by
  have hnoc := no_conflict_of_avail hs hr hc hk havail
  intro r1 hr1 c1 hc1 r2 hr2 c2 hc2 hne hunit hnz
  rcases eq_or_ne (r1, c1) (r, c) with he1 | he1
  · obtain ⟨e1, e2⟩ := Prod.mk.injEq .. ▸ he1
    subst e1
    subst e2
    rw [getC_setC_self hwf hr hc, getC_setC_ne b _ hne]
    intro hcontra
    exact hnoc r2 hr2 c2 hc2 hunit hcontra.symm
  · have hne1 : (r, c) ≠ (r1, c1) := fun he => he1 he.symm
    rw [getC_setC_ne b _ hne1] at hnz ⊢
    rcases eq_or_ne (r2, c2) (r, c) with he2 | he2
    · obtain ⟨e1, e2⟩ := Prod.mk.injEq .. ▸ he2
      subst e1
      subst e2
      rw [getC_setC_self hwf hr hc]
      intro hcontra
      have hunit2 : r2 = r1 ∨ c2 = c1 ∨ boxIdx r2 c2 = boxIdx r1 c1 := by
        rcases hunit with h | h | h
        · exact Or.inl h.symm
        · exact Or.inr (Or.inl h.symm)
        · exact Or.inr (Or.inr h.symm)
      exact hnoc r1 hr1 c1 hc1 hunit2 hcontra
    · have hne2 : (r, c) ≠ (r2, c2) := fun he => he2 he.symm
      rw [getC_setC_ne b _ hne2]
      exact hv r1 hr1 c1 hc1 r2 hr2 c2 hc2 hne hunit hnz

theorem masksSync_placeB {b : Board} {m : BMasks} (hs : MasksSync b m)
    {r c k : Nat} (hwf : WF b) (hr : r < 9) (hc : c < 9) (hz : getC b r c = 0)
    (hk : k < 9) :
    MasksSync (setC b r c (k + 1)) (placeB m r c (boxIdx r c) (1 <<< k)) := by
  obtain ⟨hl1, hl2, hl3, hrows, hcols, hboxes⟩ := hs
  refine ⟨by simp [placeB, hl1], by simp [placeB, hl2], by simp [placeB, hl3],
    ?_, ?_, ?_⟩
  · intro r' hr' t
    simp only [placeB]
    rcases eq_or_ne r' r with rfl | hne
    · rw [listGetD_set_self (by omega), Nat.testBit_lor, Bool.or_eq_true,
        testBit_one_shiftLeft, hrows r' hr' t]
      constructor
      · rintro (⟨c', hc', hval⟩ | ht)
        · have hcc : c' ≠ c := by
            intro he
            rw [he, hz] at hval
            omega
          refine ⟨c', hc', ?_⟩
          rw [getC_setC_ne b _ (by simp [Ne.symm hcc])]
          exact hval
        · have ht2 := of_decide_eq_true ht
          refine ⟨c, hc, ?_⟩
          rw [getC_setC_self hwf hr hc]
          omega
      · rintro ⟨c', hc', hval⟩
        rcases eq_or_ne c' c with rfl | hcc
        · rw [getC_setC_self hwf hr hc] at hval
          exact Or.inr (by simp; omega)
        · rw [getC_setC_ne b _ (by simp [Ne.symm hcc])] at hval
          exact Or.inl ⟨c', hc', hval⟩
    · rw [listGetD_set_ne (Ne.symm hne), hrows r' hr' t]
      constructor
      · rintro ⟨c', hc', hval⟩
        refine ⟨c', hc', ?_⟩
        rw [getC_setC_ne b _ (by simp [Ne.symm hne])]
        exact hval
      · rintro ⟨c', hc', hval⟩
        rw [getC_setC_ne b _ (by simp [Ne.symm hne])] at hval
        exact ⟨c', hc', hval⟩
  · intro c' hc' t
    simp only [placeB]
    rcases eq_or_ne c' c with rfl | hne
    · rw [listGetD_set_self (by omega), Nat.testBit_lor, Bool.or_eq_true,
        testBit_one_shiftLeft, hcols c' hc' t]
      constructor
      · rintro (⟨r', hr', hval⟩ | ht)
        · have hrr : r' ≠ r := by
            intro he
            rw [he, hz] at hval
            omega
          refine ⟨r', hr', ?_⟩
          rw [getC_setC_ne b _ (by simp [Ne.symm hrr])]
          exact hval
        · have ht2 := of_decide_eq_true ht
          refine ⟨r, hr, ?_⟩
          rw [getC_setC_self hwf hr hc]
          omega
      · rintro ⟨r', hr', hval⟩
        rcases eq_or_ne r' r with rfl | hrr
        · rw [getC_setC_self hwf hr hc] at hval
          exact Or.inr (by simp; omega)
        · rw [getC_setC_ne b _ (by simp [Ne.symm hrr])] at hval
          exact Or.inl ⟨r', hr', hval⟩
    · rw [listGetD_set_ne (Ne.symm hne), hcols c' hc' t]
      constructor
      · rintro ⟨r', hr', hval⟩
        refine ⟨r', hr', ?_⟩
        rw [getC_setC_ne b _ (by simp [Ne.symm hne])]
        exact hval
      · rintro ⟨r', hr', hval⟩
        rw [getC_setC_ne b _ (by simp [Ne.symm hne])] at hval
        exact ⟨r', hr', hval⟩
  · intro bi hbi t
    simp only [placeB]
    rcases eq_or_ne bi (boxIdx r c) with rfl | hne
    · rw [listGetD_set_self (by omega), Nat.testBit_lor, Bool.or_eq_true,
        testBit_one_shiftLeft, hboxes _ hbi t]
      constructor
      · rintro (⟨r', hr', c', hc', hbox, hval⟩ | ht)
        · have hne2 : (r, c) ≠ (r', c') := by
            intro he
            obtain ⟨e1, e2⟩ := Prod.mk.injEq .. ▸ he
            rw [← e1, ← e2, hz] at hval
            omega
          refine ⟨r', hr', c', hc', hbox, ?_⟩
          rw [getC_setC_ne b _ hne2]
          exact hval
        · have ht2 := of_decide_eq_true ht
          refine ⟨r, hr, c, hc, rfl, ?_⟩
          rw [getC_setC_self hwf hr hc]
          omega
      · rintro ⟨r', hr', c', hc', hbox, hval⟩
        rcases eq_or_ne (r, c) (r', c') with he | hne2
        · obtain ⟨e1, e2⟩ := Prod.mk.injEq .. ▸ he
          rw [← e1, ← e2, getC_setC_self hwf hr hc] at hval
          exact Or.inr (by simp; omega)
        · rw [getC_setC_ne b _ hne2] at hval
          exact Or.inl ⟨r', hr', c', hc', hbox, hval⟩
    · rw [listGetD_set_ne (Ne.symm hne), hboxes bi hbi t]
      constructor
      · rintro ⟨r', hr', c', hc', hbox, hval⟩
        have hne2 : (r, c) ≠ (r', c') := by
          intro he
          obtain ⟨e1, e2⟩ := Prod.mk.injEq .. ▸ he
          rw [← e1, ← e2] at hbox
          exact hne hbox.symm
        refine ⟨r', hr', c', hc', hbox, ?_⟩
        rw [getC_setC_ne b _ hne2]
        exact hval
      · rintro ⟨r', hr', c', hc', hbox, hval⟩
        have hne2 : (r, c) ≠ (r', c') := by
          intro he
          obtain ⟨e1, e2⟩ := Prod.mk.injEq .. ▸ he
          rw [← e1, ← e2] at hbox
          exact hne hbox.symm
        rw [getC_setC_ne b _ hne2] at hval
        exact ⟨r', hr', c', hc', hbox, hval⟩

/-! ## Extension and completion helpers -/

theorem extendsB_refl (b : Board) : ExtendsB b b := fun _ _ _ _ _ => rfl

theorem extendsB_trans {a b c : Board} (h1 : ExtendsB a b) (h2 : ExtendsB b c) :
    ExtendsB a c := by
  intro r hr cc hcc hnz
  have hb := h1 r hr cc hcc hnz
  have hnzb : getC b r cc ≠ 0 := by rw [hb]; exact hnz
  rw [h2 r hr cc hcc hnzb, hb]

theorem extendsB_setC {b : Board} {r c : Nat} (hz : getC b r c = 0) (v : Nat) :
    ExtendsB b (setC b r c v) := by
  intro r' hr' c' hc' hnz
  have hne : (r, c) ≠ (r', c') := by
    intro he
    obtain ⟨e1, e2⟩ := Prod.mk.injEq .. ▸ he
    rw [← e1, ← e2] at hnz
    exact hnz hz
  rw [getC_setC_ne b _ hne]

theorem completes_setC {b s : Board} (hcomp : Completes b s) {r c v : Nat}
    (hwf : WF b) (hr : r < 9) (hc : c < 9) (hz : getC b r c = 0)
    (hval : getC s r c = v) : Completes (setC b r c v) s := by
  obtain ⟨hwfs, hrans, hcs, hvs, hes⟩ := hcomp
  refine ⟨hwfs, hrans, hcs, hvs, ?_⟩
  intro r' hr' c' hc' hnz
  rcases eq_or_ne (r, c) (r', c') with he | hne
  · obtain ⟨e1, e2⟩ := Prod.mk.injEq .. ▸ he
    subst e1
    subst e2
    rw [getC_setC_self hwf hr hc]
    rw [getC_setC_self hwf hr hc] at hnz
    exact hval
  · rw [getC_setC_ne b _ hne] at hnz ⊢
    exact hes r' hr' c' hc' hnz

theorem getC_eq_getElem {b : Board} {r c : Nat} (h1 : r < b.length)
    (h2 : c < (b[r]).length) : getC b r c = (b[r])[c] := by
  unfold getC
  have hrow : b.getD r [] = b[r] := by
    rw [List.getD_eq_getElem?_getD, List.getElem?_eq_getElem h1]
    rfl
  rw [hrow, List.getD_eq_getElem?_getD, List.getElem?_eq_getElem h2]
  rfl

theorem board_eq_of_getC {b₁ b₂ : Board} (h₁ : WF b₁) (h₂ : WF b₂)
    (h : ∀ r < 9, ∀ c < 9, getC b₁ r c = getC b₂ r c) : b₁ = b₂ := by
  obtain ⟨hl1, hr1⟩ := h₁
  obtain ⟨hl2, hr2⟩ := h₂
  apply List.ext_getElem (by omega)
  intro n hn1 hn2
  have hrow1 : (b₁[n]).length = 9 := hr1 _ (List.getElem_mem hn1)
  have hrow2 : (b₂[n]).length = 9 := hr2 _ (List.getElem_mem hn2)
  apply List.ext_getElem (by omega)
  intro j hj1 hj2
  have := h n (by omega) j (by omega)
  rwa [getC_eq_getElem hn1 hj1, getC_eq_getElem hn2 hj2] at this

theorem completes_complete_eq {b s : Board} (hwf : WF b) (hb : Complete b)
    (hcomp : Completes b s) : s = b := by
  obtain ⟨hwfs, -, -, -, hes⟩ := hcomp
  apply board_eq_of_getC hwfs hwf
  intro r hr c hc
  exact hes r hr c hc (hb r hr c hc)

theorem validP_of_extends {b s : Board} (hes : ExtendsB b s) (hvs : ValidP s) :
    ValidP b := by
  intro r1 hr1 c1 hc1 r2 hr2 c2 hc2 hne hunit hnz
  intro hcontra
  have hnz2 : getC b r2 c2 ≠ 0 := by rw [← hcontra]; exact hnz
  have h1 := hes r1 hr1 c1 hc1 hnz
  have h2 := hes r2 hr2 c2 hc2 hnz2
  have := hvs r1 hr1 c1 hc1 r2 hr2 c2 hc2 hne hunit (by rw [h1]; exact hnz)
  rw [h1, h2] at this
  exact this hcontra

/-! ## CellsInv bookkeeping -/

theorem cellsInv_head {b : Board} {cells : List Cell} {idx : Nat}
    (hci : CellsInv b cells idx) (hidx : idx < cells.length) :
    cells[idx].1 < 9 ∧ cells[idx].2 < 9 ∧ getC b cells[idx].1 cells[idx].2 = 0 := by
  obtain ⟨-, hiff⟩ := hci
  apply (hiff _).mp
  rw [List.drop_eq_getElem_cons hidx]
  exact List.mem_cons_self _ _

theorem cellsInv_complete {b : Board} {cells : List Cell} {idx : Nat}
    (hci : CellsInv b cells idx) (hidx : cells.length ≤ idx) : Complete b := by
  obtain ⟨-, hiff⟩ := hci
  intro r hr c hc
  intro hz
  have : (r, c) ∈ cells.drop idx := (hiff (r, c)).mpr ⟨hr, hc, hz⟩
  rw [List.drop_eq_nil_of_le hidx] at this
  simp at this

theorem cellsInv_step {b : Board} {cells : List Cell} {idx : Nat}
    (hwf : WF b) (hci : CellsInv b cells idx) (hidx : idx < cells.length)
    {v : Nat} (hv : v ≠ 0) :
    CellsInv (setC b cells[idx].1 cells[idx].2 v) cells (idx + 1) := by
  obtain ⟨hr9, hc9, hz⟩ := cellsInv_head hci hidx
  obtain ⟨hnd, hiff⟩ := hci
  have hdrop : cells.drop idx = cells[idx] :: cells.drop (idx + 1) :=
    List.drop_eq_getElem_cons hidx
  rw [hdrop] at hnd
  obtain ⟨hhead, htail⟩ := List.nodup_cons.mp hnd
  constructor
  · exact htail
  · intro p
    constructor
    · intro hp
      have hpin : p ∈ cells.drop idx := by
        rw [hdrop]
        exact List.mem_cons_of_mem _ hp
      obtain ⟨h1, h2, h3⟩ := (hiff p).mp hpin
      have hpne : (cells[idx].1, cells[idx].2) ≠ (p.1, p.2) := by
        intro he
        obtain ⟨e1, e2⟩ := Prod.mk.injEq .. ▸ he
        have hep : cells[idx] = p := Prod.ext e1 e2
        rw [← hep] at hp
        exact hhead hp
      refine ⟨h1, h2, ?_⟩
      rw [getC_setC_ne b _ hpne]
      exact h3
    · rintro ⟨h1, h2, h3⟩
      have hpne : (cells[idx].1, cells[idx].2) ≠ (p.1, p.2) := by
        intro he
        obtain ⟨e1, e2⟩ := Prod.mk.injEq .. ▸ he
        rw [← e1, ← e2, getC_setC_self hwf hr9 hc9] at h3
        exact hv h3
      rw [getC_setC_ne b _ hpne] at h3
      have : p ∈ cells.drop idx := (hiff p).mpr ⟨h1, h2, h3⟩
      rw [hdrop] at this
      rcases List.mem_cons.mp this with he | hmem
      · exfalso
        apply hpne
        rw [he]
      · exact hmem

/-! ## Unfolding lemmas for the fuelled searches -/

theorem listGetD_lt {α : Type} {l : List α} {i : Nat} (h : i < l.length) (d : α) :
    l.getD i d = l[i] := by
  rw [List.getD_eq_getElem?_getD, List.getElem?_eq_getElem h]
  rfl

theorem btAux_zero (cells : List Cell) (idx k taken0 : Nat) (b : Board)
    (m : BMasks) : btAux cells 0 idx k taken0 b m = (false, b, m) := rfl

theorem btAux_leaf {cells : List Cell} {idx : Nat} (h : cells.length ≤ idx)
    (fuel k taken0 : Nat) (b : Board) (m : BMasks) :
    btAux cells (fuel + 1) idx k taken0 b m = (true, b, m) := by
  simp [btAux, h]

theorem btAux_succ_lt {cells : List Cell} {idx : Nat} (h : idx < cells.length)
    (fuel k taken0 : Nat) (b : Board) (m : BMasks) :
    btAux cells (fuel + 1) idx k taken0 b m =
      (if 9 ≤ k then (false, b, m)
       else if (if k = 0 then takenMask m cells[idx].1 cells[idx].2 else taken0)
              &&& (1 <<< k) ≠ 0 then
         btAux cells fuel idx (k + 1)
           (if k = 0 then takenMask m cells[idx].1 cells[idx].2 else taken0) b m
       else
         match btAux cells fuel (idx + 1) 0 0 (setC b cells[idx].1 cells[idx].2 (k + 1))
                 (placeB m cells[idx].1 cells[idx].2
                   (boxIdx cells[idx].1 cells[idx].2) (1 <<< k)) with
         | (true, b2, m2) => (true, b2, m2)
         | (false, b2, m2) =>
             btAux cells fuel idx (k + 1)
               (if k = 0 then takenMask m cells[idx].1 cells[idx].2 else taken0)
               (setC b2 cells[idx].1 cells[idx].2 0)
               (unplaceB m2 cells[idx].1 cells[idx].2
                 (boxIdx cells[idx].1 cells[idx].2) (1 <<< k))) := by
  have hnot : ¬ cells.length ≤ idx := Nat.not_le.mpr h
  simp only [btAux, hnot, dite_false, List.get_eq_getElem]

theorem bcAux_zero (cells : List Cell) (limit idx k taken0 count : Nat)
    (b : Board) (m : BMasks) :
    bcAux cells limit 0 idx k taken0 count b m = (0, b, m) := rfl

theorem bcAux_leaf {cells : List Cell} {idx : Nat} (h : cells.length ≤ idx)
    (limit fuel k taken0 count : Nat) (b : Board) (m : BMasks) :
    bcAux cells limit (fuel + 1) idx k taken0 count b m = (1, b, m) := by
  simp [bcAux, h]

theorem bcAux_succ_lt {cells : List Cell} {idx : Nat} (h : idx < cells.length)
    (limit fuel k taken0 count : Nat) (b : Board) (m : BMasks) :
    bcAux cells limit (fuel + 1) idx k taken0 count b m =
      (if 9 ≤ k then (count, b, m)
       else if (if k = 0 then takenMask m cells[idx].1 cells[idx].2 else taken0)
              &&& (1 <<< k) ≠ 0 then
         bcAux cells limit fuel idx (k + 1)
           (if k = 0 then takenMask m cells[idx].1 cells[idx].2 else taken0) count b m
       else
         match bcAux cells limit fuel (idx + 1) 0 0 0
                 (setC b cells[idx].1 cells[idx].2 (k + 1))
                 (placeB m cells[idx].1 cells[idx].2
                   (boxIdx cells[idx].1 cells[idx].2) (1 <<< k)) with
         | (sub, b2, m2) =>
             let b3 := setC b2 cells[idx].1 cells[idx].2 0
             let m3 := unplaceB m2 cells[idx].1 cells[idx].2
               (boxIdx cells[idx].1 cells[idx].2) (1 <<< k)
             if limit ≤ count + sub then (count + sub, b3, m3)
             else bcAux cells limit fuel idx (k + 1)
               (if k = 0 then takenMask m cells[idx].1 cells[idx].2 else taken0)
               (count + sub) b3 m3) := by
  have hnot : ¬ cells.length ≤ idx := Nat.not_le.mpr h
  simp only [bcAux, hnot, dite_false, List.get_eq_getElem]

theorem lor_land_eq_zero {x y w : Nat} (h : (x ||| y) &&& w = 0) :
    x &&& w = 0 ∧ y &&& w = 0 := by
  constructor <;> apply Nat.eq_of_testBit_eq <;> intro i <;>
    have hi := congrArg (fun n => n.testBit i) h <;>
    simp only [Nat.testBit_land, Nat.testBit_lor, Nat.zero_testBit] at hi ⊢ <;>
    cases hx : x.testBit i <;> cases hy : y.testBit i <;> simp_all

theorem takenMask_land_zero {m : BMasks} {r c w : Nat}
    (h : takenMask m r c &&& w = 0) :
    m.rows.getD r 0 &&& w = 0 ∧ m.cols.getD c 0 &&& w = 0 ∧
    m.boxes.getD (boxIdx r c) 0 &&& w = 0 := by
  unfold takenMask at h
  obtain ⟨h12, h3⟩ := lor_land_eq_zero h
  obtain ⟨h1, h2⟩ := lor_land_eq_zero h12
  exact ⟨h1, h2, h3⟩

/-- After any failing run of `_backtrack`, the board and the three mask arrays
are restored bit-for-bit to their values at entry. -/
theorem btAux_restore (cells : List Cell) (fuel : Nat) :
    ∀ (idx k taken0 : Nat) (b : Board) (m : BMasks),
      WF b → CellsInv b cells idx →
      (0 < k → idx < cells.length →
        taken0 = takenMask m (cells.getD idx (0, 0)).1 (cells.getD idx (0, 0)).2) →
      (btAux cells fuel idx k taken0 b m).1 = false →
      (btAux cells fuel idx k taken0 b m).2 = (b, m) := by
  induction fuel with
  | zero =>
    intro idx k taken0 b m hwf hci htk hf
    rfl
  | succ fuel ih =>
    intro idx k taken0 b m hwf hci htk hf
    rcases Nat.lt_or_ge idx cells.length with hlt | hge
    · rcases Nat.lt_or_ge k 9 with hk9 | hk9
      · have hk9n : ¬ 9 ≤ k := Nat.not_le.mpr hk9
        by_cases hcond : (if k = 0 then takenMask m cells[idx].1 cells[idx].2
            else taken0) &&& (1 <<< k) ≠ 0
        · rw [btAux_succ_lt hlt, if_neg hk9n, if_pos hcond] at hf ⊢
          refine ih idx (k + 1) _ b m hwf hci ?_ hf
          intro hkpos hlt2
          rw [listGetD_lt hlt2]
          rcases Nat.eq_zero_or_pos k with rfl | hk0
          · simp
          · rw [if_neg (by omega)]
            have := htk hk0 hlt
            rw [listGetD_lt hlt] at this
            exact this
        · obtain ⟨hr9, hc9, hz⟩ := cellsInv_head hci hlt
          push_neg at hcond
          have htm : takenMask m cells[idx].1 cells[idx].2 &&& (1 <<< k) = 0 := by
            rcases Nat.eq_zero_or_pos k with rfl | hk0
            · simpa using hcond
            · rw [if_neg (by omega)] at hcond
              have := htk hk0 hlt
              rw [listGetD_lt hlt] at this
              rw [this] at hcond
              exact hcond
          have hcond2 : ¬ ((if k = 0 then takenMask m cells[idx].1 cells[idx].2
              else taken0) &&& (1 <<< k) ≠ 0) := by
            push_neg
            exact hcond
          rcases hsub : btAux cells fuel (idx + 1) 0 0
              (setC b cells[idx].1 cells[idx].2 (k + 1))
              (placeB m cells[idx].1 cells[idx].2
                (boxIdx cells[idx].1 cells[idx].2) (1 <<< k)) with ⟨res, b2, m2⟩
          rw [btAux_succ_lt hlt, if_neg hk9n, if_neg hcond2, hsub] at hf ⊢
          cases res with
          | true => simp at hf
          | false =>
            have hwf2 : WF (setC b cells[idx].1 cells[idx].2 (k + 1)) :=
              WF_setC hwf _ _ _
            have hci2 : CellsInv (setC b cells[idx].1 cells[idx].2 (k + 1))
                cells (idx + 1) := cellsInv_step hwf hci hlt (by omega)
            have hrest := ih (idx + 1) 0 0 _ _ hwf2 hci2 (by omega) (by rw [hsub])
            rw [hsub] at hrest
            obtain ⟨hb2, hm2⟩ := Prod.mk.injEq .. ▸ hrest
            obtain ⟨hz1, hz2, hz3⟩ := takenMask_land_zero htm
            have hb3 : setC b2 cells[idx].1 cells[idx].2 0 = b := by
              rw [hb2, setC_setC]
              have hself := setC_getC_self b cells[idx].1 cells[idx].2
              rw [hz] at hself
              exact hself
            have hm3 : unplaceB m2 cells[idx].1 cells[idx].2
                (boxIdx cells[idx].1 cells[idx].2) (1 <<< k) = m := by
              rw [hm2]
              exact unplaceB_placeB hz1 hz2 hz3
            simp only [hb3, hm3] at hf ⊢
            refine ih idx (k + 1) _ b m hwf hci ?_ hf
            intro hkpos hlt2
            rw [listGetD_lt hlt2]
            rcases Nat.eq_zero_or_pos k with rfl | hk0
            · simp
            · rw [if_neg (by omega)]
              have := htk hk0 hlt
              rw [listGetD_lt hlt] at this
              exact this
      · rw [btAux_succ_lt hlt, if_pos hk9] at hf ⊢
    · rw [btAux_leaf hge] at hf
      simp at hf

/-- `_backtrack_count` always restores the board and masks exactly. -/
theorem bcAux_restore (cells : List Cell) (limit : Nat) (fuel : Nat) :
    ∀ (idx k taken0 count : Nat) (b : Board) (m : BMasks),
      WF b → CellsInv b cells idx →
      (0 < k → idx < cells.length →
        taken0 = takenMask m (cells.getD idx (0, 0)).1 (cells.getD idx (0, 0)).2) →
      (bcAux cells limit fuel idx k taken0 count b m).2 = (b, m) := by
  induction fuel with
  | zero =>
    intro idx k taken0 count b m hwf hci htk
    rfl
  | succ fuel ih =>
    intro idx k taken0 count b m hwf hci htk
    rcases Nat.lt_or_ge idx cells.length with hlt | hge
    · rcases Nat.lt_or_ge k 9 with hk9 | hk9
      · have hk9n : ¬ 9 ≤ k := Nat.not_le.mpr hk9
        by_cases hcond : (if k = 0 then takenMask m cells[idx].1 cells[idx].2
            else taken0) &&& (1 <<< k) ≠ 0
        · rw [bcAux_succ_lt hlt, if_neg hk9n, if_pos hcond]
          refine ih idx (k + 1) _ count b m hwf hci ?_
          intro hkpos hlt2
          rw [listGetD_lt hlt2]
          rcases Nat.eq_zero_or_pos k with rfl | hk0
          · simp
          · rw [if_neg (by omega)]
            have := htk hk0 hlt
            rw [listGetD_lt hlt] at this
            exact this
        · obtain ⟨hr9, hc9, hz⟩ := cellsInv_head hci hlt
          push_neg at hcond
          have htm : takenMask m cells[idx].1 cells[idx].2 &&& (1 <<< k) = 0 := by
            rcases Nat.eq_zero_or_pos k with rfl | hk0
            · simpa using hcond
            · rw [if_neg (by omega)] at hcond
              have := htk hk0 hlt
              rw [listGetD_lt hlt] at this
              rw [this] at hcond
              exact hcond
          have hcond2 : ¬ ((if k = 0 then takenMask m cells[idx].1 cells[idx].2
              else taken0) &&& (1 <<< k) ≠ 0) := by
            push_neg
            exact hcond
          rcases hsub : bcAux cells limit fuel (idx + 1) 0 0 0
              (setC b cells[idx].1 cells[idx].2 (k + 1))
              (placeB m cells[idx].1 cells[idx].2
                (boxIdx cells[idx].1 cells[idx].2) (1 <<< k)) with ⟨sub, b2, m2⟩
          rw [bcAux_succ_lt hlt, if_neg hk9n, if_neg hcond2, hsub]
          have hwf2 : WF (setC b cells[idx].1 cells[idx].2 (k + 1)) :=
            WF_setC hwf _ _ _
          have hci2 : CellsInv (setC b cells[idx].1 cells[idx].2 (k + 1))
              cells (idx + 1) := cellsInv_step hwf hci hlt (by omega)
          have hrest := ih (idx + 1) 0 0 0
            (setC b cells[idx].1 cells[idx].2 (k + 1))
            (placeB m cells[idx].1 cells[idx].2
              (boxIdx cells[idx].1 cells[idx].2) (1 <<< k)) hwf2 hci2 (by omega)
          rw [hsub] at hrest
          obtain ⟨hb2, hm2⟩ := Prod.mk.injEq .. ▸ hrest
          obtain ⟨hz1, hz2, hz3⟩ := takenMask_land_zero htm
          have hb3 : setC b2 cells[idx].1 cells[idx].2 0 = b := by
            rw [hb2, setC_setC]
            have hself := setC_getC_self b cells[idx].1 cells[idx].2
            rw [hz] at hself
            exact hself
          have hm3 : unplaceB m2 cells[idx].1 cells[idx].2
              (boxIdx cells[idx].1 cells[idx].2) (1 <<< k) = m := by
            rw [hm2]
            exact unplaceB_placeB hz1 hz2 hz3
          dsimp only
          rw [hb3, hm3]
          by_cases habort : limit ≤ count + sub
          · rw [if_pos habort]
          · rw [if_neg habort]
            refine ih idx (k + 1) _ (count + sub) b m hwf hci ?_
            intro hkpos hlt2
            rw [listGetD_lt hlt2]
            rcases Nat.eq_zero_or_pos k with rfl | hk0
            · simp
            · rw [if_neg (by omega)]
              have := htk hk0 hlt
              rw [listGetD_lt hlt] at this
              exact this
      · rw [bcAux_succ_lt hlt, if_pos hk9]
    · rw [bcAux_leaf hge]

/-- `Completes` transports backwards along board extension. -/
theorem completes_of_extendsB {a b s : Board} (hab : ExtendsB a b)
    (h : Completes b s) : Completes a s := by
  obtain ⟨h1, h2, h3, h4, h5⟩ := h
  exact ⟨h1, h2, h3, h4, extendsB_trans hab h5⟩

/-- The board returned by `_backtrack` extends the board at entry: the search
writes only to the listed empty cells. -/
theorem btAux_extends (cells : List Cell) (fuel : Nat) :
    ∀ (idx k taken0 : Nat) (b : Board) (m : BMasks),
      WF b → CellsInv b cells idx →
      (0 < k → idx < cells.length →
        taken0 = takenMask m (cells.getD idx (0, 0)).1 (cells.getD idx (0, 0)).2) →
      ExtendsB b (btAux cells fuel idx k taken0 b m).2.1 := by
  induction fuel with
  | zero =>
    intro idx k taken0 b m hwf hci htk
    exact extendsB_refl b
  | succ fuel ih =>
    intro idx k taken0 b m hwf hci htk
    rcases Nat.lt_or_ge idx cells.length with hlt | hge
    · rcases Nat.lt_or_ge k 9 with hk9 | hk9
      · have hk9n : ¬ 9 ≤ k := Nat.not_le.mpr hk9
        by_cases hcond : (if k = 0 then takenMask m cells[idx].1 cells[idx].2
            else taken0) &&& (1 <<< k) ≠ 0
        · rw [btAux_succ_lt hlt, if_neg hk9n, if_pos hcond]
          refine ih idx (k + 1) _ b m hwf hci ?_
          intro hkpos hlt2
          rw [listGetD_lt hlt2]
          rcases Nat.eq_zero_or_pos k with rfl | hk0
          · simp
          · rw [if_neg (by omega)]
            have := htk hk0 hlt
            rw [listGetD_lt hlt] at this
            exact this
        · obtain ⟨hr9, hc9, hz⟩ := cellsInv_head hci hlt
          push_neg at hcond
          have htm : takenMask m cells[idx].1 cells[idx].2 &&& (1 <<< k) = 0 := by
            rcases Nat.eq_zero_or_pos k with rfl | hk0
            · simpa using hcond
            · rw [if_neg (by omega)] at hcond
              have := htk hk0 hlt
              rw [listGetD_lt hlt] at this
              rw [this] at hcond
              exact hcond
          have hcond2 : ¬ ((if k = 0 then takenMask m cells[idx].1 cells[idx].2
              else taken0) &&& (1 <<< k) ≠ 0) := by
            push_neg
            exact hcond
          rcases hsub : btAux cells fuel (idx + 1) 0 0
              (setC b cells[idx].1 cells[idx].2 (k + 1))
              (placeB m cells[idx].1 cells[idx].2
                (boxIdx cells[idx].1 cells[idx].2) (1 <<< k)) with ⟨res, b2, m2⟩
          rw [btAux_succ_lt hlt, if_neg hk9n, if_neg hcond2, hsub]
          have hwf2 : WF (setC b cells[idx].1 cells[idx].2 (k + 1)) :=
            WF_setC hwf _ _ _
          have hci2 : CellsInv (setC b cells[idx].1 cells[idx].2 (k + 1))
              cells (idx + 1) := cellsInv_step hwf hci hlt (by omega)
          cases res with
          | true =>
            have hext := ih (idx + 1) 0 0
              (setC b cells[idx].1 cells[idx].2 (k + 1))
              (placeB m cells[idx].1 cells[idx].2
                (boxIdx cells[idx].1 cells[idx].2) (1 <<< k)) hwf2 hci2 (by omega)
            rw [hsub] at hext
            exact extendsB_trans (extendsB_setC hz (k + 1)) hext
          | false =>
            have hrest := btAux_restore cells fuel (idx + 1) 0 0 _ _ hwf2 hci2
              (by omega) (by rw [hsub])
            rw [hsub] at hrest
            obtain ⟨hb2, hm2⟩ := Prod.mk.injEq .. ▸ hrest
            obtain ⟨hz1, hz2, hz3⟩ := takenMask_land_zero htm
            have hb3 : setC b2 cells[idx].1 cells[idx].2 0 = b := by
              rw [hb2, setC_setC]
              have hself := setC_getC_self b cells[idx].1 cells[idx].2
              rw [hz] at hself
              exact hself
            have hm3 : unplaceB m2 cells[idx].1 cells[idx].2
                (boxIdx cells[idx].1 cells[idx].2) (1 <<< k) = m := by
              rw [hm2]
              exact unplaceB_placeB hz1 hz2 hz3
            dsimp only
            rw [hb3, hm3]
            refine ih idx (k + 1) _ b m hwf hci ?_
            intro hkpos hlt2
            rw [listGetD_lt hlt2]
            rcases Nat.eq_zero_or_pos k with rfl | hk0
            · simp
            · rw [if_neg (by omega)]
              have := htk hk0 hlt
              rw [listGetD_lt hlt] at this
              exact this
      · rw [btAux_succ_lt hlt, if_pos hk9]
        exact extendsB_refl b
    · rw [btAux_leaf hge]
      exact extendsB_refl b

/-- Soundness of `_backtrack`: when it reports success, the final board is a
full valid solution extending the entry board. -/
theorem btAux_sound (cells : List Cell) (fuel : Nat) :
    ∀ (idx k taken0 : Nat) (b : Board) (m : BMasks),
      WF b → Ranged b → ValidP b → CellsInv b cells idx → MasksSync b m →
      (0 < k → idx < cells.length →
        taken0 = takenMask m (cells.getD idx (0, 0)).1 (cells.getD idx (0, 0)).2) →
      (btAux cells fuel idx k taken0 b m).1 = true →
      Completes b (btAux cells fuel idx k taken0 b m).2.1 := by
  induction fuel with
  | zero =>
    intro idx k taken0 b m hwf hran hv hci hsync htk hf
    simp [btAux_zero] at hf
  | succ fuel ih =>
    intro idx k taken0 b m hwf hran hv hci hsync htk hf
    rcases Nat.lt_or_ge idx cells.length with hlt | hge
    · rcases Nat.lt_or_ge k 9 with hk9 | hk9
      · have hk9n : ¬ 9 ≤ k := Nat.not_le.mpr hk9
        by_cases hcond : (if k = 0 then takenMask m cells[idx].1 cells[idx].2
            else taken0) &&& (1 <<< k) ≠ 0
        · rw [btAux_succ_lt hlt, if_neg hk9n, if_pos hcond] at hf ⊢
          refine ih idx (k + 1) _ b m hwf hran hv hci hsync ?_ hf
          intro hkpos hlt2
          rw [listGetD_lt hlt2]
          rcases Nat.eq_zero_or_pos k with rfl | hk0
          · simp
          · rw [if_neg (by omega)]
            have := htk hk0 hlt
            rw [listGetD_lt hlt] at this
            exact this
        · obtain ⟨hr9, hc9, hz⟩ := cellsInv_head hci hlt
          push_neg at hcond
          have htm : takenMask m cells[idx].1 cells[idx].2 &&& (1 <<< k) = 0 := by
            rcases Nat.eq_zero_or_pos k with rfl | hk0
            · simpa using hcond
            · rw [if_neg (by omega)] at hcond
              have := htk hk0 hlt
              rw [listGetD_lt hlt] at this
              rw [this] at hcond
              exact hcond
          have hcond2 : ¬ ((if k = 0 then takenMask m cells[idx].1 cells[idx].2
              else taken0) &&& (1 <<< k) ≠ 0) := by
            push_neg
            exact hcond
          rcases hsub : btAux cells fuel (idx + 1) 0 0
              (setC b cells[idx].1 cells[idx].2 (k + 1))
              (placeB m cells[idx].1 cells[idx].2
                (boxIdx cells[idx].1 cells[idx].2) (1 <<< k)) with ⟨res, b2, m2⟩
          rw [btAux_succ_lt hlt, if_neg hk9n, if_neg hcond2, hsub] at hf ⊢
          have hwf2 : WF (setC b cells[idx].1 cells[idx].2 (k + 1)) :=
            WF_setC hwf _ _ _
          have hci2 : CellsInv (setC b cells[idx].1 cells[idx].2 (k + 1))
              cells (idx + 1) := cellsInv_step hwf hci hlt (by omega)
          cases res with
          | true =>
            have hs := ih (idx + 1) 0 0
              (setC b cells[idx].1 cells[idx].2 (k + 1))
              (placeB m cells[idx].1 cells[idx].2
                (boxIdx cells[idx].1 cells[idx].2) (1 <<< k))
              hwf2 (Ranged_setC hran (by omega) _ _)
              (validP_setC hv hsync hwf hr9 hc9 hz hk9 htm)
              hci2 (masksSync_placeB hsync hwf hr9 hc9 hz hk9)
              (by omega) (by rw [hsub])
            rw [hsub] at hs
            exact completes_of_extendsB (extendsB_setC hz (k + 1)) hs
          | false =>
            have hrest := btAux_restore cells fuel (idx + 1) 0 0 _ _ hwf2 hci2
              (by omega) (by rw [hsub])
            rw [hsub] at hrest
            obtain ⟨hb2, hm2⟩ := Prod.mk.injEq .. ▸ hrest
            obtain ⟨hz1, hz2, hz3⟩ := takenMask_land_zero htm
            have hb3 : setC b2 cells[idx].1 cells[idx].2 0 = b := by
              rw [hb2, setC_setC]
              have hself := setC_getC_self b cells[idx].1 cells[idx].2
              rw [hz] at hself
              exact hself
            have hm3 : unplaceB m2 cells[idx].1 cells[idx].2
                (boxIdx cells[idx].1 cells[idx].2) (1 <<< k) = m := by
              rw [hm2]
              exact unplaceB_placeB hz1 hz2 hz3
            dsimp only at hf ⊢
            rw [hb3, hm3] at hf ⊢
            refine ih idx (k + 1) _ b m hwf hran hv hci hsync ?_ hf
            intro hkpos hlt2
            rw [listGetD_lt hlt2]
            rcases Nat.eq_zero_or_pos k with rfl | hk0
            · simp
            · rw [if_neg (by omega)]
              have := htk hk0 hlt
              rw [listGetD_lt hlt] at this
              exact this
      · rw [btAux_succ_lt hlt, if_pos hk9] at hf
        simp at hf
    · rw [btAux_leaf hge]
      exact ⟨hwf, hran, cellsInv_complete hci hge, hv, extendsB_refl b⟩

/-- Completeness of `_backtrack`: if the entry board has a completion whose
digit at the current cell has not yet been passed by the loop, the search
reports success. -/
theorem btAux_complete (cells : List Cell) (fuel : Nat) :
    ∀ (idx k taken0 : Nat) (b : Board) (m : BMasks) (s : Board),
      WF b → CellsInv b cells idx → MasksSync b m →
      (0 < k → idx < cells.length →
        taken0 = takenMask m (cells.getD idx (0, 0)).1 (cells.getD idx (0, 0)).2) →
      Completes b s →
      (∀ hlt : idx < cells.length,
        k < getC s (cells.get ⟨idx, hlt⟩).1 (cells.get ⟨idx, hlt⟩).2) →
      (cells.length - idx) * 11 + (10 - k) < fuel →
      (btAux cells fuel idx k taken0 b m).1 = true := by
  induction fuel with
  | zero =>
    intro idx k taken0 b m s hwf hci hsync htk hcomp hdig hfuel
    omega
  | succ fuel ih =>
    intro idx k taken0 b m s hwf hci hsync htk hcomp hdig hfuel
    rcases Nat.lt_or_ge idx cells.length with hlt | hge
    · obtain ⟨hr9, hc9, hz⟩ := cellsInv_head hci hlt
      have hd9 : getC s cells[idx].1 cells[idx].2 ≤ 9 :=
        getC_le_of_ranged hcomp.1 hcomp.2.1 hr9 hc9
      have hd1 : 1 ≤ getC s cells[idx].1 cells[idx].2 :=
        Nat.one_le_iff_ne_zero.mpr (hcomp.2.2.1 _ hr9 _ hc9)
      have hdig2 : k < getC s cells[idx].1 cells[idx].2 := hdig hlt
      have hk9 : k < 9 := by omega
      have hk9n : ¬ 9 ≤ k := Nat.not_le.mpr hk9
      have havail := avail_of_completes hsync hcomp hr9 hc9 hz
      rcases eq_or_ne (k + 1) (getC s cells[idx].1 cells[idx].2) with hkd | hkd
      · have htm : takenMask m cells[idx].1 cells[idx].2 &&& (1 <<< k) = 0 := by
          have : getC s cells[idx].1 cells[idx].2 - 1 = k := by omega
          rw [this] at havail
          exact havail
        have hcond2 : ¬ ((if k = 0 then takenMask m cells[idx].1 cells[idx].2
            else taken0) &&& (1 <<< k) ≠ 0) := by
          push_neg
          rcases Nat.eq_zero_or_pos k with rfl | hk0
          · simpa using htm
          · rw [if_neg (by omega)]
            have := htk hk0 hlt
            rw [listGetD_lt hlt] at this
            rw [this]
            exact htm
        rcases hsub : btAux cells fuel (idx + 1) 0 0
            (setC b cells[idx].1 cells[idx].2 (k + 1))
            (placeB m cells[idx].1 cells[idx].2
              (boxIdx cells[idx].1 cells[idx].2) (1 <<< k)) with ⟨res, b2, m2⟩
        rw [btAux_succ_lt hlt, if_neg hk9n, if_neg hcond2, hsub]
        have hwf2 : WF (setC b cells[idx].1 cells[idx].2 (k + 1)) :=
          WF_setC hwf _ _ _
        have hci2 : CellsInv (setC b cells[idx].1 cells[idx].2 (k + 1))
            cells (idx + 1) := cellsInv_step hwf hci hlt (by omega)
        have hcomp2 : Completes (setC b cells[idx].1 cells[idx].2 (k + 1)) s :=
          completes_setC hcomp hwf hr9 hc9 hz hkd.symm
        have hres : res = true := by
          have := ih (idx + 1) 0 0
            (setC b cells[idx].1 cells[idx].2 (k + 1))
            (placeB m cells[idx].1 cells[idx].2
              (boxIdx cells[idx].1 cells[idx].2) (1 <<< k)) s
            hwf2 hci2 (masksSync_placeB hsync hwf hr9 hc9 hz hk9)
            (by omega) hcomp2 ?_ (by omega)
          · rw [hsub] at this
            exact this
          · intro hlt2
            obtain ⟨ha, hb, -⟩ := cellsInv_head hci2 hlt2
            exact Nat.pos_of_ne_zero (hcomp.2.2.1 _ ha _ hb)
        rw [hres]
      · have hkd2 : k + 1 < getC s cells[idx].1 cells[idx].2 := by omega
        by_cases hcond : (if k = 0 then takenMask m cells[idx].1 cells[idx].2
            else taken0) &&& (1 <<< k) ≠ 0
        · rw [btAux_succ_lt hlt, if_neg hk9n, if_pos hcond]
          refine ih idx (k + 1) _ b m s hwf hci hsync ?_ hcomp
            (fun _ => hkd2) (by omega)
          intro hkpos hlt2
          rw [listGetD_lt hlt2]
          rcases Nat.eq_zero_or_pos k with rfl | hk0
          · simp
          · rw [if_neg (by omega)]
            have := htk hk0 hlt
            rw [listGetD_lt hlt] at this
            exact this
        · push_neg at hcond
          have htm : takenMask m cells[idx].1 cells[idx].2 &&& (1 <<< k) = 0 := by
            rcases Nat.eq_zero_or_pos k with rfl | hk0
            · simpa using hcond
            · rw [if_neg (by omega)] at hcond
              have := htk hk0 hlt
              rw [listGetD_lt hlt] at this
              rw [this] at hcond
              exact hcond
          have hcond2 : ¬ ((if k = 0 then takenMask m cells[idx].1 cells[idx].2
              else taken0) &&& (1 <<< k) ≠ 0) := by
            push_neg
            exact hcond
          rcases hsub : btAux cells fuel (idx + 1) 0 0
              (setC b cells[idx].1 cells[idx].2 (k + 1))
              (placeB m cells[idx].1 cells[idx].2
                (boxIdx cells[idx].1 cells[idx].2) (1 <<< k)) with ⟨res, b2, m2⟩
          rw [btAux_succ_lt hlt, if_neg hk9n, if_neg hcond2, hsub]
          cases res with
          | true => rfl
          | false =>
            have hwf2 : WF (setC b cells[idx].1 cells[idx].2 (k + 1)) :=
              WF_setC hwf _ _ _
            have hci2 : CellsInv (setC b cells[idx].1 cells[idx].2 (k + 1))
                cells (idx + 1) := cellsInv_step hwf hci hlt (by omega)
            have hrest := btAux_restore cells fuel (idx + 1) 0 0 _ _ hwf2 hci2
              (by omega) (by rw [hsub])
            rw [hsub] at hrest
            obtain ⟨hb2, hm2⟩ := Prod.mk.injEq .. ▸ hrest
            obtain ⟨hz1, hz2, hz3⟩ := takenMask_land_zero htm
            have hb3 : setC b2 cells[idx].1 cells[idx].2 0 = b := by
              rw [hb2, setC_setC]
              have hself := setC_getC_self b cells[idx].1 cells[idx].2
              rw [hz] at hself
              exact hself
            have hm3 : unplaceB m2 cells[idx].1 cells[idx].2
                (boxIdx cells[idx].1 cells[idx].2) (1 <<< k) = m := by
              rw [hm2]
              exact unplaceB_placeB hz1 hz2 hz3
            dsimp only
            rw [hb3, hm3]
            refine ih idx (k + 1) _ b m s hwf hci hsync ?_ hcomp
              (fun _ => hkd2) (by omega)
            intro hkpos hlt2
            rw [listGetD_lt hlt2]
            rcases Nat.eq_zero_or_pos k with rfl | hk0
            · simp
            · rw [if_neg (by omega)]
              have := htk hk0 hlt
              rw [listGetD_lt hlt] at this
              exact this
    · rw [btAux_leaf hge]

/-- The accumulated count never decreases through the digit loop of
`_backtrack_count`. -/
theorem bcAux_mono (cells : List Cell) (limit : Nat) (fuel : Nat) :
    ∀ (idx k taken0 count : Nat) (b : Board) (m : BMasks),
      idx < cells.length →
      (cells.length - idx) * 11 + (10 - k) < fuel →
      count ≤ (bcAux cells limit fuel idx k taken0 count b m).1 := by
  induction fuel with
  | zero =>
    intro idx k taken0 count b m hlt hfuel
    omega
  | succ fuel ih =>
    intro idx k taken0 count b m hlt hfuel
    rcases Nat.lt_or_ge k 9 with hk9 | hk9
    · have hk9n : ¬ 9 ≤ k := Nat.not_le.mpr hk9
      by_cases hcond : (if k = 0 then takenMask m cells[idx].1 cells[idx].2
          else taken0) &&& (1 <<< k) ≠ 0
      · rw [bcAux_succ_lt hlt, if_neg hk9n, if_pos hcond]
        exact ih idx (k + 1) _ count b m hlt (by omega)
      · have hcond2 : ¬ ((if k = 0 then takenMask m cells[idx].1 cells[idx].2
            else taken0) &&& (1 <<< k) ≠ 0) := hcond
        rcases hsub : bcAux cells limit fuel (idx + 1) 0 0 0
            (setC b cells[idx].1 cells[idx].2 (k + 1))
            (placeB m cells[idx].1 cells[idx].2
              (boxIdx cells[idx].1 cells[idx].2) (1 <<< k)) with ⟨sub, b2, m2⟩
        rw [bcAux_succ_lt hlt, if_neg hk9n, if_neg hcond2, hsub]
        dsimp only
        by_cases habort : limit ≤ count + sub
        · rw [if_pos habort]
          omega
        · rw [if_neg habort]
          have := ih idx (k + 1)
            (if k = 0 then takenMask m cells[idx].1 cells[idx].2 else taken0)
            (count + sub) (setC b2 cells[idx].1 cells[idx].2 0)
            (unplaceB m2 cells[idx].1 cells[idx].2
              (boxIdx cells[idx].1 cells[idx].2) (1 <<< k)) hlt (by omega)
          omega
    · rw [bcAux_succ_lt hlt, if_pos hk9]

/-- The count returned by `_backtrack_count` is bounded by
`(limit - 1) * (number of remaining cells) + 1`: each level can overshoot by
at most `limit - 1` accumulated before its last branch. -/
theorem bcAux_upper (cells : List Cell) (limit : Nat) (fuel : Nat) :
    ∀ (idx k taken0 count : Nat) (b : Board) (m : BMasks),
      1 ≤ limit → count < limit →
      (bcAux cells limit fuel idx k taken0 count b m).1 ≤
        (limit - 1) * (cells.length - idx) + 1 := by
  induction fuel with
  | zero =>
    intro idx k taken0 count b m hlim hcount
    simp [bcAux_zero]
  | succ fuel ih =>
    intro idx k taken0 count b m hlim hcount
    rcases Nat.lt_or_ge idx cells.length with hlt | hge
    · have hpos : 0 < cells.length - idx := by omega
      have hmul1 : limit - 1 ≤ (limit - 1) * (cells.length - idx) :=
        Nat.le_mul_of_pos_right _ hpos
      have hmul2 : (limit - 1) * (cells.length - idx) =
          (limit - 1) * (cells.length - (idx + 1)) + (limit - 1) := by
        have hsplit : cells.length - idx = (cells.length - (idx + 1)) + 1 := by
          omega
        rw [hsplit, Nat.mul_succ]
      rcases Nat.lt_or_ge k 9 with hk9 | hk9
      · have hk9n : ¬ 9 ≤ k := Nat.not_le.mpr hk9
        by_cases hcond : (if k = 0 then takenMask m cells[idx].1 cells[idx].2
            else taken0) &&& (1 <<< k) ≠ 0
        · rw [bcAux_succ_lt hlt, if_neg hk9n, if_pos hcond]
          exact ih idx (k + 1) _ count b m hlim hcount
        · have hcond2 : ¬ ((if k = 0 then takenMask m cells[idx].1 cells[idx].2
              else taken0) &&& (1 <<< k) ≠ 0) := hcond
          rcases hsub : bcAux cells limit fuel (idx + 1) 0 0 0
              (setC b cells[idx].1 cells[idx].2 (k + 1))
              (placeB m cells[idx].1 cells[idx].2
                (boxIdx cells[idx].1 cells[idx].2) (1 <<< k)) with ⟨sub, b2, m2⟩
          rw [bcAux_succ_lt hlt, if_neg hk9n, if_neg hcond2, hsub]
          dsimp only
          have hsubb := ih (idx + 1) 0 0 0 (setC b cells[idx].1 cells[idx].2 (k + 1))
            (placeB m cells[idx].1 cells[idx].2
              (boxIdx cells[idx].1 cells[idx].2) (1 <<< k)) hlim (by omega)
          rw [hsub] at hsubb
          by_cases habort : limit ≤ count + sub
          · rw [if_pos habort]
            omega
          · rw [if_neg habort]
            have := ih idx (k + 1)
              (if k = 0 then takenMask m cells[idx].1 cells[idx].2 else taken0)
              (count + sub) (setC b2 cells[idx].1 cells[idx].2 0)
              (unplaceB m2 cells[idx].1 cells[idx].2
                (boxIdx cells[idx].1 cells[idx].2) (1 <<< k)) hlim (by omega)
            omega
      · rw [bcAux_succ_lt hlt, if_pos hk9]
        omega
    · rw [bcAux_leaf hge]
      omega

/-- If the board has a completion whose digit at the current cell has not been
passed, `_backtrack_count` finds at least one more solution (up to the
abort threshold `limit`). -/
theorem bcAux_lower_one (cells : List Cell) (limit : Nat) (fuel : Nat) :
    ∀ (idx k taken0 count : Nat) (b : Board) (m : BMasks) (s : Board),
      WF b → CellsInv b cells idx → MasksSync b m →
      (0 < k → idx < cells.length →
        taken0 = takenMask m (cells.getD idx (0, 0)).1 (cells.getD idx (0, 0)).2) →
      1 ≤ limit →
      Completes b s →
      (∀ hlt : idx < cells.length,
        k < getC s (cells.get ⟨idx, hlt⟩).1 (cells.get ⟨idx, hlt⟩).2) →
      (cells.length ≤ idx → count = 0) →
      (cells.length - idx) * 11 + (10 - k) < fuel →
      min limit (count + 1) ≤ (bcAux cells limit fuel idx k taken0 count b m).1 := by
  induction fuel with
  | zero =>
    intro idx k taken0 count b m s hwf hci hsync htk hlim hcomp hdig hcz hfuel
    omega
  | succ fuel ih =>
    intro idx k taken0 count b m s hwf hci hsync htk hlim hcomp hdig hcz hfuel
    rcases Nat.lt_or_ge idx cells.length with hlt | hge
    · obtain ⟨hr9, hc9, hz⟩ := cellsInv_head hci hlt
      have hd9 : getC s cells[idx].1 cells[idx].2 ≤ 9 :=
        getC_le_of_ranged hcomp.1 hcomp.2.1 hr9 hc9
      have hd1 : 1 ≤ getC s cells[idx].1 cells[idx].2 :=
        Nat.one_le_iff_ne_zero.mpr (hcomp.2.2.1 _ hr9 _ hc9)
      have hdig2 : k < getC s cells[idx].1 cells[idx].2 := hdig hlt
      have hk9 : k < 9 := by omega
      have hk9n : ¬ 9 ≤ k := Nat.not_le.mpr hk9
      have havail := avail_of_completes hsync hcomp hr9 hc9 hz
      rcases eq_or_ne (k + 1) (getC s cells[idx].1 cells[idx].2) with hkd | hkd
      · have htm : takenMask m cells[idx].1 cells[idx].2 &&& (1 <<< k) = 0 := by
          have heq : getC s cells[idx].1 cells[idx].2 - 1 = k := by omega
          rw [heq] at havail
          exact havail
        have hcond2 : ¬ ((if k = 0 then takenMask m cells[idx].1 cells[idx].2
            else taken0) &&& (1 <<< k) ≠ 0) := by
          push_neg
          rcases Nat.eq_zero_or_pos k with rfl | hk0
          · simpa using htm
          · rw [if_neg (by omega)]
            have := htk hk0 hlt
            rw [listGetD_lt hlt] at this
            rw [this]
            exact htm
        rcases hsub : bcAux cells limit fuel (idx + 1) 0 0 0
            (setC b cells[idx].1 cells[idx].2 (k + 1))
            (placeB m cells[idx].1 cells[idx].2
              (boxIdx cells[idx].1 cells[idx].2) (1 <<< k)) with ⟨sub, b2, m2⟩
        rw [bcAux_succ_lt hlt, if_neg hk9n, if_neg hcond2, hsub]
        dsimp only
        have hwf2 : WF (setC b cells[idx].1 cells[idx].2 (k + 1)) :=
          WF_setC hwf _ _ _
        have hci2 : CellsInv (setC b cells[idx].1 cells[idx].2 (k + 1))
            cells (idx + 1) := cellsInv_step hwf hci hlt (by omega)
        have hcomp2 : Completes (setC b cells[idx].1 cells[idx].2 (k + 1)) s :=
          completes_setC hcomp hwf hr9 hc9 hz hkd.symm
        have hsub1 : 1 ≤ sub := by
          have := ih (idx + 1) 0 0 0
            (setC b cells[idx].1 cells[idx].2 (k + 1))
            (placeB m cells[idx].1 cells[idx].2
              (boxIdx cells[idx].1 cells[idx].2) (1 <<< k)) s
            hwf2 hci2 (masksSync_placeB hsync hwf hr9 hc9 hz hk9)
            (by omega) hlim hcomp2 ?_ (fun _ => rfl) (by omega)
          · rw [hsub] at this
            omega
          · intro hlt2
            obtain ⟨ha, hb, -⟩ := cellsInv_head hci2 hlt2
            exact Nat.pos_of_ne_zero (hcomp.2.2.1 _ ha _ hb)
        by_cases habort : limit ≤ count + sub
        · rw [if_pos habort]
          omega
        · rw [if_neg habort]
          have hmono := bcAux_mono cells limit fuel idx (k + 1)
            (if k = 0 then takenMask m cells[idx].1 cells[idx].2 else taken0)
            (count + sub) (setC b2 cells[idx].1 cells[idx].2 0)
            (unplaceB m2 cells[idx].1 cells[idx].2
              (boxIdx cells[idx].1 cells[idx].2) (1 <<< k)) hlt (by omega)
          omega
      · have hkd2 : k + 1 < getC s cells[idx].1 cells[idx].2 := by omega
        by_cases hcond : (if k = 0 then takenMask m cells[idx].1 cells[idx].2
            else taken0) &&& (1 <<< k) ≠ 0
        · rw [bcAux_succ_lt hlt, if_neg hk9n, if_pos hcond]
          refine ih idx (k + 1)
            (if k = 0 then takenMask m cells[idx].1 cells[idx].2 else taken0)
            count b m s hwf hci hsync ?_ hlim hcomp
            (fun _ => hkd2) (by omega) (by omega)
          intro hkpos hlt2
          rw [listGetD_lt hlt2]
          rcases Nat.eq_zero_or_pos k with rfl | hk0
          · simp
          · rw [if_neg (by omega)]
            have := htk hk0 hlt
            rw [listGetD_lt hlt] at this
            exact this
        · push_neg at hcond
          have htm : takenMask m cells[idx].1 cells[idx].2 &&& (1 <<< k) = 0 := by
            rcases Nat.eq_zero_or_pos k with rfl | hk0
            · simpa using hcond
            · rw [if_neg (by omega)] at hcond
              have := htk hk0 hlt
              rw [listGetD_lt hlt] at this
              rw [this] at hcond
              exact hcond
          have hcond2 : ¬ ((if k = 0 then takenMask m cells[idx].1 cells[idx].2
              else taken0) &&& (1 <<< k) ≠ 0) := by
            push_neg
            exact hcond
          rcases hsub : bcAux cells limit fuel (idx + 1) 0 0 0
              (setC b cells[idx].1 cells[idx].2 (k + 1))
              (placeB m cells[idx].1 cells[idx].2
                (boxIdx cells[idx].1 cells[idx].2) (1 <<< k)) with ⟨sub, b2, m2⟩
          rw [bcAux_succ_lt hlt, if_neg hk9n, if_neg hcond2, hsub]
          dsimp only
          have hwf2 : WF (setC b cells[idx].1 cells[idx].2 (k + 1)) :=
            WF_setC hwf _ _ _
          have hci2 : CellsInv (setC b cells[idx].1 cells[idx].2 (k + 1))
              cells (idx + 1) := cellsInv_step hwf hci hlt (by omega)
          have hrest := bcAux_restore cells limit fuel (idx + 1) 0 0 0
            (setC b cells[idx].1 cells[idx].2 (k + 1))
            (placeB m cells[idx].1 cells[idx].2
              (boxIdx cells[idx].1 cells[idx].2) (1 <<< k)) hwf2 hci2 (by omega)
          rw [hsub] at hrest
          obtain ⟨hb2, hm2⟩ := Prod.mk.injEq .. ▸ hrest
          obtain ⟨hz1, hz2, hz3⟩ := takenMask_land_zero htm
          have hb3 : setC b2 cells[idx].1 cells[idx].2 0 = b := by
            rw [hb2, setC_setC]
            have hself := setC_getC_self b cells[idx].1 cells[idx].2
            rw [hz] at hself
            exact hself
          have hm3 : unplaceB m2 cells[idx].1 cells[idx].2
              (boxIdx cells[idx].1 cells[idx].2) (1 <<< k) = m := by
            rw [hm2]
            exact unplaceB_placeB hz1 hz2 hz3
          rw [hb3, hm3]
          by_cases habort : limit ≤ count + sub
          · rw [if_pos habort]
            omega
          · rw [if_neg habort]
            have := ih idx (k + 1)
              (if k = 0 then takenMask m cells[idx].1 cells[idx].2 else taken0)
              (count + sub) b m s hwf hci hsync ?_ hlim
              hcomp (fun _ => hkd2) (by omega) (by omega)
            · omega
            · intro hkpos hlt2
              rw [listGetD_lt hlt2]
              rcases Nat.eq_zero_or_pos k with rfl | hk0
              · simp
              · rw [if_neg (by omega)]
                have := htk hk0 hlt
                rw [listGetD_lt hlt] at this
                exact this
    · rw [bcAux_leaf hge]
      have := hcz hge
      omega

/-- Two distinct completions force `_backtrack_count` to report at least two
solutions (up to the abort threshold `limit`). -/
theorem bcAux_lower_two (cells : List Cell) (limit : Nat) (fuel : Nat) :
    ∀ (idx k taken0 count : Nat) (b : Board) (m : BMasks) (s1 s2 : Board),
      WF b → CellsInv b cells idx → MasksSync b m →
      (0 < k → idx < cells.length →
        taken0 = takenMask m (cells.getD idx (0, 0)).1 (cells.getD idx (0, 0)).2) →
      1 ≤ limit →
      Completes b s1 → Completes b s2 → s1 ≠ s2 →
      (∀ hlt : idx < cells.length,
        k < getC s1 (cells.get ⟨idx, hlt⟩).1 (cells.get ⟨idx, hlt⟩).2) →
      (∀ hlt : idx < cells.length,
        k < getC s2 (cells.get ⟨idx, hlt⟩).1 (cells.get ⟨idx, hlt⟩).2) →
      (cells.length - idx) * 11 + (10 - k) < fuel →
      min limit (count + 2) ≤ (bcAux cells limit fuel idx k taken0 count b m).1 := by
  induction fuel with
  | zero =>
    intro idx k taken0 count b m s1 s2 hwf hci hsync htk hlim h1 h2 hne hd1 hd2 hfuel
    omega
  | succ fuel ih =>
    intro idx k taken0 count b m s1 s2 hwf hci hsync htk hlim h1 h2 hne hd1 hd2 hfuel
    rcases Nat.lt_or_ge idx cells.length with hlt | hge
    · obtain ⟨hr9, hc9, hz⟩ := cellsInv_head hci hlt
      have hd1le : getC s1 cells[idx].1 cells[idx].2 ≤ 9 :=
        getC_le_of_ranged h1.1 h1.2.1 hr9 hc9
      have hd2le : getC s2 cells[idx].1 cells[idx].2 ≤ 9 :=
        getC_le_of_ranged h2.1 h2.2.1 hr9 hc9
      have hd1k : k < getC s1 cells[idx].1 cells[idx].2 := hd1 hlt
      have hd2k : k < getC s2 cells[idx].1 cells[idx].2 := hd2 hlt
      have hk9 : k < 9 := by omega
      have hk9n : ¬ 9 ≤ k := Nat.not_le.mpr hk9
      have hsnap : ∀ {k2 : Nat}, k < k2 →
          (0 < k2 → idx < cells.length →
            (if k = 0 then takenMask m cells[idx].1 cells[idx].2 else taken0) =
              takenMask m (cells.getD idx (0, 0)).1 (cells.getD idx (0, 0)).2) := by
        intro k2 hkk2 hkpos hlt2
        rw [listGetD_lt hlt2]
        rcases Nat.eq_zero_or_pos k with rfl | hk0
        · simp
        · rw [if_neg (by omega)]
          have := htk hk0 hlt
          rw [listGetD_lt hlt] at this
          exact this
      rcases eq_or_ne (k + 1) (getC s1 cells[idx].1 cells[idx].2) with hkd1 | hkd1 <;>
        rcases eq_or_ne (k + 1) (getC s2 cells[idx].1 cells[idx].2) with hkd2 | hkd2
      · -- both completions place k+1 here: descend and use the ih inside
        have havail := avail_of_completes hsync h1 hr9 hc9 hz
        have htm : takenMask m cells[idx].1 cells[idx].2 &&& (1 <<< k) = 0 := by
          have heq : getC s1 cells[idx].1 cells[idx].2 - 1 = k := by omega
          rw [heq] at havail
          exact havail
        have hcond2 : ¬ ((if k = 0 then takenMask m cells[idx].1 cells[idx].2
            else taken0) &&& (1 <<< k) ≠ 0) := by
          push_neg
          rcases Nat.eq_zero_or_pos k with rfl | hk0
          · simpa using htm
          · rw [if_neg (by omega)]
            have := htk hk0 hlt
            rw [listGetD_lt hlt] at this
            rw [this]
            exact htm
        rcases hsub : bcAux cells limit fuel (idx + 1) 0 0 0
            (setC b cells[idx].1 cells[idx].2 (k + 1))
            (placeB m cells[idx].1 cells[idx].2
              (boxIdx cells[idx].1 cells[idx].2) (1 <<< k)) with ⟨sub, b2, m2⟩
        rw [bcAux_succ_lt hlt, if_neg hk9n, if_neg hcond2, hsub]
        dsimp only
        have hwf2 : WF (setC b cells[idx].1 cells[idx].2 (k + 1)) :=
          WF_setC hwf _ _ _
        have hci2 : CellsInv (setC b cells[idx].1 cells[idx].2 (k + 1))
            cells (idx + 1) := cellsInv_step hwf hci hlt (by omega)
        have hsub2 : min limit 2 ≤ sub := by
          have := ih (idx + 1) 0 0 0
            (setC b cells[idx].1 cells[idx].2 (k + 1))
            (placeB m cells[idx].1 cells[idx].2
              (boxIdx cells[idx].1 cells[idx].2) (1 <<< k)) s1 s2
            hwf2 hci2 (masksSync_placeB hsync hwf hr9 hc9 hz hk9)
            (by omega) hlim
            (completes_setC h1 hwf hr9 hc9 hz hkd1.symm)
            (completes_setC h2 hwf hr9 hc9 hz hkd2.symm)
            hne ?_ ?_ (by omega)
          · rw [hsub] at this
            omega
          · intro hlt2
            obtain ⟨ha, hb, -⟩ := cellsInv_head hci2 hlt2
            exact Nat.pos_of_ne_zero (h1.2.2.1 _ ha _ hb)
          · intro hlt2
            obtain ⟨ha, hb, -⟩ := cellsInv_head hci2 hlt2
            exact Nat.pos_of_ne_zero (h2.2.2.1 _ ha _ hb)
        by_cases habort : limit ≤ count + sub
        · rw [if_pos habort]
          omega
        · rw [if_neg habort]
          have hmono := bcAux_mono cells limit fuel idx (k + 1)
            (if k = 0 then takenMask m cells[idx].1 cells[idx].2 else taken0)
            (count + sub) (setC b2 cells[idx].1 cells[idx].2 0)
            (unplaceB m2 cells[idx].1 cells[idx].2
              (boxIdx cells[idx].1 cells[idx].2) (1 <<< k)) hlt (by omega)
          omega
      · -- s1 places k+1, s2 a later digit: one solution inside, one after
        have havail := avail_of_completes hsync h1 hr9 hc9 hz
        have htm : takenMask m cells[idx].1 cells[idx].2 &&& (1 <<< k) = 0 := by
          have heq : getC s1 cells[idx].1 cells[idx].2 - 1 = k := by omega
          rw [heq] at havail
          exact havail
        have hcond2 : ¬ ((if k = 0 then takenMask m cells[idx].1 cells[idx].2
            else taken0) &&& (1 <<< k) ≠ 0) := by
          push_neg
          rcases Nat.eq_zero_or_pos k with rfl | hk0
          · simpa using htm
          · rw [if_neg (by omega)]
            have := htk hk0 hlt
            rw [listGetD_lt hlt] at this
            rw [this]
            exact htm
        rcases hsub : bcAux cells limit fuel (idx + 1) 0 0 0
            (setC b cells[idx].1 cells[idx].2 (k + 1))
            (placeB m cells[idx].1 cells[idx].2
              (boxIdx cells[idx].1 cells[idx].2) (1 <<< k)) with ⟨sub, b2, m2⟩
        rw [bcAux_succ_lt hlt, if_neg hk9n, if_neg hcond2, hsub]
        dsimp only
        have hwf2 : WF (setC b cells[idx].1 cells[idx].2 (k + 1)) :=
          WF_setC hwf _ _ _
        have hci2 : CellsInv (setC b cells[idx].1 cells[idx].2 (k + 1))
            cells (idx + 1) := cellsInv_step hwf hci hlt (by omega)
        have hsub1 : 1 ≤ sub := by
          have := bcAux_lower_one cells limit fuel (idx + 1) 0 0 0
            (setC b cells[idx].1 cells[idx].2 (k + 1))
            (placeB m cells[idx].1 cells[idx].2
              (boxIdx cells[idx].1 cells[idx].2) (1 <<< k)) s1
            hwf2 hci2 (masksSync_placeB hsync hwf hr9 hc9 hz hk9)
            (by omega) hlim
            (completes_setC h1 hwf hr9 hc9 hz hkd1.symm)
            ?_ (fun _ => rfl) (by omega)
          · rw [hsub] at this
            omega
          · intro hlt2
            obtain ⟨ha, hb, -⟩ := cellsInv_head hci2 hlt2
            exact Nat.pos_of_ne_zero (h1.2.2.1 _ ha _ hb)
        by_cases habort : limit ≤ count + sub
        · rw [if_pos habort]
          omega
        · rw [if_neg habort]
          have hrest := bcAux_restore cells limit fuel (idx + 1) 0 0 0
            (setC b cells[idx].1 cells[idx].2 (k + 1))
            (placeB m cells[idx].1 cells[idx].2
              (boxIdx cells[idx].1 cells[idx].2) (1 <<< k)) hwf2 hci2 (by omega)
          rw [hsub] at hrest
          obtain ⟨hb2, hm2⟩ := Prod.mk.injEq .. ▸ hrest
          obtain ⟨hz1, hz2, hz3⟩ := takenMask_land_zero htm
          have hb3 : setC b2 cells[idx].1 cells[idx].2 0 = b := by
            rw [hb2, setC_setC]
            have hself := setC_getC_self b cells[idx].1 cells[idx].2
            rw [hz] at hself
            exact hself
          have hm3 : unplaceB m2 cells[idx].1 cells[idx].2
              (boxIdx cells[idx].1 cells[idx].2) (1 <<< k) = m := by
            rw [hm2]
            exact unplaceB_placeB hz1 hz2 hz3
          rw [hb3, hm3]
          have := bcAux_lower_one cells limit fuel idx (k + 1)
            (if k = 0 then takenMask m cells[idx].1 cells[idx].2 else taken0)
            (count + sub) b m s2 hwf hci hsync (hsnap (by omega)) hlim h2
            (fun hlt2 => by
              show k + 1 < getC s2 cells[idx].1 cells[idx].2
              omega) (by omega) (by omega)
          omega
      · -- s2 places k+1, s1 a later digit: symmetric
        have havail := avail_of_completes hsync h2 hr9 hc9 hz
        have htm : takenMask m cells[idx].1 cells[idx].2 &&& (1 <<< k) = 0 := by
          have heq : getC s2 cells[idx].1 cells[idx].2 - 1 = k := by omega
          rw [heq] at havail
          exact havail
        have hcond2 : ¬ ((if k = 0 then takenMask m cells[idx].1 cells[idx].2
            else taken0) &&& (1 <<< k) ≠ 0) := by
          push_neg
          rcases Nat.eq_zero_or_pos k with rfl | hk0
          · simpa using htm
          · rw [if_neg (by omega)]
            have := htk hk0 hlt
            rw [listGetD_lt hlt] at this
            rw [this]
            exact htm
        rcases hsub : bcAux cells limit fuel (idx + 1) 0 0 0
            (setC b cells[idx].1 cells[idx].2 (k + 1))
            (placeB m cells[idx].1 cells[idx].2
              (boxIdx cells[idx].1 cells[idx].2) (1 <<< k)) with ⟨sub, b2, m2⟩
        rw [bcAux_succ_lt hlt, if_neg hk9n, if_neg hcond2, hsub]
        dsimp only
        have hwf2 : WF (setC b cells[idx].1 cells[idx].2 (k + 1)) :=
          WF_setC hwf _ _ _
        have hci2 : CellsInv (setC b cells[idx].1 cells[idx].2 (k + 1))
            cells (idx + 1) := cellsInv_step hwf hci hlt (by omega)
        have hsub1 : 1 ≤ sub := by
          have := bcAux_lower_one cells limit fuel (idx + 1) 0 0 0
            (setC b cells[idx].1 cells[idx].2 (k + 1))
            (placeB m cells[idx].1 cells[idx].2
              (boxIdx cells[idx].1 cells[idx].2) (1 <<< k)) s2
            hwf2 hci2 (masksSync_placeB hsync hwf hr9 hc9 hz hk9)
            (by omega) hlim
            (completes_setC h2 hwf hr9 hc9 hz hkd2.symm)
            ?_ (fun _ => rfl) (by omega)
          · rw [hsub] at this
            omega
          · intro hlt2
            obtain ⟨ha, hb, -⟩ := cellsInv_head hci2 hlt2
            exact Nat.pos_of_ne_zero (h2.2.2.1 _ ha _ hb)
        by_cases habort : limit ≤ count + sub
        · rw [if_pos habort]
          omega
        · rw [if_neg habort]
          have hrest := bcAux_restore cells limit fuel (idx + 1) 0 0 0
            (setC b cells[idx].1 cells[idx].2 (k + 1))
            (placeB m cells[idx].1 cells[idx].2
              (boxIdx cells[idx].1 cells[idx].2) (1 <<< k)) hwf2 hci2 (by omega)
          rw [hsub] at hrest
          obtain ⟨hb2, hm2⟩ := Prod.mk.injEq .. ▸ hrest
          obtain ⟨hz1, hz2, hz3⟩ := takenMask_land_zero htm
          have hb3 : setC b2 cells[idx].1 cells[idx].2 0 = b := by
            rw [hb2, setC_setC]
            have hself := setC_getC_self b cells[idx].1 cells[idx].2
            rw [hz] at hself
            exact hself
          have hm3 : unplaceB m2 cells[idx].1 cells[idx].2
              (boxIdx cells[idx].1 cells[idx].2) (1 <<< k) = m := by
            rw [hm2]
            exact unplaceB_placeB hz1 hz2 hz3
          rw [hb3, hm3]
          have := bcAux_lower_one cells limit fuel idx (k + 1)
            (if k = 0 then takenMask m cells[idx].1 cells[idx].2 else taken0)
            (count + sub) b m s1 hwf hci hsync (hsnap (by omega)) hlim h1
            (fun hlt2 => by
              show k + 1 < getC s1 cells[idx].1 cells[idx].2
              omega) (by omega) (by omega)
          omega
      · -- neither completion places k+1: both solutions found at larger digit
        by_cases hcond : (if k = 0 then takenMask m cells[idx].1 cells[idx].2
            else taken0) &&& (1 <<< k) ≠ 0
        · rw [bcAux_succ_lt hlt, if_neg hk9n, if_pos hcond]
          exact ih idx (k + 1)
            (if k = 0 then takenMask m cells[idx].1 cells[idx].2 else taken0)
            count b m s1 s2 hwf hci hsync (hsnap (by omega)) hlim h1 h2 hne
            (fun hlt2 => by
              show k + 1 < getC s1 cells[idx].1 cells[idx].2
              omega)
            (fun hlt2 => by
              show k + 1 < getC s2 cells[idx].1 cells[idx].2
              omega) (by omega)
        · push_neg at hcond
          have htm : takenMask m cells[idx].1 cells[idx].2 &&& (1 <<< k) = 0 := by
            rcases Nat.eq_zero_or_pos k with rfl | hk0
            · simpa using hcond
            · rw [if_neg (by omega)] at hcond
              have := htk hk0 hlt
              rw [listGetD_lt hlt] at this
              rw [this] at hcond
              exact hcond
          have hcond2 : ¬ ((if k = 0 then takenMask m cells[idx].1 cells[idx].2
              else taken0) &&& (1 <<< k) ≠ 0) := by
            push_neg
            exact hcond
          rcases hsub : bcAux cells limit fuel (idx + 1) 0 0 0
              (setC b cells[idx].1 cells[idx].2 (k + 1))
              (placeB m cells[idx].1 cells[idx].2
                (boxIdx cells[idx].1 cells[idx].2) (1 <<< k)) with ⟨sub, b2, m2⟩
          rw [bcAux_succ_lt hlt, if_neg hk9n, if_neg hcond2, hsub]
          dsimp only
          have hwf2 : WF (setC b cells[idx].1 cells[idx].2 (k + 1)) :=
            WF_setC hwf _ _ _
          have hci2 : CellsInv (setC b cells[idx].1 cells[idx].2 (k + 1))
              cells (idx + 1) := cellsInv_step hwf hci hlt (by omega)
          by_cases habort : limit ≤ count + sub
          · rw [if_pos habort]
            omega
          · rw [if_neg habort]
            have hrest := bcAux_restore cells limit fuel (idx + 1) 0 0 0
              (setC b cells[idx].1 cells[idx].2 (k + 1))
              (placeB m cells[idx].1 cells[idx].2
                (boxIdx cells[idx].1 cells[idx].2) (1 <<< k)) hwf2 hci2 (by omega)
            rw [hsub] at hrest
            obtain ⟨hb2, hm2⟩ := Prod.mk.injEq .. ▸ hrest
            obtain ⟨hz1, hz2, hz3⟩ := takenMask_land_zero htm
            have hb3 : setC b2 cells[idx].1 cells[idx].2 0 = b := by
              rw [hb2, setC_setC]
              have hself := setC_getC_self b cells[idx].1 cells[idx].2
              rw [hz] at hself
              exact hself
            have hm3 : unplaceB m2 cells[idx].1 cells[idx].2
                (boxIdx cells[idx].1 cells[idx].2) (1 <<< k) = m := by
              rw [hm2]
              exact unplaceB_placeB hz1 hz2 hz3
            rw [hb3, hm3]
            have := ih idx (k + 1)
              (if k = 0 then takenMask m cells[idx].1 cells[idx].2 else taken0)
              (count + sub) b m s1 s2 hwf hci hsync (hsnap (by omega)) hlim h1 h2
              hne
              (fun hlt2 => by
                show k + 1 < getC s1 cells[idx].1 cells[idx].2
                omega)
              (fun hlt2 => by
                show k + 1 < getC s2 cells[idx].1 cells[idx].2
                omega) (by omega)
            omega
    · -- at the leaf the board is complete, so the two completions coincide
      exfalso
      have hb : Complete b := cellsInv_complete hci hge
      have he1 : s1 = b := completes_complete_eq hwf hb h1
      have he2 : s2 = b := completes_complete_eq hwf hb h2
      exact hne (he1.trans he2.symm)

theorem emptyCellsOf_length_le (b : Board) : (emptyCellsOf b).length ≤ 81 := by
  obtain ⟨hnd, hiff⟩ := cellsInv_emptyCellsOf b
  rw [List.drop_zero] at hnd hiff
  have hsub : emptyCellsOf b ⊆ allCells := by
    intro p hp
    obtain ⟨h1, h2, -⟩ := (hiff p).mp hp
    exact mem_allCells.mpr ⟨h1, h2⟩
  have := (List.subperm_of_subset hnd hsub).length_le
  rwa [length_allCells] at this

theorem countSolutions_le (g : Board) (limit : Nat) (hlim : 1 ≤ limit) :
    countSolutions g limit ≤ (limit - 1) * 81 + 1 := by
  have h1 := bcAux_upper (emptyCellsOf g) limit
    ((emptyCellsOf g).length * 11 + 11) 0 0 0 0 g (maskOf g) hlim (by omega)
  have h2 : (limit - 1) * ((emptyCellsOf g).length - 0) ≤ (limit - 1) * 81 :=
    Nat.mul_le_mul_left _ (by have := emptyCellsOf_length_le g; omega)
  calc countSolutions g limit
      ≤ (limit - 1) * ((emptyCellsOf g).length - 0) + 1 := h1
    _ ≤ (limit - 1) * 81 + 1 := by omega

theorem emptyCellsOf_nil_of_complete {b : Board} (hb : Complete b) :
    emptyCellsOf b = [] := by
  obtain ⟨-, hiff⟩ := cellsInv_emptyCellsOf b
  rw [List.drop_zero] at hiff
  rw [List.eq_nil_iff_forall_not_mem]
  intro p hp
  obtain ⟨h1, h2, h3⟩ := (hiff p).mp hp
  exact hb p.1 h1 p.2 h2 h3

theorem countSolutions_complete {b : Board} (hb : Complete b) (limit : Nat) :
    countSolutions b limit = 1 := by
  unfold countSolutions backtrackCount
  rw [emptyCellsOf_nil_of_complete hb]
  rw [show ([] : List Cell).length * 11 + 11 = 10 + 1 from rfl]
  rw [bcAux_leaf (by simp)]

theorem countSolutions_unique {g : Board} (hwf : WF g)
    (h1 : countSolutions g 2 = 1) {s1 s2 : Board}
    (hc1 : Completes g s1) (hc2 : Completes g s2) : s1 = s2 := by
  by_contra hne
  have hd : ∀ s : Board, Completes g s → ∀ hlt : 0 < (emptyCellsOf g).length,
      0 < getC s ((emptyCellsOf g).get ⟨0, hlt⟩).1
            ((emptyCellsOf g).get ⟨0, hlt⟩).2 := by
    intro s hs hlt
    obtain ⟨ha, hb, -⟩ := cellsInv_head (cellsInv_emptyCellsOf g) hlt
    exact Nat.pos_of_ne_zero (hs.2.2.1 _ ha _ hb)
  have := bcAux_lower_two (emptyCellsOf g) 2
    ((emptyCellsOf g).length * 11 + 11) 0 0 0 0 g (maskOf g) s1 s2
    hwf (cellsInv_emptyCellsOf g) (masksSync_maskOf g) (by omega) (by omega)
    hc1 hc2 hne (hd s1 hc1) (hd s2 hc2) (by omega)
  have he : countSolutions g 2 =
      (bcAux (emptyCellsOf g) 2 ((emptyCellsOf g).length * 11 + 11)
        0 0 0 0 g (maskOf g)).1 := rfl
  rw [← he] at this
  omega

theorem extendsB_setC_zero {b s : Board} (hwf : WF b) (hes : ExtendsB b s)
    (r c : Nat) : ExtendsB (setC b r c 0) s := by
  intro r' hr' c' hc' hnz
  have hne : (r, c) ≠ (r', c') := by
    intro he
    obtain ⟨e1, e2⟩ := Prod.mk.injEq .. ▸ he
    subst e1
    subst e2
    rw [getC_setC_self hwf hr' hc'] at hnz
    exact hnz rfl
  rw [getC_setC_ne b 0 hne] at hnz
  rw [getC_setC_ne b 0 hne]
  exact hes r' hr' c' hc' hnz

/-- The carving loop of the dp generator preserves well-formedness,
rangedness, the reference solution and the uniqueness certificate. -/
theorem carve_invariant (ps : List Cell) :
    ∀ (b : Board) (holes target : Nat) (s : Board),
      WF b → Ranged b → Completes b s → countSolutions b 2 = 1 →
      WF (carve ps b holes target) ∧ Ranged (carve ps b holes target) ∧
      Completes (carve ps b holes target) s ∧
      countSolutions (carve ps b holes target) 2 = 1 := by
  induction ps with
  | nil =>
    intro b holes target s hwf hran hcomp hcnt
    exact ⟨hwf, hran, hcomp, hcnt⟩
  | cons p rest ih =>
    intro b holes target s hwf hran hcomp hcnt
    rw [carve]
    by_cases hstop : target ≤ holes
    · rw [if_pos hstop]
      exact ⟨hwf, hran, hcomp, hcnt⟩
    · rw [if_neg hstop]
      dsimp only
      by_cases hone : countSolutions (setC b p.1 p.2 0) 2 ≠ 1
      · rw [if_pos hone]
        have hback : setC (setC b p.1 p.2 0) p.1 p.2 (getC b p.1 p.2) = b := by
          rw [setC_setC, setC_getC_self]
        rw [hback]
        exact ih b holes target s hwf hran hcomp hcnt
      · rw [if_neg hone]
        push_neg at hone
        obtain ⟨hwfs, hrans, hcs, hvs, hes⟩ := hcomp
        exact ih (setC b p.1 p.2 0) (holes + 1) target s (WF_setC hwf _ _ _)
          (Ranged_setC hran (by omega) _ _)
          ⟨hwfs, hrans, hcs, hvs, extendsB_setC_zero hwf hes p.1 p.2⟩ hone

theorem cellsInv_of_perm {b : Board} {cells cells' : List Cell}
    (hp : cells'.Perm cells) (h : CellsInv b cells 0) : CellsInv b cells' 0 := by
  obtain ⟨hnd, hiff⟩ := h
  rw [List.drop_zero] at hnd hiff
  refine ⟨?_, ?_⟩
  · rw [List.drop_zero]
    exact hp.nodup_iff.mpr hnd
  · intro p
    rw [List.drop_zero, hp.mem_iff]
    exact hiff p

theorem backtrack_unique (cells : List Cell) {b s : Board} (m : BMasks)
    (hwf : WF b) (hran : Ranged b) (hv : ValidP b)
    (hci : CellsInv b cells 0) (hsync : MasksSync b m) (hcomp : Completes b s)
    (huniq : ∀ s1 s2, Completes b s1 → Completes b s2 → s1 = s2) :
    (backtrack cells 0 b m).1 = true ∧ (backtrack cells 0 b m).2.1 = s := by
  have hdig : ∀ hlt : 0 < cells.length,
      0 < getC s (cells.get ⟨0, hlt⟩).1 (cells.get ⟨0, hlt⟩).2 := by
    intro hlt
    obtain ⟨ha, hb2, -⟩ := cellsInv_head hci hlt
    exact Nat.pos_of_ne_zero (hcomp.2.2.1 _ ha _ hb2)
  have hfound := btAux_complete cells (cells.length * 11 + 11) 0 0 0 b m s
    hwf hci hsync (by omega) hcomp hdig (by omega)
  have hsound := btAux_sound cells (cells.length * 11 + 11) 0 0 0 b m
    hwf hran hv hci hsync (by omega) hfound
  exact ⟨hfound, huniq _ _ hsound hcomp⟩

theorem solveB_eq_some_of_unique {b s : Board} (hwf : WF b) (hran : Ranged b)
    (hv : ValidP b) (hcomp : Completes b s) (hcnt : countSolutions b 2 = 1) :
    solveB b = some s := by
  have huniq : ∀ s1 s2, Completes b s1 → Completes b s2 → s1 = s2 :=
    fun s1 s2 u1 u2 => countSolutions_unique hwf hcnt u1 u2
  have hci : CellsInv b ((initializeMasks b).2.insertionSort
      (fun a c => countOptions (initializeMasks b).1 a.1 a.2 ≤
        countOptions (initializeMasks b).1 c.1 c.2)) 0 :=
    cellsInv_of_perm (List.perm_insertionSort _ _) (cellsInv_emptyCellsOf b)
  obtain ⟨h1, h2⟩ := backtrack_unique _ (initializeMasks b).1 hwf hran hv hci
    (masksSync_maskOf b) hcomp huniq
  unfold solveB
  dsimp only
  rcases hbt : backtrack ((initializeMasks b).2.insertionSort
      (fun a c => countOptions (initializeMasks b).1 a.1 a.2 ≤
        countOptions (initializeMasks b).1 c.1 c.2)) 0 b (initializeMasks b).1
    with ⟨found, b2, m2⟩
  rw [hbt] at h1 h2
  dsimp only at h1 h2
  subst h1
  subst h2
  rfl

theorem bandShuffled_refl {b : Board} (h : b.length = 9) : BandShuffled b b := by
  refine ⟨b.take 3, (b.drop 3).take 3, b.drop 6, b.take 3, (b.drop 3).take 3,
    b.drop 6, ?_, ?_, ?_, ?_, ?_, List.Perm.refl _, List.Perm.refl _,
    List.Perm.refl _⟩
  · rw [show b.drop 6 = (b.drop 3).drop 3 by rw [List.drop_drop]]
    rw [List.append_assoc, List.take_append_drop, List.take_append_drop]
  · rw [show b.drop 6 = (b.drop 3).drop 3 by rw [List.drop_drop]]
    rw [List.append_assoc, List.take_append_drop, List.take_append_drop]
  · rw [List.length_take, h]
    omega
  · rw [List.length_take, List.length_drop, h]
    omega
  · rw [List.length_drop, h]

theorem transpose9_length (b : Board) : (transpose9 b).length = 9 := by
  simp [transpose9]

theorem shuffledBoard_refl_of {b : Board} (hb : b.length = 9)
    (hdb : transpose9 (transpose9 b) = b) : ShuffledBoard b b :=
  ⟨b, transpose9 b, bandShuffled_refl hb, bandShuffled_refl (transpose9_length b),
   hdb.symm⟩

theorem fullBoardGen_exFullBoard : FullBoardGen exFullBoard :=
  ⟨[1, 2, 3, 4, 5, 6, 7, 8, 9], List.Perm.refl _,
   shuffledBoard_refl_of (by decide) (by decide)⟩

/-! ## Claim C1 -/

/-- C1 (corrected): for the dp generator's carving step, the produced puzzle
has exactly one completion and `solve` returns the reference grid; the hybrid
generator's blind removal does not guarantee this (see the counterexample). -/
theorem claim_C1 (solution : Board) (ps : List Cell) (target : Nat)
    (hwf : WF solution) (hran : Ranged solution) (hc : Complete solution)
    (hv : ValidP solution) :
    countSolutions (carve ps solution 0 target) 2 = 1 ∧
    solveB (carve ps solution 0 target) = some solution := by
  obtain ⟨hwf2, hran2, hcomp2, hcnt2⟩ := carve_invariant ps solution 0 target
    solution hwf hran ⟨hwf, hran, hc, hv, extendsB_refl solution⟩
    (countSolutions_complete hc 2)
  exact ⟨hcnt2, solveB_eq_some_of_unique hwf2 hran2
    (validP_of_extends hcomp2.2.2.2.2 hv) hcomp2 hcnt2⟩

/-- Witness for C1 at a concrete full board and carve sequence. -/
theorem claim_C1_witness :
    WF exFullBoard ∧ Ranged exFullBoard ∧ Complete exFullBoard ∧
    ValidP exFullBoard ∧
    (countSolutions (carve [] exFullBoard 0 0) 2 = 1 ∧
     solveB (carve [] exFullBoard 0 0) = some exFullBoard) :=
  ⟨by decide, by decide, by decide, by decide,
   claim_C1 exFullBoard [] 0 (by decide) (by decide) (by decide) (by decide)⟩

/-- C1 counterexample: a puzzle instance the hybrid `generate_puzzle` can
return whose initial grid has two completions. -/
theorem claim_C1_counterexample :
    HybridGenerates exInitialC1 exFullBoard ∧
    countSolutions exInitialC1 2 ≠ 1 :=
  ⟨⟨exFullBoard, exOrderC1, 45, fullBoardGen_exFullBoard, by decide, by decide,
    rfl, rfl⟩, by decide⟩

/-! ## Claim C2 -/

/-- C2 (corrected): `count_solutions` is bounded by `(limit-1)*81 + 1`, not by
`limit`: the abort check runs only after a whole sub-count has been added, so
the result can overshoot `limit` (see the counterexample). -/
theorem claim_C2 (g : Board) (limit : Nat) (hlim : 1 ≤ limit) :
    countSolutions g limit ≤ (limit - 1) * 81 + 1 :=
  countSolutions_le g limit hlim

/-- Witness for C2 at a concrete grid and limit. -/
theorem claim_C2_witness : 1 ≤ 2 ∧ countSolutions exBoardC2 2 ≤ (2 - 1) * 81 + 1 :=
  ⟨by decide, claim_C2 exBoardC2 2 (by decide)⟩

/-- C2 counterexample: a grid on which `count_solutions(grid, 2)` returns `3`,
outside the claimed range `[0, 2]`. -/
theorem claim_C2_counterexample : countSolutions exBoardC2 2 = 3 := by decide

theorem land_shift_eq_zero_iff {x k : Nat} :
    x &&& (1 <<< k) = 0 ↔ x.testBit k = false := by
  constructor
  · intro h
    have := congrArg (fun n => n.testBit k) h
    simpa [Nat.testBit_land, testBit_one_shiftLeft] using this
  · intro h
    apply Nat.eq_of_testBit_eq
    intro i
    simp only [Nat.testBit_land, Nat.zero_testBit, testBit_one_shiftLeft]
    rcases eq_or_ne i k with rfl | hne
    · simp [h]
    · simp [hne]

theorem testBit_0x1FF (d : Nat) : (0x1FF : Nat).testBit d = decide (d < 9) := by
  rw [show (0x1FF : Nat) = 2 ^ 9 - 1 from rfl]
  exact Nat.testBit_two_pow_sub_one 9 d

theorem candidatesBitmask_testBit {b : Board} {m : BMasks} {r c : Nat}
    (d : Nat) :
    (candidatesBitmask b m r c).testBit d =
      (decide (getC b r c = 0) && decide (d < 9) &&
        !(takenMask m r c).testBit d) := by
  unfold candidatesBitmask
  by_cases hz : getC b r c ≠ 0
  · rw [if_pos hz]
    have : decide (getC b r c = 0) = false := by simpa using hz
    simp [this, Nat.zero_testBit]
  · rw [if_neg hz]
    push_neg at hz
    have hd : decide (getC b r c = 0) = true := by simpa using hz
    rw [Nat.testBit_xor, Nat.testBit_land, testBit_0x1FF, hd]
    cases hlt : decide (d < 9) <;> cases htb : (takenMask m r c).testBit d <;>
      rfl

theorem mem_bitmaskToSet {mask num : Nat} :
    num ∈ bitmaskToSet mask ↔
      ∃ d, d < 9 ∧ mask.testBit d = true ∧ num = d + 1 := by
  unfold bitmaskToSet
  simp only [List.mem_map, List.mem_filter, List.mem_range]
  constructor
  · rintro ⟨d, ⟨hd9, hbit⟩, rfl⟩
    refine ⟨d, hd9, ?_, rfl⟩
    have := of_decide_eq_true hbit
    rw [← Bool.not_eq_false]
    intro hf
    exact this (land_shift_eq_zero_iff.mpr hf)
  · rintro ⟨d, hd9, hbit, rfl⟩
    refine ⟨d, ⟨hd9, ?_⟩, rfl⟩
    apply decide_eq_true
    intro hzero
    rw [land_shift_eq_zero_iff.mp hzero] at hbit
    cases hbit

theorem cands_mem_spec {b : Board} {m : BMasks} {row col num : Nat}
    (h : num ∈ bitmaskToSet (candidatesBitmask b m row col)) :
    1 ≤ num ∧ num ≤ 9 ∧ getC b row col = 0 ∧
    takenMask m row col &&& (1 <<< (num - 1)) = 0 := by
  obtain ⟨d, hd9, hbit, rfl⟩ := mem_bitmaskToSet.mp h
  rw [candidatesBitmask_testBit] at hbit
  have h1 : decide (getC b row col = 0) = true := by
    cases he : decide (getC b row col = 0) <;> rw [he] at hbit <;> simp_all
  have h3 : (takenMask m row col).testBit d = false := by
    cases he : (takenMask m row col).testBit d <;> rw [he] at hbit <;> simp_all
  refine ⟨by omega, by omega, of_decide_eq_true h1, ?_⟩
  rw [show d + 1 - 1 = d from rfl]
  exact land_shift_eq_zero_iff.mpr h3

theorem mrvScan_some (b : Board) (m : BMasks) :
    ∀ (l : List Cell) (best : Option (Nat × Nat × List Nat)) (bc : Nat)
      (r c : Nat) (cs : List Nat),
      (∀ p ∈ l, p.1 < 9 ∧ p.2 < 9) →
      (∀ r' c' cs', best = some (r', c', cs') →
        r' < 9 ∧ c' < 9 ∧ getC b r' c' = 0 ∧
        (cs' = [] ∨ cs' = bitmaskToSet (candidatesBitmask b m r' c'))) →
      mrvScan b m l best bc = some (r, c, cs) →
      r < 9 ∧ c < 9 ∧ getC b r c = 0 ∧
      (cs = [] ∨ cs = bitmaskToSet (candidatesBitmask b m r c)) := by
  intro l
  induction l with
  | nil =>
    intro best bc r c cs hl hbest hscan
    exact hbest r c cs hscan
  | cons p rest ih =>
    intro best bc r c cs hl hbest hscan
    obtain ⟨hp1, hp2⟩ := hl p (List.mem_cons_self _ _)
    have hl2 : ∀ q ∈ rest, q.1 < 9 ∧ q.2 < 9 :=
      fun q hq => hl q (List.mem_cons_of_mem _ hq)
    rw [mrvScan] at hscan
    by_cases hz : getC b p.1 p.2 = 0
    · rw [if_pos hz] at hscan
      dsimp only at hscan
      by_cases hc0 : popCount (candidatesBitmask b m p.1 p.2) = 0
      · rw [if_pos hc0] at hscan
        rw [Option.some.injEq, Prod.mk.injEq, Prod.mk.injEq] at hscan
        obtain ⟨e1, e2, e3⟩ := hscan
        exact ⟨e1 ▸ hp1, e2 ▸ hp2, by rw [← e1, ← e2]; exact hz, Or.inl e3.symm⟩
      · rw [if_neg hc0] at hscan
        by_cases hlt : popCount (candidatesBitmask b m p.1 p.2) < bc
        · rw [if_pos hlt] at hscan
          by_cases h1 : popCount (candidatesBitmask b m p.1 p.2) = 1
          · rw [if_pos h1] at hscan
            rw [Option.some.injEq, Prod.mk.injEq, Prod.mk.injEq] at hscan
            obtain ⟨e1, e2, e3⟩ := hscan
            refine ⟨e1 ▸ hp1, e2 ▸ hp2, by rw [← e1, ← e2]; exact hz, Or.inr ?_⟩
            rw [← e1, ← e2, ← e3]
          · rw [if_neg h1] at hscan
            refine ih _ _ r c cs hl2 ?_ hscan
            intro r' c' cs' hbe
            rw [Option.some.injEq, Prod.mk.injEq, Prod.mk.injEq] at hbe
            obtain ⟨e1, e2, e3⟩ := hbe
            exact ⟨e1 ▸ hp1, e2 ▸ hp2, by rw [← e1, ← e2]; exact hz,
              Or.inr (by rw [← e1, ← e2, ← e3])⟩
        · rw [if_neg hlt] at hscan
          exact ih _ _ r c cs hl2 hbest hscan
    · rw [if_neg hz] at hscan
      exact ih _ _ r c cs hl2 hbest hscan

theorem findMrv_some_spec {b : Board} {m : BMasks} {r c : Nat} {cs : List Nat}
    (h : findMrvCellBitmask b m = some (r, c, cs)) :
    r < 9 ∧ c < 9 ∧ getC b r c = 0 ∧
    (cs = [] ∨ cs = bitmaskToSet (candidatesBitmask b m r c)) :=
  mrvScan_some b m allCells none 10 r c cs
    (fun p hp => mem_allCells.mp hp) (by simp) h

theorem solveDpHelper_zero (b : Board) (m : BMasks) (cache : Cache) :
    solveDpHelper 0 b m cache = (none, b, m, cache) := rfl

theorem solveDpHelper_succ (fuel : Nat) (b : Board) (m : BMasks)
    (cache : Cache) :
    solveDpHelper (fuel + 1) b m cache =
      (match lookupCache cache b with
       | some res => (res, b, m, cache)
       | none =>
         match findMrvCellBitmask b m with
         | none => (some b, b, m, (b, some b) :: cache)
         | some (row, col, candidates) =>
           if candidates.isEmpty then (none, b, m, (b, none) :: cache)
           else
             match candidates.foldl (dpStep fuel row col)
               (none, b, m, cache) with
             | (some res, b2, m2, c2) => (some res, b2, m2, (b, some res) :: c2)
             | (none, b2, m2, c2) => (none, b2, m2, (b, none) :: c2)) := rfl

theorem lookupCache_some {cache : Cache} {b : Board} {res : Option Board}
    (h : lookupCache cache b = some res) : (b, res) ∈ cache := by
  unfold lookupCache at h
  rcases hf : cache.find? (fun e => e.1 == b) with _ | e
  · rw [hf] at h
    cases h
  · rw [hf] at h
    dsimp only at h
    obtain rfl := Option.some.inj h
    have hmem := List.mem_of_find?_eq_some hf
    have hpred := List.find?_some hf
    have he : e.1 = b := by simpa using hpred
    have : e = (b, e.2) := Prod.ext he rfl
    rw [← this]
    exact hmem

theorem dpStep_some (fuel row col : Nat) (r : Board) (b1 : Board) (m1 : BMasks)
    (c1 : Cache) (num : Nat) :
    dpStep fuel row col (some r, b1, m1, c1) num = (some r, b1, m1, c1) := rfl

theorem dpStep_none (fuel row col : Nat) (b1 : Board) (m1 : BMasks)
    (c1 : Cache) (num : Nat) :
    dpStep fuel row col (none, b1, m1, c1) num =
      (match solveDpHelper fuel (setC b1 row col num)
              (placeB m1 row col (boxIdx row col) (1 <<< (num - 1))) c1 with
       | (some res, b2, m2, c2) => (some res, b2, m2, c2)
       | (none, b2, m2, c2) =>
           (none, setC b2 row col 0,
            unplaceB m2 row col (boxIdx row col) (1 <<< (num - 1)), c2)) := rfl

/-- Invariant preservation along the candidate loop of `_solve_dp_helper`:
if the loop has not yet succeeded the state is still the entry state, a
success extends the entry board, and the cache stays sound. -/
theorem dpFold_spec (fuel : Nat) (b : Board) (m : BMasks) (row col : Nat)
    (hr : row < 9) (hc : col < 9) (hz : getC b row col = 0)
    (hwf : WF b) (hsync : MasksSync b m)
    (ihf : ∀ (b' : Board) (m' : BMasks) (cache' : Cache),
      WF b' → MasksSync b' m' → CacheExtends cache' →
      ((solveDpHelper fuel b' m' cache').1 = none →
        (solveDpHelper fuel b' m' cache').2.1 = b' ∧
        (solveDpHelper fuel b' m' cache').2.2.1 = m') ∧
      (∀ s, (solveDpHelper fuel b' m' cache').1 = some s → ExtendsB b' s) ∧
      ExtendsB b' (solveDpHelper fuel b' m' cache').2.1 ∧
      WF (solveDpHelper fuel b' m' cache').2.1 ∧
      MasksSync (solveDpHelper fuel b' m' cache').2.1
        (solveDpHelper fuel b' m' cache').2.2.1 ∧
      CacheExtends (solveDpHelper fuel b' m' cache').2.2.2) :
    ∀ (l : List Nat),
      (∀ num ∈ l, num ∈ bitmaskToSet (candidatesBitmask b m row col)) →
      ∀ (st : Option Board × Board × BMasks × Cache),
        (st.1 = none → st.2.1 = b ∧ st.2.2.1 = m) →
        (∀ s, st.1 = some s → ExtendsB b s) →
        ExtendsB b st.2.1 → WF st.2.1 →
        MasksSync st.2.1 st.2.2.1 → CacheExtends st.2.2.2 →
        ((l.foldl (dpStep fuel row col) st).1 = none →
          (l.foldl (dpStep fuel row col) st).2.1 = b ∧
          (l.foldl (dpStep fuel row col) st).2.2.1 = m) ∧
        (∀ s, (l.foldl (dpStep fuel row col) st).1 = some s → ExtendsB b s) ∧
        ExtendsB b (l.foldl (dpStep fuel row col) st).2.1 ∧
        WF (l.foldl (dpStep fuel row col) st).2.1 ∧
        MasksSync (l.foldl (dpStep fuel row col) st).2.1
          (l.foldl (dpStep fuel row col) st).2.2.1 ∧
        CacheExtends (l.foldl (dpStep fuel row col) st).2.2.2 := by
  intro l
  induction l with
  | nil =>
    intro hsub st h1 h2 h3 h4 h5 h6
    exact ⟨h1, h2, h3, h4, h5, h6⟩
  | cons num rest ih =>
    intro hsub st h1 h2 h3 h4 h5 h6
    have hsub2 : ∀ n ∈ rest, n ∈ bitmaskToSet (candidatesBitmask b m row col) :=
      fun n hn => hsub n (List.mem_cons_of_mem _ hn)
    rw [List.foldl_cons]
    rcases st with ⟨res, b1, m1, c1⟩
    rcases res with _ | r
    · -- still searching: run this candidate
      obtain ⟨hb1, hm1⟩ := h1 rfl
      dsimp only at hb1 hm1
      subst hb1
      subst hm1
      obtain ⟨hn1, hn9, -, htaken⟩ :=
        cands_mem_spec (hsub num (List.mem_cons_self _ _))
      have hnum : num - 1 + 1 = num := by omega
      have hwf2 : WF (setC b1 row col num) := WF_setC hwf _ _ _
      have hsync2 : MasksSync (setC b1 row col num)
          (placeB m1 row col (boxIdx row col) (1 <<< (num - 1))) := by
        have := masksSync_placeB hsync hwf hr hc hz (show num - 1 < 9 by omega)
        rwa [hnum] at this
      have hspec := ihf (setC b1 row col num)
        (placeB m1 row col (boxIdx row col) (1 <<< (num - 1))) c1 hwf2 hsync2 h6
      rcases hsb : solveDpHelper fuel (setC b1 row col num)
          (placeB m1 row col (boxIdx row col) (1 <<< (num - 1))) c1
        with ⟨r2, b2, m2, c2⟩
      rw [hsb] at hspec
      obtain ⟨g1, g2, g3, g4, g5, g6⟩ := hspec
      dsimp only at g1 g2 g3 g4 g5 g6
      rcases r2 with _ | s
      · -- candidate failed: state is restored before the next iteration
        obtain ⟨hb2, hm2⟩ := g1 rfl
        subst hb2
        subst hm2
        have hstep : dpStep fuel row col (none, b1, m1, c1) num =
            (none, setC (setC b1 row col num) row col 0,
             unplaceB (placeB m1 row col (boxIdx row col) (1 <<< (num - 1)))
               row col (boxIdx row col) (1 <<< (num - 1)), c2) := by
          rw [dpStep_none, hsb]
        have hbr : setC (setC b1 row col num) row col 0 = b1 := by
          rw [setC_setC, ← hz, setC_getC_self]
        have hmr : unplaceB (placeB m1 row col (boxIdx row col) (1 <<< (num - 1)))
            row col (boxIdx row col) (1 <<< (num - 1)) = m1 := by
          obtain ⟨u1, u2, u3⟩ := takenMask_land_zero htaken
          exact unplaceB_placeB u1 u2 u3
        rw [hstep, hbr, hmr]
        exact ih hsub2 (none, b1, m1, c2) (fun _ => ⟨rfl, rfl⟩)
          (fun s hs => by cases hs) (extendsB_refl b1) hwf hsync g6
      · -- candidate succeeded: the success is propagated unchanged
        have hstep : dpStep fuel row col (none, b1, m1, c1) num =
            (some s, b2, m2, c2) := by
          rw [dpStep_none, hsb]
        have hes : ExtendsB b1 s :=
          extendsB_trans (extendsB_setC hz num) (g2 s rfl)
        have heb2 : ExtendsB b1 b2 := extendsB_trans (extendsB_setC hz num) g3
        rw [hstep]
        refine ih hsub2 (some s, b2, m2, c2) (fun hco => by cases hco) ?_
          heb2 g4 g5 g6
        intro s' hs'
        obtain rfl := Option.some.inj hs'
        exact hes
    · -- already succeeded: the loop is a no-op
      rw [dpStep_some]
      exact ih hsub2 (some r, b1, m1, c1) h1 h2 h3 h4 h5 h6

/-- The full invariant of `_solve_dp_helper`: a `None` result restores board
and masks exactly, a success extends the entry board, and every successful
cache entry extends its key. -/
theorem solveDpHelper_spec : ∀ (fuel : Nat) (b : Board) (m : BMasks)
    (cache : Cache), WF b → MasksSync b m → CacheExtends cache →
    ((solveDpHelper fuel b m cache).1 = none →
      (solveDpHelper fuel b m cache).2.1 = b ∧
      (solveDpHelper fuel b m cache).2.2.1 = m) ∧
    (∀ s, (solveDpHelper fuel b m cache).1 = some s → ExtendsB b s) ∧
    ExtendsB b (solveDpHelper fuel b m cache).2.1 ∧
    WF (solveDpHelper fuel b m cache).2.1 ∧
    MasksSync (solveDpHelper fuel b m cache).2.1
      (solveDpHelper fuel b m cache).2.2.1 ∧
    CacheExtends (solveDpHelper fuel b m cache).2.2.2 := by
  intro fuel
  induction fuel with
  | zero =>
    intro b m cache hwf hsync hcache
    rw [solveDpHelper_zero]
    refine ⟨fun _ => ⟨rfl, rfl⟩, ?_, extendsB_refl b, hwf, hsync, hcache⟩
    intro s hs
    simp at hs
  | succ fuel ih =>
    intro b m cache hwf hsync hcache
    rw [solveDpHelper_succ]
    rcases hlk : lookupCache cache b with _ | res
    · rcases hmrv : findMrvCellBitmask b m with _ | ⟨row, col, cs⟩
      · refine ⟨?_, ?_, extendsB_refl b, hwf, hsync, ?_⟩
        · intro hco
          simp at hco
        · intro s hs
          dsimp only at hs
          obtain rfl := Option.some.inj hs
          exact extendsB_refl b
        · intro e he s hes
          rcases List.mem_cons.mp he with rfl | he2
          · obtain rfl := Option.some.inj hes
            exact extendsB_refl b
          · exact hcache e he2 s hes
      · obtain ⟨hr, hc, hz, hcs⟩ := findMrv_some_spec hmrv
        dsimp only
        by_cases hemp : cs.isEmpty
        · rw [if_pos hemp]
          refine ⟨fun _ => ⟨rfl, rfl⟩, ?_, extendsB_refl b, hwf, hsync, ?_⟩
          · intro s hs
            simp at hs
          intro e he s hes
          rcases List.mem_cons.mp he with rfl | he2
          · cases hes
          · exact hcache e he2 s hes
        · rw [if_neg hemp]
          have hsub : ∀ num ∈ cs, num ∈ bitmaskToSet
              (candidatesBitmask b m row col) := by
            rcases hcs with rfl | rfl
            · intro num hn
              cases hn
            · exact fun num hn => hn
          have hfold := dpFold_spec fuel b m row col hr hc hz hwf hsync ih cs
            hsub (none, b, m, cache) (fun _ => ⟨rfl, rfl⟩)
            (fun s hs => by cases hs) (extendsB_refl b) hwf hsync hcache
          rcases hst : cs.foldl (dpStep fuel row col) (none, b, m, cache)
            with ⟨res, b2, m2, c2⟩
          rw [hst] at hfold
          obtain ⟨g1, g2, g3, g4, g5, g6⟩ := hfold
          dsimp only at g1 g2 g3 g4 g5 g6
          rcases res with _ | s
          · obtain ⟨hb2, hm2⟩ := g1 rfl
            subst hb2
            subst hm2
            refine ⟨fun _ => ⟨rfl, rfl⟩, ?_, extendsB_refl b2, hwf, hsync, ?_⟩
            · intro s hs
              simp at hs
            intro e he s hes
            rcases List.mem_cons.mp he with rfl | he2
            · cases hes
            · exact g6 e he2 s hes
          · refine ⟨?_, ?_, g3, g4, g5, ?_⟩
            · intro hco
              simp at hco
            · intro s' hs'
              dsimp only at hs'
              obtain rfl := Option.some.inj hs'
              exact g2 s rfl
            · intro e he s' hes
              rcases List.mem_cons.mp he with rfl | he2
              · dsimp only at hes
                obtain rfl := Option.some.inj hes
                exact g2 s rfl
              · exact g6 e he2 s' hes
    · refine ⟨?_, ?_, extendsB_refl b, hwf, hsync, hcache⟩
      · intro hres
        dsimp only at hres
        subst hres
        exact ⟨rfl, rfl⟩
      · intro s hs
        dsimp only at hs
        subst hs
        exact hcache _ (lookupCache_some hlk) s rfl

theorem mem_rowVals {b : Board} (hwf : WF b) {r : Nat} (hr : r < 9) {v : Nat} :
    v ∈ rowVals b r ↔ ∃ c' < 9, getC b r c' = v := by
  unfold rowVals
  have hrl : r < b.length := by
    have := hwf.1
    omega
  have hrow : (b.getD r []).length = 9 := hwf.2 _ (getD_mem_of_lt hrl [])
  rw [List.mem_iff_getElem]
  constructor
  · rintro ⟨i, hi, rfl⟩
    have hi9 : i < 9 := by omega
    refine ⟨i, hi9, ?_⟩
    show (b.getD r []).getD i 0 = _
    rw [listGetD_lt hi]
  · rintro ⟨c', hc9, rfl⟩
    have hc' : c' < (b.getD r []).length := by omega
    refine ⟨c', hc', ?_⟩
    show _ = (b.getD r []).getD c' 0
    rw [listGetD_lt hc']

theorem mem_colVals {b : Board} {c v : Nat} :
    v ∈ colVals b c ↔ ∃ r' < 9, getC b r' c = v := by
  unfold colVals
  simp only [List.mem_map, List.mem_range]

theorem mem_boxVals {b : Board} {row col v : Nat} :
    v ∈ boxVals b row col ↔
      ∃ i < 3, ∃ j < 3,
        getC b (3 * (row / 3) + i) (3 * (col / 3) + j) = v := by
  unfold boxVals
  simp only [List.mem_flatMap, List.mem_map, List.mem_range]

theorem mem_getCandidates {b : Board} {row col d : Nat} :
    d ∈ getCandidates b row col ↔
      getC b row col = 0 ∧ 1 ≤ d ∧ d ≤ 9 ∧ d ∉ rowVals b row ∧
      d ∉ colVals b col ∧ d ∉ boxVals b row col := by
  unfold getCandidates
  by_cases hz : getC b row col ≠ 0
  · rw [if_pos hz]
    simp only [List.not_mem_nil, false_iff]
    intro h
    exact hz h.1
  · rw [if_neg hz]
    push_neg at hz
    rw [List.mem_filter]
    simp only [List.mem_map, List.mem_range, decide_eq_true_eq]
    constructor
    · rintro ⟨⟨k, hk9, rfl⟩, h2⟩
      exact ⟨hz, by omega, by omega, h2.1, h2.2.1, h2.2.2⟩
    · rintro ⟨-, h1, h9, h3, h4, h5⟩
      exact ⟨⟨d - 1, by omega, by omega⟩, h3, h4, h5⟩

theorem getCandidates_completes {b s : Board} (hwf : WF b)
    (hcomp : Completes b s) {r c : Nat} (hr : r < 9) (hc : c < 9)
    (hz : getC b r c = 0) : getC s r c ∈ getCandidates b r c := by
  obtain ⟨hwfs, hrans, hcs, hvs, hes⟩ := hcomp
  have hv1 : getC s r c ≠ 0 := hcs r hr c hc
  have hv9 : getC s r c ≤ 9 := getC_le_of_ranged hwfs hrans hr hc
  rw [mem_getCandidates]
  refine ⟨hz, Nat.one_le_iff_ne_zero.mpr hv1, hv9, ?_, ?_, ?_⟩
  · intro hmem
    obtain ⟨c', hc', hval⟩ := (mem_rowVals hwf hr).mp hmem
    have hnz' : getC b r c' ≠ 0 := by
      rw [hval]
      exact hv1
    have hne : (r, c) ≠ (r, c') := by
      intro he
      obtain ⟨-, h2⟩ := Prod.mk.injEq .. ▸ he
      rw [← h2, hz] at hval
      exact hv1 hval.symm
    have hsv : getC s r c' = getC b r c' := hes r hr c' hc' hnz'
    have := hvs r hr c hc r hr c' hc' hne (Or.inl rfl) hv1
    rw [hsv, hval] at this
    exact this rfl
  · intro hmem
    obtain ⟨r', hr', hval⟩ := mem_colVals.mp hmem
    have hnz' : getC b r' c ≠ 0 := by
      rw [hval]
      exact hv1
    have hne : (r, c) ≠ (r', c) := by
      intro he
      obtain ⟨h1, -⟩ := Prod.mk.injEq .. ▸ he
      rw [← h1, hz] at hval
      exact hv1 hval.symm
    have hsv : getC s r' c = getC b r' c := hes r' hr' c hc hnz'
    have := hvs r hr c hc r' hr' c hc hne (Or.inr (Or.inl rfl)) hv1
    rw [hsv, hval] at this
    exact this rfl
  · intro hmem
    obtain ⟨i, hi, j, hj, hval⟩ := mem_boxVals.mp hmem
    have hr' : 3 * (r / 3) + i < 9 := by omega
    have hc' : 3 * (c / 3) + j < 9 := by omega
    have hnz' : getC b (3 * (r / 3) + i) (3 * (c / 3) + j) ≠ 0 := by
      rw [hval]
      exact hv1
    have hbox : boxIdx r c = boxIdx (3 * (r / 3) + i) (3 * (c / 3) + j) := by
      unfold boxIdx
      omega
    have hne : (r, c) ≠ (3 * (r / 3) + i, 3 * (c / 3) + j) := by
      intro he
      obtain ⟨h1, h2⟩ := Prod.mk.injEq .. ▸ he
      rw [← h1, ← h2, hz] at hval
      exact hv1 hval.symm
    have hsv : getC s (3 * (r / 3) + i) (3 * (c / 3) + j) =
        getC b (3 * (r / 3) + i) (3 * (c / 3) + j) := hes _ hr' _ hc' hnz'
    have := hvs r hr c hc _ hr' _ hc' hne (Or.inr (Or.inr hbox)) hv1
    rw [hsv, hval] at this
    exact this rfl

theorem dncCellStep_cases (st : Board × Bool) (p : Cell) :
    dncCellStep st p = st ∨
    (getC st.1 p.1 p.2 = 0 ∧
     ∃ d, getCandidates st.1 p.1 p.2 = [d] ∧
       dncCellStep st p = (setC st.1 p.1 p.2 d, true)) := by
  unfold dncCellStep
  by_cases hz : getC st.1 p.1 p.2 = 0
  · rw [if_pos hz]
    dsimp only
    by_cases hlen : (getCandidates st.1 p.1 p.2).length = 1
    · rw [if_pos hlen]
      obtain ⟨d, hd⟩ := List.length_eq_one.mp hlen
      right
      refine ⟨hz, d, hd, ?_⟩
      rw [hd]
      rfl
    · rw [if_neg hlen]
      left
      rfl
  · rw [if_neg hz]
    left
    rfl

/-- Invariants of the cell sweep of `solve_dnc_subgrid`: well-formedness,
clue extension, non-increasing hole count (strictly decreasing if the change
flag was raised), no change without the flag, and preservation of every
completion (only unique candidates are ever placed). -/
theorem dncFold_spec : ∀ (L : List Cell), (∀ p ∈ L, p.1 < 9 ∧ p.2 < 9) →
    ∀ (st : Board × Bool), WF st.1 →
      WF (L.foldl dncCellStep st).1 ∧
      ExtendsB st.1 (L.foldl dncCellStep st).1 ∧
      numZeros (L.foldl dncCellStep st).1 ≤ numZeros st.1 ∧
      (st.2 = true → (L.foldl dncCellStep st).2 = true) ∧
      ((L.foldl dncCellStep st).2 = false →
        (L.foldl dncCellStep st).1 = st.1 ∧ st.2 = false) ∧
      (st.2 = false → (L.foldl dncCellStep st).2 = true →
        numZeros (L.foldl dncCellStep st).1 < numZeros st.1) ∧
      (∀ s, Completes st.1 s → Completes (L.foldl dncCellStep st).1 s) := by
  intro L
  induction L with
  | nil =>
    intro hL st hwf
    refine ⟨hwf, extendsB_refl _, Nat.le_refl _, fun h => h, fun h => ⟨rfl, h⟩,
      ?_, fun s hs => hs⟩
    intro h1 h2
    rw [List.foldl_nil] at h2
    rw [h1] at h2
    exact Bool.noConfusion h2
  | cons p rest ih =>
    intro hL st hwf
    obtain ⟨hr, hc⟩ := hL p (List.mem_cons_self _ _)
    have hL2 : ∀ q ∈ rest, q.1 < 9 ∧ q.2 < 9 :=
      fun q hq => hL q (List.mem_cons_of_mem _ hq)
    rw [List.foldl_cons]
    rcases dncCellStep_cases st p with hcase | ⟨hz, d, hcands, hcase⟩
    · rw [hcase]
      exact ih hL2 st hwf
    · rw [hcase]
      have hd : d ∈ getCandidates st.1 p.1 p.2 := by
        rw [hcands]
        exact List.mem_singleton.mpr rfl
      obtain ⟨-, hd1, hd9, -, -, -⟩ := mem_getCandidates.mp hd
      have hwf2 : WF (setC st.1 p.1 p.2 d) := WF_setC hwf _ _ _
      have hzlt : numZeros (setC st.1 p.1 p.2 d) < numZeros st.1 :=
        numZeros_setC_lt hwf hr hc hz (by omega)
      obtain ⟨g1, g2, g3, g4, g5, g6, g7⟩ :=
        ih hL2 (setC st.1 p.1 p.2 d, true) hwf2
      dsimp only at g2 g3 g4 g5 g6 g7
      refine ⟨g1, extendsB_trans (extendsB_setC hz d) g2, by omega,
        fun _ => g4 rfl, ?_, fun _ _ => by omega, ?_⟩
      · intro hf
        rw [g4 rfl] at hf
        exact Bool.noConfusion hf
      · intro s hs
        have hmem := getCandidates_completes hwf hs hr hc hz
        rw [hcands] at hmem
        have hval : getC s p.1 p.2 = d := List.mem_singleton.mp hmem
        exact g7 s (completes_setC hs hwf hr hc hz hval)

theorem boxCellList_range {sr sc : Nat} (hsr : sr + 3 ≤ 9) (hsc : sc + 3 ≤ 9) :
    ∀ p ∈ boxCellList sr sc, p.1 < 9 ∧ p.2 < 9 := by
  intro p hp
  unfold boxCellList at hp
  simp only [List.mem_flatMap, List.mem_map, List.mem_range] at hp
  obtain ⟨i, hi, j, hj, rfl⟩ := hp
  exact ⟨by omega, by omega⟩

theorem solveDncSubgrid_spec {b : Board} (hwf : WF b) {sr sc : Nat}
    (hsr : sr + 3 ≤ 9) (hsc : sc + 3 ≤ 9) :
    WF (solveDncSubgrid b sr sc).1 ∧
    ExtendsB b (solveDncSubgrid b sr sc).1 ∧
    numZeros (solveDncSubgrid b sr sc).1 ≤ numZeros b ∧
    ((solveDncSubgrid b sr sc).2 = false → (solveDncSubgrid b sr sc).1 = b) ∧
    ((solveDncSubgrid b sr sc).2 = true →
      numZeros (solveDncSubgrid b sr sc).1 < numZeros b) ∧
    (∀ s, Completes b s → Completes (solveDncSubgrid b sr sc).1 s) := by
  obtain ⟨g1, g2, g3, g4, g5, g6, g7⟩ :=
    dncFold_spec (boxCellList sr sc) (boxCellList_range hsr hsc) (b, false) hwf
  exact ⟨g1, g2, g3, fun h => (g5 h).1, g6 rfl, g7⟩

/-- The subgrid sweep of a full pass keeps the same invariants. -/
theorem dncPassFold_spec : ∀ (C : List Cell),
    (∀ q ∈ C, q.1 + 3 ≤ 9 ∧ q.2 + 3 ≤ 9) →
    ∀ (st : Board × Bool), WF st.1 →
      WF (C.foldl dncBoxStep st).1 ∧
      ExtendsB st.1 (C.foldl dncBoxStep st).1 ∧
      numZeros (C.foldl dncBoxStep st).1 ≤ numZeros st.1 ∧
      (st.2 = true → (C.foldl dncBoxStep st).2 = true) ∧
      ((C.foldl dncBoxStep st).2 = false →
        (C.foldl dncBoxStep st).1 = st.1 ∧ st.2 = false) ∧
      (st.2 = false → (C.foldl dncBoxStep st).2 = true →
        numZeros (C.foldl dncBoxStep st).1 < numZeros st.1) ∧
      (∀ s, Completes st.1 s → Completes (C.foldl dncBoxStep st).1 s) := by
  intro C
  induction C with
  | nil =>
    intro hC st hwf
    refine ⟨hwf, extendsB_refl _, Nat.le_refl _, fun h => h, fun h => ⟨rfl, h⟩,
      ?_, fun s hs => hs⟩
    intro h1 h2
    rw [List.foldl_nil] at h2
    rw [h1] at h2
    exact Bool.noConfusion h2
  | cons q rest ih =>
    intro hC st hwf
    obtain ⟨hq1, hq2⟩ := hC q (List.mem_cons_self _ _)
    have hC2 : ∀ p ∈ rest, p.1 + 3 ≤ 9 ∧ p.2 + 3 ≤ 9 :=
      fun p hp => hC p (List.mem_cons_of_mem _ hp)
    rw [List.foldl_cons]
    obtain ⟨s1, s2, s3, s4, s5, s6⟩ := solveDncSubgrid_spec hwf hq1 hq2
    rcases hsg : solveDncSubgrid st.1 q.1 q.2 with ⟨bb, flag⟩
    rw [hsg] at s1 s2 s3 s4 s5 s6
    dsimp only at s1 s2 s3 s4 s5 s6
    have hstep : dncBoxStep st q = (bb, st.2 || flag) := by
      unfold dncBoxStep
      rw [hsg]
    rw [hstep]
    obtain ⟨g1, g2, g3, g4, g5, g6, g7⟩ := ih hC2 (bb, st.2 || flag) s1
    dsimp only at g2 g3 g4 g5 g6 g7
    refine ⟨g1, extendsB_trans s2 g2, by omega, ?_, ?_, ?_,
      fun s hs => g7 s (s6 s hs)⟩
    · intro ht
      apply g4
      rw [ht]
      rfl
    · intro hf
      obtain ⟨hres, hflag⟩ := g5 hf
      have hor : st.2 = false ∧ flag = false := by
        cases h1 : st.2 <;> cases h2 : flag <;>
          rw [h1, h2] at hflag <;> simp_all
      have hsg1 : bb = st.1 := s4 hor.2
      exact ⟨hres.trans hsg1, hor.1⟩
    · intro hst hres
      by_cases hflag2 : flag = true
      · have := s5 hflag2
        omega
      · have hsg2 : flag = false := by
          simpa using hflag2
        have hsg1 := s4 hsg2
        have hflag : (st.2 || flag) = false := by
          rw [hst, hsg2]
          rfl
        have hlt := g6 hflag hres
        have hnum : numZeros bb = numZeros st.1 := by rw [hsg1]
        omega

theorem dncPass_spec {b : Board} (hwf : WF b) :
    WF (dncPass b).1 ∧ ExtendsB b (dncPass b).1 ∧
    ((dncPass b).2 = false → (dncPass b).1 = b) ∧
    ((dncPass b).2 = true → numZeros (dncPass b).1 < numZeros b) ∧
    (∀ s, Completes b s → Completes (dncPass b).1 s) := by
  obtain ⟨g1, g2, g3, g4, g5, g6, g7⟩ :=
    dncPassFold_spec ((List.range 3).flatMap
      (fun i => (List.range 3).map (fun j => (3 * i, 3 * j))))
      (by decide) (b, false) hwf
  exact ⟨g1, g2, fun h => (g5 h).1, g6 rfl, g7⟩

theorem dncLoop_zero (b : Board) : dncLoop 0 b = b := rfl

theorem dncLoop_succ (fuel : Nat) (b : Board) :
    dncLoop (fuel + 1) b =
      if (dncPass b).2 then dncLoop fuel (dncPass b).1 else (dncPass b).1 := rfl

/-- The `while changed` loop of `solve_dnc_phase` reaches a fixed point of
`dncPass` whenever the fuel exceeds the number of holes. -/
theorem dncLoop_spec : ∀ (fuel : Nat) (b : Board), WF b →
    WF (dncLoop fuel b) ∧ ExtendsB b (dncLoop fuel b) ∧
    (∀ s, Completes b s → Completes (dncLoop fuel b) s) ∧
    (numZeros b < fuel → (dncPass (dncLoop fuel b)).2 = false) := by
  intro fuel
  induction fuel with
  | zero =>
    intro b hwf
    exact ⟨hwf, extendsB_refl b, fun s hs => hs, fun h => absurd h (by omega)⟩
  | succ fuel ih =>
    intro b hwf
    rw [dncLoop_succ]
    obtain ⟨p1, p2, p3, p4, p5⟩ := dncPass_spec hwf
    by_cases hp : (dncPass b).2 = true
    · rw [if_pos hp]
      obtain ⟨l1, l2, l3, l4⟩ := ih (dncPass b).1 p1
      refine ⟨l1, extendsB_trans p2 l2, fun s hs => l3 s (p5 s hs), ?_⟩
      intro hfuel
      have := p4 hp
      exact l4 (by omega)
    · rw [if_neg hp]
      have hp2 : (dncPass b).2 = false := by simpa using hp
      have hb : (dncPass b).1 = b := p3 hp2
      rw [hb]
      exact ⟨hwf, extendsB_refl b, fun s hs => hs, fun _ => hp2⟩

theorem solveDncPhase_spec {b : Board} (hwf : WF b) :
    WF (solveDncPhase b) ∧ ExtendsB b (solveDncPhase b) ∧
    (∀ s, Completes b s → Completes (solveDncPhase b) s) ∧
    (dncPass (solveDncPhase b)).2 = false := by
  obtain ⟨l1, l2, l3, l4⟩ := dncLoop_spec (numZeros b + 1) b hwf
  exact ⟨l1, l2, l3, l4 (by omega)⟩

theorem solveDncPhase_idem {b : Board} (hwf : WF b) :
    solveDncPhase (solveDncPhase b) = solveDncPhase b := by
  obtain ⟨l1, l2, l3, hfix⟩ := solveDncPhase_spec hwf
  show dncLoop (numZeros (solveDncPhase b) + 1) (solveDncPhase b) =
    solveDncPhase b
  rw [dncLoop_succ, if_neg (by rw [hfix]; exact Bool.false_ne_true)]
  obtain ⟨q1, q2, q3, q4, q5⟩ := dncPass_spec l1
  exact q3 hfix

theorem foldl_fst_eq {α β γ : Type} (F : α × β → γ → α × β) (G : α → γ → α)
    (h : ∀ st p, (F st p).1 = G st.1 p) :
    ∀ (l : List γ) (st : α × β), (l.foldl F st).1 = l.foldl G st.1 := by
  intro l
  induction l with
  | nil => intro st; rfl
  | cons p rest ih =>
    intro st
    rw [List.foldl_cons, List.foldl_cons, ih (F st p), h st p]

theorem initBitmasks_eq_maskOf (b : Board) : initBitmasks b = maskOf b := by
  have h := foldl_fst_eq
    (fun (st : BMasks × List Cell) (p : Cell) =>
      if getC b p.1 p.2 ≠ 0 then
        ({ rows := st.1.rows.set p.1
             (st.1.rows.getD p.1 0 ||| 1 <<< (getC b p.1 p.2 - 1)),
           cols := st.1.cols.set p.2
             (st.1.cols.getD p.2 0 ||| 1 <<< (getC b p.1 p.2 - 1)),
           boxes := st.1.boxes.set (boxIdx p.1 p.2)
             (st.1.boxes.getD (boxIdx p.1 p.2) 0 |||
               1 <<< (getC b p.1 p.2 - 1)) }, st.2)
      else (st.1, st.2 ++ [(p.1, p.2)]))
    (fun (m : BMasks) (p : Cell) =>
      if getC b p.1 p.2 ≠ 0 then
        { rows := m.rows.set p.1
            (m.rows.getD p.1 0 ||| 1 <<< (getC b p.1 p.2 - 1)),
          cols := m.cols.set p.2
            (m.cols.getD p.2 0 ||| 1 <<< (getC b p.1 p.2 - 1)),
          boxes := m.boxes.set (boxIdx p.1 p.2)
            (m.boxes.getD (boxIdx p.1 p.2) 0 |||
              1 <<< (getC b p.1 p.2 - 1)) }
      else m)
    (fun st p => by
      dsimp only
      by_cases hcond : getC b p.1 p.2 ≠ 0
      · rw [if_pos hcond, if_pos hcond]
      · rw [if_neg hcond, if_neg hcond])
    allCells
    (⟨List.replicate 9 0, List.replicate 9 0, List.replicate 9 0⟩, [])
  exact h.symm

theorem masksSync_initBitmasks (b : Board) : MasksSync b (initBitmasks b) := by
  rw [initBitmasks_eq_maskOf]
  exact masksSync_maskOf b

theorem solveDp_extends {b s : Board} (hwf : WF b) (h : solveDp b = some s) :
    ExtendsB b s := by
  obtain ⟨-, g2, -, -, -, -⟩ := solveDpHelper_spec (numZeros b + 1) b
    (initBitmasks b) [] hwf (masksSync_initBitmasks b)
    (fun e he s hes => absurd he (List.not_mem_nil e))
  exact g2 s h

theorem solveB_extends {b s : Board} (hwf : WF b) (h : solveB b = some s) :
    ExtendsB b s := by
  have hci : CellsInv b ((initializeMasks b).2.insertionSort
      (fun a c => countOptions (initializeMasks b).1 a.1 a.2 ≤
        countOptions (initializeMasks b).1 c.1 c.2)) 0 :=
    cellsInv_of_perm (List.perm_insertionSort _ _) (cellsInv_emptyCellsOf b)
  have hext := btAux_extends ((initializeMasks b).2.insertionSort
      (fun a c => countOptions (initializeMasks b).1 a.1 a.2 ≤
        countOptions (initializeMasks b).1 c.1 c.2))
    (((initializeMasks b).2.insertionSort
      (fun a c => countOptions (initializeMasks b).1 a.1 a.2 ≤
        countOptions (initializeMasks b).1 c.1 c.2)).length * 11 + 11)
    0 0 0 b (initializeMasks b).1 hwf hci (by omega)
  unfold solveB at h
  dsimp only at h
  rcases hbt : backtrack ((initializeMasks b).2.insertionSort
      (fun a c => countOptions (initializeMasks b).1 a.1 a.2 ≤
        countOptions (initializeMasks b).1 c.1 c.2)) 0 b (initializeMasks b).1
    with ⟨found, b2, m2⟩
  rw [hbt] at h
  have hext2 : ExtendsB b b2 := by
    have : (backtrack ((initializeMasks b).2.insertionSort
        (fun a c => countOptions (initializeMasks b).1 a.1 a.2 ≤
          countOptions (initializeMasks b).1 c.1 c.2)) 0 b
        (initializeMasks b).1).2.1 = b2 := by rw [hbt]
    rw [← this]
    exact hext
  rcases found with _ | _
  · cases h
  · dsimp only at h
    obtain rfl := Option.some.inj h
    exact hext2

theorem solveHybrid_extends {b s : Board} (hwf : WF b)
    (h : solveHybrid b = some s) : ExtendsB b s := by
  obtain ⟨w1, w2, -, -⟩ := solveDncPhase_spec hwf
  exact extendsB_trans w2 (solveDp_extends w1 h)

/-! ## Claim C3 -/

/-- C3 (confirmed): a failing branch of `_backtrack`, any completed call of
`_backtrack_count`, and a `None` result of `_solve_dp_helper` leave board and
bitmasks exactly as before the call. -/
theorem claim_C3 (cells : List Cell) (idx k taken0 count fuel limit : Nat)
    (b : Board) (m : BMasks) (cache : Cache)
    (hwf : WF b) (hci : CellsInv b cells idx) (hsync : MasksSync b m)
    (htk : 0 < k → idx < cells.length →
      taken0 = takenMask m (cells.getD idx (0, 0)).1 (cells.getD idx (0, 0)).2)
    (hcache : CacheExtends cache) :
    ((btAux cells fuel idx k taken0 b m).1 = false →
      (btAux cells fuel idx k taken0 b m).2 = (b, m)) ∧
    (bcAux cells limit fuel idx k taken0 count b m).2 = (b, m) ∧
    ((solveDpHelper fuel b m cache).1 = none →
      (solveDpHelper fuel b m cache).2.1 = b ∧
      (solveDpHelper fuel b m cache).2.2.1 = m) :=
  ⟨btAux_restore cells fuel idx k taken0 b m hwf hci htk,
   bcAux_restore cells limit fuel idx k taken0 count b m hwf hci htk,
   (solveDpHelper_spec fuel b m cache hwf hsync hcache).1⟩

/-- Witness for C3 at a concrete grid and search state. -/
theorem claim_C3_witness :
    WF exBoardC2 ∧
    (((btAux (emptyCellsOf exBoardC2) 1 0 0 0 exBoardC2
        (maskOf exBoardC2)).1 = false →
      (btAux (emptyCellsOf exBoardC2) 1 0 0 0 exBoardC2
        (maskOf exBoardC2)).2 = (exBoardC2, maskOf exBoardC2)) ∧
    (bcAux (emptyCellsOf exBoardC2) 2 1 0 0 0 0 exBoardC2
      (maskOf exBoardC2)).2 = (exBoardC2, maskOf exBoardC2) ∧
    ((solveDpHelper 1 exBoardC2 (maskOf exBoardC2) []).1 = none →
      (solveDpHelper 1 exBoardC2 (maskOf exBoardC2) []).2.1 = exBoardC2 ∧
      (solveDpHelper 1 exBoardC2 (maskOf exBoardC2) []).2.2.1 =
        maskOf exBoardC2)) :=
  ⟨by decide,
   claim_C3 (emptyCellsOf exBoardC2) 0 0 0 0 1 2 exBoardC2 (maskOf exBoardC2)
     [] (by decide) (cellsInv_emptyCellsOf exBoardC2)
     (masksSync_maskOf exBoardC2) (by omega)
     (fun e he s hes => absurd he (List.not_mem_nil e))⟩

/-! ## Claim C4 -/

/-- C4 (confirmed): constraint propagation only writes unique candidates, so
it extends the grid and preserves every complete solution. -/
theorem claim_C4 (b : Board) (hwf : WF b) :
    ExtendsB b (solveDncPhase b) ∧
    (∀ s, Completes b s → Completes (solveDncPhase b) s) := by
  obtain ⟨-, l2, l3, -⟩ := solveDncPhase_spec hwf
  exact ⟨l2, l3⟩

/-- Witness for C4 at a concrete grid. -/
theorem claim_C4_witness :
    WF exBoardC6 ∧
    (ExtendsB exBoardC6 (solveDncPhase exBoardC6) ∧
     (∀ s, Completes exBoardC6 s → Completes (solveDncPhase exBoardC6) s)) :=
  ⟨by decide, claim_C4 exBoardC6 (by decide)⟩

/-! ## Claim C5 -/

/-- C5 (confirmed): `solve_dnc_phase` is idempotent — its loop stops only
when a pass places nothing, so a second run changes nothing. -/
theorem claim_C5 (b : Board) (hwf : WF b) :
    solveDncPhase (solveDncPhase b) = solveDncPhase b :=
  solveDncPhase_idem hwf

/-- Witness for C5 at a concrete grid. -/
theorem claim_C5_witness :
    WF exBoardC6 ∧
    solveDncPhase (solveDncPhase exBoardC6) = solveDncPhase exBoardC6 :=
  ⟨by decide, claim_C5 exBoardC6 (by decide)⟩

/-! ## Claim C10 -/

/-- C10 (confirmed): every solver result extends the input clues — the search
writes only to cells that were empty at entry. -/
theorem claim_C10 (b s : Board) (hwf : WF b) :
    (solveB b = some s → ExtendsB b s) ∧
    (solveDp b = some s → ExtendsB b s) ∧
    (solveHybrid b = some s → ExtendsB b s) :=
  ⟨solveB_extends hwf, solveDp_extends hwf, solveHybrid_extends hwf⟩

/-- Witness for C10 at a concrete grid (all three solvers succeed on it). -/
theorem claim_C10_witness :
    (WF exFullBoard ∧ solveDp exFullBoard = some exFullBoard) ∧
    ((solveB exFullBoard = some exFullBoard →
        ExtendsB exFullBoard exFullBoard) ∧
     (solveDp exFullBoard = some exFullBoard →
        ExtendsB exFullBoard exFullBoard) ∧
     (solveHybrid exFullBoard = some exFullBoard →
        ExtendsB exFullBoard exFullBoard)) :=
  ⟨⟨by decide, by decide⟩, claim_C10 exFullBoard exFullBoard (by decide)⟩

theorem pqMinAux_mem : ∀ (rest : List Entry) (acc : Entry),
    rest.foldl (fun a x => if entryLe x a then x else a) acc = acc ∨
    rest.foldl (fun a x => if entryLe x a then x else a) acc ∈ rest := by
  intro rest
  induction rest with
  | nil => intro acc; left; rfl
  | cons x rest ih =>
    intro acc
    rw [List.foldl_cons]
    by_cases hle : entryLe x acc
    · rw [if_pos hle]
      rcases ih x with h | h
      · right
        rw [h]
        exact List.mem_cons_self _ _
      · right
        exact List.mem_cons_of_mem _ h
    · rw [if_neg hle]
      rcases ih acc with h | h
      · left
        exact h
      · right
        exact List.mem_cons_of_mem _ h

theorem pqMin_mem {l : List Entry} {e : Entry} (h : pqMin l = some e) :
    e ∈ l := by
  cases l with
  | nil => cases h
  | cons a rest =>
    unfold pqMin at h
    obtain rfl := Option.some.inj h
    rcases pqMinAux_mem rest a with he | he
    · rw [he]
      exact List.mem_cons_self _ _
    · exact List.mem_cons_of_mem _ he

theorem cleanPqAux_zero (b : Board) (pq : List Entry) :
    cleanPqAux b 0 pq = pq := rfl

theorem cleanPqAux_succ (b : Board) (fuel : Nat) (pq : List Entry) :
    cleanPqAux b (fuel + 1) pq =
      (match pqMin pq with
       | none => pq
       | some e =>
           if getC b e.2.1 e.2.2 ≠ 0 then cleanPqAux b fuel (pq.erase e)
           else pq) := rfl

/-- After the stale-discarding loop, any remaining minimum refers to an empty
cell. -/
theorem cleanPqAux_spec (b : Board) : ∀ (fuel : Nat) (pq : List Entry),
    pq.length ≤ fuel →
    ∀ e, pqMin (cleanPqAux b fuel pq) = some e → getC b e.2.1 e.2.2 = 0 := by
  intro fuel
  induction fuel with
  | zero =>
    intro pq hlen e h
    have hnil : pq = [] := List.eq_nil_of_length_eq_zero (by omega)
    subst hnil
    rw [cleanPqAux_zero] at h
    cases h
  | succ fuel ih =>
    intro pq hlen e h
    rw [cleanPqAux_succ] at h
    rcases hmin : pqMin pq with _ | e0
    · rw [hmin] at h
      dsimp only at h
      rw [hmin] at h
      cases h
    · rw [hmin] at h
      dsimp only at h
      by_cases hst : getC b e0.2.1 e0.2.2 ≠ 0
      · rw [if_pos hst] at h
        have hmem : e0 ∈ pq := pqMin_mem hmin
        have hlen2 : (pq.erase e0).length ≤ fuel := by
          rw [List.length_erase_of_mem hmem]
          omega
        exact ih (pq.erase e0) hlen2 e h
      · rw [if_neg hst] at h
        rw [hmin] at h
        obtain rfl := Option.some.inj h
        push_neg at hst
        exact hst

theorem initializePq_empty (b : Board) :
    ∀ e ∈ initializePq b, getC b e.2.1 e.2.2 = 0 := by
  suffices h : ∀ (l : List Cell) (acc : List Entry),
      (∀ e ∈ acc, getC b e.2.1 e.2.2 = 0) →
      ∀ e ∈ l.foldl
        (fun pq p =>
          if getC b p.1 p.2 = 0 then
            if getCandidates b p.1 p.2 ≠ [] then
              pq ++ [((getCandidates b p.1 p.2).length, p.1, p.2)]
            else pq
          else pq) acc, getC b e.2.1 e.2.2 = 0 by
    intro e he
    exact h allCells [] (fun e2 he2 => absurd he2 (List.not_mem_nil _)) e he
  intro l
  induction l with
  | nil =>
    intro acc hacc e he
    exact hacc e he
  | cons p rest ih =>
    intro acc hacc e he
    rw [List.foldl_cons] at he
    refine ih _ ?_ e he
    intro e2 he2
    by_cases hz : getC b p.1 p.2 = 0
    · rw [if_pos hz] at he2
      by_cases hc : getCandidates b p.1 p.2 ≠ []
      · rw [if_pos hc] at he2
        rcases List.mem_append.mp he2 with h1 | h1
        · exact hacc e2 h1
        · obtain rfl := List.mem_singleton.mp h1
          exact hz
      · rw [if_neg hc] at he2
        exact hacc e2 he2
    · rw [if_neg hz] at he2
      exact hacc e2 he2

/-! ## Claim C9 -/

/-- C9 (confirmed): the cell that `ai_make_move` pops for play — after
discarding stale entries and rebuilding the queue if needed — is always empty
in the current board, for any queue contents whatsoever. -/
theorem claim_C9 (b : Board) (pq : List Entry) (e : Entry)
    (rest : List Entry) (h : aiSelectCell b pq = some (e, rest)) :
    getC b e.2.1 e.2.2 = 0 := by
  unfold aiSelectCell at h
  dsimp only at h
  by_cases hcond : (cleanPq b pq).isEmpty && !isCompleteH b
  · rw [if_pos hcond] at h
    unfold heapPop at h
    rcases hmin : pqMin (initializePq b) with _ | e0
    · rw [hmin] at h
      cases h
    · rw [hmin] at h
      dsimp only at h
      obtain he := Option.some.inj h
      obtain ⟨he1, -⟩ := Prod.mk.injEq .. ▸ he
      rw [← he1]
      exact initializePq_empty b e0 (pqMin_mem hmin)
  · rw [if_neg hcond] at h
    unfold heapPop at h
    rcases hmin : pqMin (cleanPq b pq) with _ | e0
    · rw [hmin] at h
      cases h
    · rw [hmin] at h
      dsimp only at h
      obtain he := Option.some.inj h
      obtain ⟨he1, -⟩ := Prod.mk.injEq .. ▸ he
      rw [← he1]
      exact cleanPqAux_spec b pq.length pq (Nat.le_refl _) e0 hmin

/-- Witness for C9 at a concrete board and queue. -/
theorem claim_C9_witness :
    aiSelectCell exBoardC6 [(1, 0, 0)] = some ((1, 0, 0), []) ∧
    getC exBoardC6 0 0 = 0 :=
  ⟨by decide, claim_C9 exBoardC6 [(1, 0, 0)] (1, 0, 0) [] (by decide)⟩

theorem isCompleteH_iff {b : Board} : isCompleteH b = true ↔ Complete b := by
  unfold isCompleteH Complete
  simp only [List.all_eq_true, List.mem_range, bne_iff_ne]

theorem dedup_length_eq_iff {l : List Nat} (hl : l.length = 9) :
    l.dedup.length = 9 ↔ l.Nodup := by
  constructor
  · intro h
    have hsub : List.Sublist l.dedup l := List.dedup_sublist l
    have heq : l.dedup = l := hsub.eq_of_length (by omega)
    rw [← heq]
    exact List.nodup_dedup l
  · intro h
    rw [List.dedup_eq_self.mpr h]
    exact hl

theorem boxListAt_eq (b : Board) (br bc : Nat) :
    boxListAt b br bc = (List.range 3).flatMap (fun i =>
      (List.range 3).map (fun j => getC b (3 * br + i) (3 * bc + j))) := by
  unfold boxListAt boxVals
  have h1 : 3 * br / 3 = br := by omega
  have h2 : 3 * bc / 3 = bc := by omega
  simp only [h1, h2]

theorem rowVals_length {b : Board} (hwf : WF b) {r : Nat} (hr : r < 9) :
    (rowVals b r).length = 9 := by
  unfold rowVals
  have hrl : r < b.length := by
    have := hwf.1
    omega
  exact hwf.2 _ (getD_mem_of_lt hrl [])

theorem isCompleteDp_iff {b : Board} (hwf : WF b) :
    isCompleteDp b = true ↔
      Complete b ∧ (∀ r < 9, (rowVals b r).Nodup) ∧
      (∀ c < 9, (colVals b c).Nodup) ∧
      (∀ br < 3, ∀ bc < 3, (boxListAt b br bc).Nodup) := by
  unfold isCompleteDp
  simp only [Bool.and_eq_true, List.all_eq_true, List.mem_range, bne_iff_ne,
    beq_iff_eq]
  constructor
  · rintro ⟨⟨⟨h1, h2⟩, h3⟩, h4⟩
    refine ⟨fun r hr c hc => h1 r hr c hc, ?_, ?_, ?_⟩
    · intro r hr
      exact (dedup_length_eq_iff (rowVals_length hwf hr)).mp (h2 r hr)
    · intro c hc
      have hlen : (colVals b c).length = 9 := by simp [colVals]
      exact (dedup_length_eq_iff hlen).mp (h3 c hc)
    · intro br hbr bc hbc
      rw [boxListAt_eq]
      have hlen : ((List.range 3).flatMap (fun i => (List.range 3).map
          (fun j => getC b (3 * br + i) (3 * bc + j)))).length = 9 := by
        simp [Function.comp_def]
      exact (dedup_length_eq_iff hlen).mp (h4 br hbr bc hbc)
  · rintro ⟨h1, h2, h3, h4⟩
    refine ⟨⟨⟨fun r hr c hc => h1 r hr c hc, ?_⟩, ?_⟩, ?_⟩
    · intro r hr
      exact (dedup_length_eq_iff (rowVals_length hwf hr)).mpr (h2 r hr)
    · intro c hc
      have hlen : (colVals b c).length = 9 := by simp [colVals]
      exact (dedup_length_eq_iff hlen).mpr (h3 c hc)
    · intro br hbr bc hbc
      have hlen : ((List.range 3).flatMap (fun i => (List.range 3).map
          (fun j => getC b (3 * br + i) (3 * bc + j)))).length = 9 := by
        simp [Function.comp_def]
      refine (dedup_length_eq_iff hlen).mpr ?_
      rw [← boxListAt_eq]
      exact h4 br hbr bc hbc

/-! ## Claim C8 -/

/-- C8 (corrected): the dp `is_complete` checks exactly "no zero cell and
all 27 units hold 9 distinct values", but the hybrid `is_complete` only
checks that no cell is zero (see the counterexample). -/
theorem claim_C8 (b : Board) (hwf : WF b) :
    (isCompleteDp b = true ↔
      Complete b ∧ (∀ r < 9, (rowVals b r).Nodup) ∧
      (∀ c < 9, (colVals b c).Nodup) ∧
      (∀ br < 3, ∀ bc < 3, (boxListAt b br bc).Nodup)) ∧
    (isCompleteH b = true ↔ Complete b) :=
  ⟨isCompleteDp_iff hwf, isCompleteH_iff⟩

/-- Witness for C8 at a concrete board. -/
theorem claim_C8_witness :
    WF exFullBoard ∧
    ((isCompleteDp exFullBoard = true ↔
      Complete exFullBoard ∧ (∀ r < 9, (rowVals exFullBoard r).Nodup) ∧
      (∀ c < 9, (colVals exFullBoard c).Nodup) ∧
      (∀ br < 3, ∀ bc < 3, (boxListAt exFullBoard br bc).Nodup)) ∧
     (isCompleteH exFullBoard = true ↔ Complete exFullBoard)) :=
  ⟨by decide, claim_C8 exFullBoard (by decide)⟩

/-- C8 counterexample: the hybrid `is_complete` accepts the all-ones board,
on which no unit holds distinct digits. -/
theorem claim_C8_counterexample :
    isCompleteH exAllOnes = true ∧ ¬ (rowVals exAllOnes 0).Nodup := by decide

theorem popCount_le_nine : ∀ n < 512, popCount n ≤ 9 := by decide

theorem candidatesBitmask_lt {b : Board} {m : BMasks} {r c : Nat} :
    candidatesBitmask b m r c < 512 := by
  unfold candidatesBitmask
  by_cases hz : getC b r c ≠ 0
  · rw [if_pos hz]
    omega
  · rw [if_neg hz]
    have h1 : (0x1FF : Nat) < 2 ^ 9 := by decide
    have h2 : 0x1FF &&& takenMask m r c < 2 ^ 9 :=
      Nat.lt_of_le_of_lt (Nat.and_le_left) (by decide)
    exact Nat.xor_lt_two_pow h1 h2

theorem mrvScan_none (b : Board) (m : BMasks) :
    ∀ (l : List Cell) (best : Option (Nat × Nat × List Nat)) (bc : Nat),
      (best = none → 10 ≤ bc) →
      (mrvScan b m l best bc = none ↔
        best = none ∧ ∀ p ∈ l, getC b p.1 p.2 ≠ 0) := by
  intro l
  induction l with
  | nil =>
    intro best bc hbc
    rw [mrvScan]
    constructor
    · intro h
      exact ⟨h, fun p hp => absurd hp (List.not_mem_nil p)⟩
    · intro h
      exact h.1
  | cons p rest ih =>
    intro best bc hbc
    rw [mrvScan]
    by_cases hz : getC b p.1 p.2 = 0
    · rw [if_pos hz]
      dsimp only
      have hcnt : popCount (candidatesBitmask b m p.1 p.2) ≤ 9 :=
        popCount_le_nine _ candidatesBitmask_lt
      by_cases hc0 : popCount (candidatesBitmask b m p.1 p.2) = 0
      · rw [if_pos hc0]
        constructor
        · intro h
          cases h
        · rintro ⟨-, hall⟩
          exact absurd hz (hall p (List.mem_cons_self _ _))
      · rw [if_neg hc0]
        by_cases hlt : popCount (candidatesBitmask b m p.1 p.2) < bc
        · rw [if_pos hlt]
          by_cases h1 : popCount (candidatesBitmask b m p.1 p.2) = 1
          · rw [if_pos h1]
            constructor
            · intro h
              cases h
            · rintro ⟨-, hall⟩
              exact absurd hz (hall p (List.mem_cons_self _ _))
          · rw [if_neg h1]
            rw [ih _ _ (fun h => by cases h)]
            constructor
            · rintro ⟨h, -⟩
              cases h
            · rintro ⟨-, hall⟩
              exact absurd hz (hall p (List.mem_cons_self _ _))
        · rw [if_neg hlt]
          rw [ih best bc hbc]
          constructor
          · rintro ⟨hb, -⟩
            have := hbc hb
            omega
          · rintro ⟨-, hall⟩
            exact absurd hz (hall p (List.mem_cons_self _ _))
    · rw [if_neg hz]
      rw [ih best bc hbc]
      constructor
      · rintro ⟨h1, h2⟩
        refine ⟨h1, ?_⟩
        intro q hq
        rcases List.mem_cons.mp hq with rfl | hq2
        · exact hz
        · exact h2 q hq2
      · rintro ⟨h1, h2⟩
        exact ⟨h1, fun q hq => h2 q (List.mem_cons_of_mem _ hq)⟩

theorem findMrv_none_iff {b : Board} {m : BMasks} :
    findMrvCellBitmask b m = none ↔ ∀ r < 9, ∀ c < 9, getC b r c ≠ 0 := by
  unfold findMrvCellBitmask
  rw [mrvScan_none b m allCells none 10 (fun _ => Nat.le_refl 10)]
  constructor
  · rintro ⟨-, hall⟩ r hr c hc
    exact hall (r, c) (mem_allCells.mpr ⟨hr, hc⟩)
  · intro h
    refine ⟨rfl, ?_⟩
    intro p hp
    obtain ⟨h1, h2⟩ := mem_allCells.mp hp
    exact h p.1 h1 p.2 h2

theorem mrvScan_zero_guarantee (b : Board) (m : BMasks) :
    ∀ (l : List Cell) (best : Option (Nat × Nat × List Nat)) (bc : Nat),
      (∀ p ∈ l, getC b p.1 p.2 = 0 →
        popCount (candidatesBitmask b m p.1 p.2) ≠ 1) →
      (∃ p ∈ l, getC b p.1 p.2 = 0 ∧
        popCount (candidatesBitmask b m p.1 p.2) = 0) →
      ∃ r c, mrvScan b m l best bc = some (r, c, []) ∧ getC b r c = 0 ∧
        popCount (candidatesBitmask b m r c) = 0 := by
  intro l
  induction l with
  | nil =>
    intro best bc h1 h2
    obtain ⟨p, hp, -⟩ := h2
    cases hp
  | cons p rest ih =>
    intro best bc hno1 hex
    rw [mrvScan]
    by_cases hz : getC b p.1 p.2 = 0
    · rw [if_pos hz]
      dsimp only
      by_cases hc0 : popCount (candidatesBitmask b m p.1 p.2) = 0
      · rw [if_pos hc0]
        exact ⟨p.1, p.2, rfl, hz, hc0⟩
      · rw [if_neg hc0]
        have hex2 : ∃ q ∈ rest, getC b q.1 q.2 = 0 ∧
            popCount (candidatesBitmask b m q.1 q.2) = 0 := by
          obtain ⟨q, hq, hqz, hq0⟩ := hex
          rcases List.mem_cons.mp hq with rfl | hq2
          · exact absurd hq0 hc0
          · exact ⟨q, hq2, hqz, hq0⟩
        have hno2 : ∀ q ∈ rest, getC b q.1 q.2 = 0 →
            popCount (candidatesBitmask b m q.1 q.2) ≠ 1 :=
          fun q hq => hno1 q (List.mem_cons_of_mem _ hq)
        by_cases hlt : popCount (candidatesBitmask b m p.1 p.2) < bc
        · rw [if_pos hlt]
          have h1 : ¬ popCount (candidatesBitmask b m p.1 p.2) = 1 :=
            hno1 p (List.mem_cons_self _ _) hz
          rw [if_neg h1]
          exact ih _ _ hno2 hex2
        · rw [if_neg hlt]
          exact ih _ _ hno2 hex2
    · rw [if_neg hz]
      have hex2 : ∃ q ∈ rest, getC b q.1 q.2 = 0 ∧
          popCount (candidatesBitmask b m q.1 q.2) = 0 := by
        obtain ⟨q, hq, hqz, hq0⟩ := hex
        rcases List.mem_cons.mp hq with rfl | hq2
        · exact absurd hqz hz
        · exact ⟨q, hq2, hqz, hq0⟩
      have hno2 : ∀ q ∈ rest, getC b q.1 q.2 = 0 →
          popCount (candidatesBitmask b m q.1 q.2) ≠ 1 :=
        fun q hq => hno1 q (List.mem_cons_of_mem _ hq)
      exact ih _ _ hno2 hex2

/-! ## Claim C6 -/

/-- C6 (corrected): `_find_mrv_cell_bitmask` returns `None` exactly when no
cell is empty, every returned cell is an empty in-range cell, and it is
guaranteed to return a zero-candidate cell only when no empty cell has
exactly one candidate — the single-candidate early return can otherwise skip
a later zero-candidate cell (see the counterexample). -/
theorem claim_C6 (b : Board) (m : BMasks) :
    (findMrvCellBitmask b m = none ↔ ∀ r < 9, ∀ c < 9, getC b r c ≠ 0) ∧
    (∀ r c cs, findMrvCellBitmask b m = some (r, c, cs) →
      r < 9 ∧ c < 9 ∧ getC b r c = 0) ∧
    ((∀ r < 9, ∀ c < 9, getC b r c = 0 →
        popCount (candidatesBitmask b m r c) ≠ 1) →
      (∃ r, r < 9 ∧ ∃ c, c < 9 ∧ getC b r c = 0 ∧
        popCount (candidatesBitmask b m r c) = 0) →
      ∃ r c, findMrvCellBitmask b m = some (r, c, []) ∧ getC b r c = 0 ∧
        popCount (candidatesBitmask b m r c) = 0) := by
  refine ⟨findMrv_none_iff, ?_, ?_⟩
  · intro r c cs h
    obtain ⟨h1, h2, h3, -⟩ := findMrv_some_spec h
    exact ⟨h1, h2, h3⟩
  · intro hno hex
    refine mrvScan_zero_guarantee b m allCells none 10 ?_ ?_
    · intro p hp
      obtain ⟨h1, h2⟩ := mem_allCells.mp hp
      exact hno p.1 h1 p.2 h2
    · obtain ⟨r, hr, c, hc, hz, h0⟩ := hex
      exact ⟨(r, c), mem_allCells.mpr ⟨hr, hc⟩, hz, h0⟩

/-- Witness for C6 at a concrete board and mask state. -/
theorem claim_C6_witness :
    findMrvCellBitmask exBoardC6 (initBitmasks exBoardC6) = none ↔
      ∀ r < 9, ∀ c < 9, getC exBoardC6 r c ≠ 0 :=
  (claim_C6 exBoardC6 (initBitmasks exBoardC6)).1

/-- C6 counterexample: the board has a zero-candidate empty cell at `(8, 8)`,
yet the query returns the single-candidate cell `(0, 0)` found earlier in the
scan, skipping the unsolvable-state signal. -/
theorem claim_C6_counterexample :
    (getC exBoardC6 8 8 = 0 ∧
     popCount (candidatesBitmask exBoardC6 (initBitmasks exBoardC6) 8 8) = 0) ∧
    findMrvCellBitmask exBoardC6 (initBitmasks exBoardC6) =
      some (0, 0, [1]) := by
  decide

theorem map_getD_range {l : List Nat} (h : l.length = 9) :
    (List.range 9).map (fun i => l.getD i 0) = l := by
  apply List.ext_getElem (by simp [h])
  intro i h1 h2
  rw [List.getElem_map, List.getElem_range]
  rw [listGetD_lt (by omega)]

theorem unit_perm_of_index_perm {nums : List Nat} (h9 : nums.length = 9)
    {idxs : List Nat} (hperm : idxs.Perm (List.range 9)) :
    (idxs.map (fun i => nums.getD i 0)).Perm nums := by
  have h := hperm.map (fun i => nums.getD i 0)
  rw [map_getD_range h9] at h
  exact h

theorem WF_basePattern (nums : List Nat) : WF (basePattern nums) := by
  constructor
  · simp [basePattern]
  · intro row hrow
    unfold basePattern at hrow
    obtain ⟨r, -, rfl⟩ := List.mem_map.mp hrow
    simp

theorem rowVals_basePattern (nums : List Nat) {r : Nat} (hr : r < 9) :
    rowVals (basePattern nums) r =
      ((List.range 9).map (patternF r)).map (fun i => nums.getD i 0) := by
  unfold rowVals basePattern
  rw [listGetD_lt (by simp; omega)]
  rw [List.getElem_map, List.getElem_range, List.map_map]
  rfl

theorem getC_basePattern {nums : List Nat} {r c : Nat} (hr : r < 9)
    (hc : c < 9) :
    getC (basePattern nums) r c = nums.getD (patternF r c) 0 := by
  show (rowVals (basePattern nums) r).getD c 0 = _
  rw [rowVals_basePattern nums hr, List.map_map]
  rw [listGetD_lt (by simp; omega)]
  rw [List.getElem_map, List.getElem_range]
  rfl

theorem colVals_basePattern (nums : List Nat) {c : Nat} (hc : c < 9) :
    colVals (basePattern nums) c =
      ((List.range 9).map (fun r => patternF r c)).map
        (fun i => nums.getD i 0) := by
  unfold colVals
  rw [List.map_map]
  apply List.map_congr_left
  intro r hr
  rw [List.mem_range] at hr
  exact getC_basePattern hr hc

theorem boxListAt_pairs (b : Board) (br bc : Nat) :
    boxListAt b br bc =
      ([(0, 0), (0, 1), (0, 2), (1, 0), (1, 1), (1, 2), (2, 0), (2, 1),
        (2, 2)] : List (Nat × Nat)).map
        (fun ij => getC b (3 * br + ij.1) (3 * bc + ij.2)) := by
  rw [boxListAt_eq]
  rfl

theorem boxListAt_basePattern (nums : List Nat) {br bc : Nat} (hbr : br < 3)
    (hbc : bc < 3) :
    boxListAt (basePattern nums) br bc =
      (([(0, 0), (0, 1), (0, 2), (1, 0), (1, 1), (1, 2), (2, 0), (2, 1),
         (2, 2)] : List (Nat × Nat)).map
        (fun ij => patternF (3 * br + ij.1) (3 * bc + ij.2))).map
        (fun i => nums.getD i 0) := by
  rw [boxListAt_pairs, List.map_map]
  apply List.map_congr_left
  intro ij hij
  have hb : ∀ ij2 ∈ ([(0, 0), (0, 1), (0, 2), (1, 0), (1, 1), (1, 2), (2, 0),
      (2, 1), (2, 2)] : List (Nat × Nat)), ij2.1 < 3 ∧ ij2.2 < 3 := by decide
  obtain ⟨h1, h2⟩ := hb ij hij
  exact getC_basePattern (by omega) (by omega)

theorem patternF_row_perm : ∀ r < 9,
    ((List.range 9).map (patternF r)).Perm (List.range 9) := by decide

theorem patternF_col_perm : ∀ c < 9,
    ((List.range 9).map (fun r => patternF r c)).Perm (List.range 9) := by
  decide

theorem patternF_box_perm : ∀ br < 3, ∀ bc < 3,
    ((([(0, 0), (0, 1), (0, 2), (1, 0), (1, 1), (1, 2), (2, 0), (2, 1),
        (2, 2)] : List (Nat × Nat)).map
      (fun ij => patternF (3 * br + ij.1) (3 * bc + ij.2)))).Perm
      (List.range 9) := by decide

theorem unitPerms_basePattern {nums : List Nat}
    (hnums : nums.Perm [1, 2, 3, 4, 5, 6, 7, 8, 9]) :
    UnitPerms (basePattern nums) := by
  have h9 : nums.length = 9 := by
    have := hnums.length_eq
    simpa using this
  refine ⟨?_, ?_, ?_⟩
  · intro r hr
    rw [rowVals_basePattern nums hr]
    exact (unit_perm_of_index_perm h9 (patternF_row_perm r hr)).trans hnums
  · intro c hc
    rw [colVals_basePattern nums hc]
    exact (unit_perm_of_index_perm h9 (patternF_col_perm c hc)).trans hnums
  · intro br hbr bc hbc
    rw [boxListAt_basePattern nums hbr hbc]
    exact (unit_perm_of_index_perm h9
      (patternF_box_perm br hbr bc hbc)).trans hnums

theorem bandShuffled_perm {b b' : Board} (h : BandShuffled b b') :
    b'.Perm b := by
  obtain ⟨x0, x1, x2, y0, y1, y2, rfl, rfl, -, -, -, hy0, hy1, hy2⟩ := h
  exact (hy0.append hy1).append hy2

theorem length_of_bandShuffled {b b' : Board} (h9 : b.length = 9)
    (h : BandShuffled b b') : b'.length = 9 := by
  rw [(bandShuffled_perm h).length_eq, h9]

theorem WF_of_bandShuffled {b b' : Board} (hwf : WF b)
    (h : BandShuffled b b') : WF b' := by
  have hp := bandShuffled_perm h
  constructor
  · rw [hp.length_eq, hwf.1]
  · intro row hrow
    exact hwf.2 row (hp.mem_iff.mp hrow)

theorem rowVals_mem {b : Board} (h9 : b.length = 9) {r : Nat} (hr : r < 9) :
    rowVals b r ∈ b := by
  unfold rowVals
  exact getD_mem_of_lt (by omega) []

theorem rows_perm_of_perm {b b' : Board} (h9 : b.length = 9)
    (hrows : ∀ r < 9, (rowVals b r).Perm [1, 2, 3, 4, 5, 6, 7, 8, 9])
    (hp : b'.Perm b) {r : Nat} (hr : r < 9) :
    (rowVals b' r).Perm [1, 2, 3, 4, 5, 6, 7, 8, 9] := by
  have h9' : b'.length = 9 := by rw [hp.length_eq, h9]
  have hmem : rowVals b' r ∈ b := hp.mem_iff.mp (rowVals_mem h9' hr)
  obtain ⟨i, hi, hieq⟩ := List.mem_iff_getElem.mp hmem
  have heq : rowVals b i = rowVals b' r := by
    unfold rowVals
    rw [listGetD_lt hi]
    exact hieq
  rw [← heq]
  exact hrows i (by omega)

theorem colVals_eq_map {b : Board} (h9 : b.length = 9) (c : Nat) :
    colVals b c = b.map (fun row => row.getD c 0) := by
  unfold colVals
  apply List.ext_getElem (by simp [h9])
  intro i h1 h2
  have hib : i < b.length := by
    rw [List.length_map] at h2
    exact h2
  rw [List.getElem_map, List.getElem_range, List.getElem_map]
  show getC b i c = _
  unfold getC
  rw [listGetD_lt hib]

theorem cols_perm_of_perm {b b' : Board} (h9 : b.length = 9)
    (hcols : ∀ c < 9, (colVals b c).Perm [1, 2, 3, 4, 5, 6, 7, 8, 9])
    (hp : b'.Perm b) {c : Nat} (hc : c < 9) :
    (colVals b' c).Perm [1, 2, 3, 4, 5, 6, 7, 8, 9] := by
  have h9' : b'.length = 9 := by rw [hp.length_eq, h9]
  rw [colVals_eq_map h9']
  refine (hp.map (fun row => row.getD c 0)).trans ?_
  rw [← colVals_eq_map h9]
  exact hcols c hc

theorem boxListAt_flatMap (b : Board) (br bc : Nat) :
    boxListAt b br bc =
      [b.getD (3 * br) [], b.getD (3 * br + 1) [],
       b.getD (3 * br + 2) []].flatMap
        (fun row => [row.getD (3 * bc) 0, row.getD (3 * bc + 1) 0,
                     row.getD (3 * bc + 2) 0]) := by
  rw [boxListAt_pairs]
  rfl

theorem bandRows_0 {α : Type} (d : α) (z0 z1 z2 : List α)
    (h0 : z0.length = 3) :
    [(z0 ++ z1 ++ z2).getD 0 d, (z0 ++ z1 ++ z2).getD 1 d,
     (z0 ++ z1 ++ z2).getD 2 d] = z0 := by
  match z0, h0 with
  | [a, b, c], _ => rfl

theorem bandRows_1 {α : Type} (d : α) (z0 z1 z2 : List α)
    (h0 : z0.length = 3) (h1 : z1.length = 3) :
    [(z0 ++ z1 ++ z2).getD 3 d, (z0 ++ z1 ++ z2).getD 4 d,
     (z0 ++ z1 ++ z2).getD 5 d] = z1 := by
  match z0, h0, z1, h1 with
  | [a, b, c], _, [e, f, g], _ => rfl

theorem bandRows_2 {α : Type} (d : α) (z0 z1 z2 : List α)
    (h0 : z0.length = 3) (h1 : z1.length = 3) (h2 : z2.length = 3) :
    [(z0 ++ z1 ++ z2).getD 6 d, (z0 ++ z1 ++ z2).getD 7 d,
     (z0 ++ z1 ++ z2).getD 8 d] = z2 := by
  match z0, h0, z1, h1, z2, h2 with
  | [a, b, c], _, [e, f, g], _, [h, i, j], _ => rfl

theorem boxes_perm_bandShuffled {b b' : Board} (hsh : BandShuffled b b')
    (hbox : ∀ br < 3, ∀ bc < 3,
      (boxListAt b br bc).Perm [1, 2, 3, 4, 5, 6, 7, 8, 9])
    {br bc : Nat} (hbr : br < 3) (hbc : bc < 3) :
    (boxListAt b' br bc).Perm [1, 2, 3, 4, 5, 6, 7, 8, 9] := by
  obtain ⟨x0, x1, x2, y0, y1, y2, rfl, rfl, hx0, hx1, hx2, hy0, hy1, hy2⟩ := hsh
  have hly0 : y0.length = 3 := by rw [hy0.length_eq, hx0]
  have hly1 : y1.length = 3 := by rw [hy1.length_eq, hx1]
  have hly2 : y2.length = 3 := by rw [hy2.length_eq, hx2]
  interval_cases br
  · rw [boxListAt_flatMap]
    show ([(y0 ++ y1 ++ y2).getD 0 [], (y0 ++ y1 ++ y2).getD 1 [],
      (y0 ++ y1 ++ y2).getD 2 []].flatMap _).Perm _
    rw [bandRows_0 [] y0 y1 y2 hly0]
    refine (hy0.flatMap_right _).trans ?_
    rw [← bandRows_0 ([] : List Nat) x0 x1 x2 hx0]
    have hb := boxListAt_flatMap (x0 ++ x1 ++ x2) 0 bc
    show ([(x0 ++ x1 ++ x2).getD 0 [], (x0 ++ x1 ++ x2).getD 1 [],
      (x0 ++ x1 ++ x2).getD 2 []].flatMap _).Perm _
    rw [← hb]
    exact hbox 0 (by omega) bc hbc
  · rw [boxListAt_flatMap]
    show ([(y0 ++ y1 ++ y2).getD 3 [], (y0 ++ y1 ++ y2).getD 4 [],
      (y0 ++ y1 ++ y2).getD 5 []].flatMap _).Perm _
    rw [bandRows_1 [] y0 y1 y2 hly0 hly1]
    refine (hy1.flatMap_right _).trans ?_
    rw [← bandRows_1 ([] : List Nat) x0 x1 x2 hx0 hx1]
    have hb := boxListAt_flatMap (x0 ++ x1 ++ x2) 1 bc
    show ([(x0 ++ x1 ++ x2).getD 3 [], (x0 ++ x1 ++ x2).getD 4 [],
      (x0 ++ x1 ++ x2).getD 5 []].flatMap _).Perm _
    rw [← hb]
    exact hbox 1 (by omega) bc hbc
  · rw [boxListAt_flatMap]
    show ([(y0 ++ y1 ++ y2).getD 6 [], (y0 ++ y1 ++ y2).getD 7 [],
      (y0 ++ y1 ++ y2).getD 8 []].flatMap _).Perm _
    rw [bandRows_2 [] y0 y1 y2 hly0 hly1 hly2]
    refine (hy2.flatMap_right _).trans ?_
    rw [← bandRows_2 ([] : List Nat) x0 x1 x2 hx0 hx1 hx2]
    have hb := boxListAt_flatMap (x0 ++ x1 ++ x2) 2 bc
    show ([(x0 ++ x1 ++ x2).getD 6 [], (x0 ++ x1 ++ x2).getD 7 [],
      (x0 ++ x1 ++ x2).getD 8 []].flatMap _).Perm _
    rw [← hb]
    exact hbox 2 (by omega) bc hbc

theorem unitPerms_bandShuffled {b b' : Board} (hwf : WF b)
    (hsh : BandShuffled b b') (hU : UnitPerms b) : UnitPerms b' := by
  obtain ⟨hrows, hcols, hboxes⟩ := hU
  have hp := bandShuffled_perm hsh
  exact ⟨fun r hr => rows_perm_of_perm hwf.1 hrows hp hr,
    fun c hc => cols_perm_of_perm hwf.1 hcols hp hc,
    fun br hbr bc hbc => boxes_perm_bandShuffled hsh hboxes hbr hbc⟩

theorem WF_transpose9 (b : Board) : WF (transpose9 b) := by
  constructor
  · simp [transpose9]
  · intro row hrow
    unfold transpose9 at hrow
    obtain ⟨c, -, rfl⟩ := List.mem_map.mp hrow
    simp

theorem rowVals_transpose9 (b : Board) {c : Nat} (hc : c < 9) :
    rowVals (transpose9 b) c = colVals b c := by
  unfold rowVals transpose9 colVals
  rw [listGetD_lt (by simp; omega)]
  rw [List.getElem_map, List.getElem_range]

theorem getC_transpose9 {b : Board} {i j : Nat} (hi : i < 9) (hj : j < 9) :
    getC (transpose9 b) i j = getC b j i := by
  show (rowVals (transpose9 b) i).getD j 0 = _
  rw [rowVals_transpose9 b hi]
  unfold colVals
  rw [listGetD_lt (by simp; omega), List.getElem_map, List.getElem_range]

theorem rowVals_eq_map {b : Board} (hwf : WF b) {r : Nat} (hr : r < 9) :
    rowVals b r = (List.range 9).map (fun c => getC b r c) := by
  apply List.ext_getElem (by simp [rowVals_length hwf hr])
  intro i h1 h2
  rw [List.getElem_map, List.getElem_range]
  exact (listGetD_lt h1 0).symm

theorem colVals_transpose9 {b : Board} (hwf : WF b) {r : Nat} (hr : r < 9) :
    colVals (transpose9 b) r = rowVals b r := by
  rw [rowVals_eq_map hwf hr]
  unfold colVals
  apply List.map_congr_left
  intro i hi
  rw [List.mem_range] at hi
  exact getC_transpose9 hi hr

theorem boxListAt_transpose9 {b : Board} {br bc : Nat} (hbr : br < 3)
    (hbc : bc < 3) :
    (boxListAt (transpose9 b) br bc).Perm (boxListAt b bc br) := by
  rw [boxListAt_pairs, boxListAt_pairs]
  have h1 : (([(0, 0), (0, 1), (0, 2), (1, 0), (1, 1), (1, 2), (2, 0), (2, 1),
      (2, 2)] : List (Nat × Nat))).map
      (fun ij => getC (transpose9 b) (3 * br + ij.1) (3 * bc + ij.2)) =
      (([(0, 0), (0, 1), (0, 2), (1, 0), (1, 1), (1, 2), (2, 0), (2, 1),
        (2, 2)] : List (Nat × Nat)).map Prod.swap).map
      (fun ij => getC b (3 * bc + ij.1) (3 * br + ij.2)) := by
    rw [List.map_map]
    apply List.map_congr_left
    intro ij hij
    have hb : ∀ p ∈ ([(0, 0), (0, 1), (0, 2), (1, 0), (1, 1), (1, 2), (2, 0),
        (2, 1), (2, 2)] : List (Nat × Nat)), p.1 < 3 ∧ p.2 < 3 := by decide
    obtain ⟨u1, u2⟩ := hb ij hij
    show getC (transpose9 b) (3 * br + ij.1) (3 * bc + ij.2) =
      getC b (3 * bc + ij.2) (3 * br + ij.1)
    exact getC_transpose9 (by omega) (by omega)
  rw [h1]
  refine List.Perm.map _ ?_
  decide

theorem unitPerms_transpose9 {b : Board} (hwf : WF b) (hU : UnitPerms b) :
    UnitPerms (transpose9 b) := by
  obtain ⟨hrows, hcols, hboxes⟩ := hU
  refine ⟨?_, ?_, ?_⟩
  · intro r hr
    rw [rowVals_transpose9 b hr]
    exact hcols r hr
  · intro c hc
    rw [colVals_transpose9 hwf hc]
    exact hrows c hc
  · intro br hbr bc hbc
    exact (boxListAt_transpose9 hbr hbc).trans (hboxes bc hbc br hbr)

theorem unitPerms_fullBoardGen {b : Board} (h : FullBoardGen b) :
    UnitPerms b := by
  obtain ⟨nums, hnums, t, u, hbt, hbu, rfl⟩ := h
  have hwf0 := WF_basePattern nums
  have hU0 := unitPerms_basePattern hnums
  have hwf1 := WF_of_bandShuffled hwf0 hbt
  have hU1 := unitPerms_bandShuffled hwf0 hbt hU0
  have hwf2 := WF_transpose9 t
  have hU2 := unitPerms_transpose9 hwf1 hU1
  have hwf3 := WF_of_bandShuffled hwf2 hbu
  have hU3 := unitPerms_bandShuffled hwf2 hbu hU2
  exact unitPerms_transpose9 hwf3 hU3

/-! ## Claim C7 -/

/-- C7 (confirmed): every reference grid reachable by `get_base_pattern`
followed by `shuffle_board` has every row, column and 3×3 box a permutation
of the digits 1..9. -/
theorem claim_C7 (b : Board) (h : FullBoardGen b) : UnitPerms b :=
  unitPerms_fullBoardGen h

/-- Witness for C7 at a concrete generated grid. -/
theorem claim_C7_witness : FullBoardGen exFullBoard ∧ UnitPerms exFullBoard :=
  ⟨fullBoardGen_exFullBoard, claim_C7 exFullBoard fullBoardGen_exFullBoard⟩

end SudokuDuel
